import Mathlib

/-!
Verification development for the baycat one-way directory synchronizer.

This file gives a shallow embedding, in Lean 4, of the core of baycat:

* `Entry` embeds `LocalFile` / `S3File` (src/baycat/local_file.py,
  src/baycat/s3_file.py): per-path metadata records.  The Python classes
  differ only in their mtime comparison threshold and in which metadata
  fields can be absent; both are captured by one structure with a `kind`
  tag that drives the `delta` dispatch, exactly as Python dynamic dispatch
  does on `self`.
* `Manifest` embeds src/baycat/manifest.py: an insertion-ordered mapping
  from relative path to `Entry` (Python `dict`), plus the selector list,
  the reserved-metadata-path policy and `diff_from`.
* `SyncStrategy` embeds src/baycat/sync_strategies.py for the
  local-to-local strategy, over an explicit model of the POSIX filesystem
  (`Fs`): a finite map from relative path to `Node`.  Removing or creating
  a directory entry disturbs the parent directory's mtime (as POSIX does);
  chown/chmod/utime do not.  Fresh timestamps come from a monotone clock
  threaded through the state.  Fallible OS calls return `Except`; the
  engine wrappers consume failures exactly where the Python code does
  (and propagate them where it does not, notably the `except Execption`
  typo in `rm_file`).
* JSON serialization (src/baycat/json_serdes.py and the
  `to_json_obj`/`from_json_obj` pairs) is embedded over a small `JVal`
  JSON value type, keyed dictionaries included, so that missing-key
  (`KeyError`) behaviour is represented faithfully.

Machine integers do not occur: all Python ints here are unbounded, so they
are embedded as `Int`/`Nat` directly.  Checksum digests are kept abstract
(a digest-valued function of the file path); no claim below depends on
actual MD5 values.
-/

set_option maxHeartbeats 1600000

namespace Baycat

/-! ### Association lists

Python `dict`s (`Manifest.entries`, and our filesystem model) are embedded
as insertion-ordered association lists with the usual first-match lookup.
`aset` mirrors `d[k] = v` (replace in place, or append when absent),
`aerase` mirrors `del d[k]` / removal, `aupd` updates a present value in
place. -/

def alookup {A : Type} : List (String × A) → String → Option A
  | [], _ => none
  | (k, v) :: t, q => if q = k then some v else alookup t q

def akeys {A : Type} (l : List (String × A)) : List String :=
  l.map (fun e => e.1)

def aerase {A : Type} : List (String × A) → String → List (String × A)
  | [], _ => []
  | (k', v) :: t, k => if k' = k then aerase t k else (k', v) :: aerase t k

def areplace {A : Type} : List (String × A) → String → A → List (String × A)
  | [], _, _ => []
  | (k', w) :: t, k, v => if k' = k then (k', v) :: areplace t k v else (k', w) :: areplace t k v

def aset {A : Type} (l : List (String × A)) (k : String) (v : A) : List (String × A) :=
  if (alookup l k).isSome then areplace l k v else l ++ [(k, v)]

def aupd {A : Type} : List (String × A) → String → (A → A) → List (String × A)
  | [], _, _ => []
  | (k', w) :: t, k, f => if k' = k then (k', f w) :: aupd t k f else (k', w) :: aupd t k f

@[simp] theorem alookup_nil {A : Type} (q : String) : alookup ([] : List (String × A)) q = none := rfl

@[simp] theorem alookup_cons {A : Type} (k : String) (v : A) (t : List (String × A)) (q : String) :
    alookup ((k, v) :: t) q = if q = k then some v else alookup t q := rfl

theorem alookup_append {A : Type} (l₁ l₂ : List (String × A)) (q : String) :
    alookup (l₁ ++ l₂) q = ((alookup l₁ q).orElse (fun _ => alookup l₂ q)) := by
  induction l₁ with
  | nil => simp [alookup]
  | cons e t ih =>
    obtain ⟨k, v⟩ := e
    by_cases h : q = k <;> simp [alookup, h, ih]

theorem alookup_isSome_iff_mem_akeys {A : Type} (l : List (String × A)) (q : String) :
    (alookup l q).isSome = true ↔ q ∈ akeys l := by
  induction l with
  | nil => simp [alookup, akeys]
  | cons e t ih =>
    obtain ⟨k, v⟩ := e
    by_cases h : q = k <;> simp [alookup, akeys, h] at * <;> simp [ih, akeys]

theorem alookup_eq_none_iff_not_mem_akeys {A : Type} (l : List (String × A)) (q : String) :
    alookup l q = none ↔ ¬ q ∈ akeys l := by
  rw [← alookup_isSome_iff_mem_akeys]
  cases h : alookup l q <;> simp [h]

theorem alookup_aerase {A : Type} (l : List (String × A)) (k q : String) :
    alookup (aerase l k) q = if q = k then none else alookup l q := by
  induction l with
  | nil => simp [aerase, alookup]
  | cons e t ih =>
    obtain ⟨k', v⟩ := e
    by_cases hk : k' = k
    · subst hk; by_cases hq : q = k' <;> simp_all [aerase, alookup]
    · have hk2 : ¬ k = k' := fun h => hk h.symm
      by_cases hq : q = k' <;> simp_all [aerase, alookup]

theorem alookup_areplace {A : Type} (l : List (String × A)) (k q : String) (v : A) :
    alookup (areplace l k v) q =
      if q = k then (alookup l k).map (fun _ => v) else alookup l q := by
  induction l with
  | nil => simp [areplace, alookup]
  | cons e t ih =>
    obtain ⟨k', w⟩ := e
    by_cases hk : k' = k
    · subst hk; by_cases hq : q = k' <;> simp_all [areplace, alookup]
    · have hk2 : ¬ k = k' := fun h => hk h.symm
      by_cases hq : q = k' <;> simp_all [areplace, alookup]

theorem alookup_aset_self {A : Type} (l : List (String × A)) (k : String) (v : A) :
    alookup (aset l k v) k = some v := by
  unfold aset
  cases h : alookup l k with
  | none => simp [h, alookup_append, alookup]
  | some w => simp [h, alookup_areplace]

theorem alookup_aset_ne {A : Type} (l : List (String × A)) (k q : String) (v : A) (h : q ≠ k) :
    alookup (aset l k v) q = alookup l q := by
  unfold aset
  cases hk : alookup l k with
  | none =>
    rw [if_neg (by simp [hk])]
    rw [alookup_append]
    cases hq2 : alookup l q <;> simp [hq2, alookup, h]
  | some w => simp [hk, alookup_areplace, h]

theorem alookup_aupd {A : Type} (l : List (String × A)) (k q : String) (f : A → A) :
    alookup (aupd l k f) q =
      if q = k then (alookup l k).map f else alookup l q := by
  induction l with
  | nil => simp [aupd, alookup]
  | cons e t ih =>
    obtain ⟨k', w⟩ := e
    by_cases hk : k' = k
    · subst hk; by_cases hq : q = k' <;> simp_all [aupd, alookup]
    · have hk2 : ¬ k = k' := fun h => hk h.symm
      by_cases hq : q = k' <;> simp_all [aupd, alookup]

/-! ### Entries

One structure embeds both Python entry classes.  `kind` records the class
(`LocalFile` or `S3File`); it drives the dynamic dispatch of `delta` and
`get_utime`, which is the only behavioural difference relevant here.
Metadata values are `Option Int`: a `LocalFile` always carries `some`,
an `S3File` carries `none` for every field (Python `None`). -/

inductive EntryKind
  | localFile
  | s3File
deriving DecidableEq, Repr

structure EntryMeta where
  uid : Option Int
  gid : Option Int
  mode : Option Int
  atime_ns : Option Int
deriving DecidableEq, Repr

structure Entry where
  kind : EntryKind
  rel_path : String
  path : String
  is_dir : Bool
  size : Int
  mtime_ns : Int
  cksum : Option String
  cksum_type : String
  collected : Int
  metadata : EntryMeta
deriving DecidableEq, Repr

/-- Mtime comparison threshold: `LocalFile.delta` tests
`abs(...) > self.TIME_RESOLUTION_NS - 1` with `TIME_RESOLUTION_NS = 1`,
so the threshold is `0`; `S3File.delta` tests `abs(...) > 1e9`. -/
def Entry.timeThreshold (e : Entry) : Int :=
  match e.kind with
  | .localFile => 1 - 1
  | .s3File => 1000000000

/-- Tuple used for `os.utime()`.  `LocalFile.get_utime` returns
`(metadata["atime_ns"], mtime_ns)`; `S3File.get_utime` returns
`(mtime_ns, mtime_ns)`. -/
def Entry.get_utime (e : Entry) : Option Int × Int :=
  match e.kind with
  | .localFile => (e.metadata.atime_ns, e.mtime_ns)
  | .s3File => (some e.mtime_ns, e.mtime_ns)

/-- Result dictionary of `LocalFile.delta` / `S3File.delta`.  The `cksum`
field is `none` when the comparison was skipped (Python stores `None`,
which is falsy in both the classification loop and `any(...)`).
`dirty` is the `_dirty` aggregate `any(result.values())`. -/
structure EntryDelta where
  recomputed_cksum : Bool
  size : Bool
  mtime_ns : Bool
  cksum : Option Bool
  uid : Bool
  gid : Bool
  mode : Bool
  atime_ns : Bool
  dirty : Bool
deriving DecidableEq, Repr

/-- Embeds `LocalFile.delta` and `S3File.delta` (identical code apart from
the threshold, which dispatches on `self`).  The on-demand checksum
recomputation (only reachable with `compare_checksums = true`, which no
call site in the engine uses) is modelled as comparing the stored digests;
`recomputed_cksum` stays false accordingly. -/
def Entry.delta (self old_state : Entry) (compare_checksums : Bool := false) :
    Except String EntryDelta :=
  if self.rel_path ≠ old_state.rel_path then .error "PathMismatchException"
  else if self.cksum_type ≠ old_state.cksum_type then .error "ChecksumKindException"
  else if compare_checksums ∧ old_state.cksum = none then .error "ChecksumMissingException"
  else
    let szF : Bool := decide (self.size ≠ old_state.size)
    let mtF : Bool := decide (|self.mtime_ns - old_state.mtime_ns| > self.timeThreshold)
    let ckF : Option Bool :=
      if compare_checksums then some (decide (self.cksum ≠ old_state.cksum)) else none
    let uidF : Bool := decide (self.metadata.uid ≠ old_state.metadata.uid)
    let gidF : Bool := decide (self.metadata.gid ≠ old_state.metadata.gid)
    let modeF : Bool := decide (self.metadata.mode ≠ old_state.metadata.mode)
    let atF : Bool := false
    .ok { recomputed_cksum := false
          size := szF
          mtime_ns := mtF
          cksum := ckF
          uid := uidF
          gid := gidF
          mode := modeF
          atime_ns := atF
          dirty := szF || mtF || ckF.getD false || uidF || gidF || modeF || atF }

/-- Embeds `LocalFile.mark_contents_transferred` (and the identical
`S3File` method). -/
def Entry.mark_contents_transferred (e src : Entry) : Entry :=
  { e with cksum_type := src.cksum_type
           cksum := src.cksum
           size := src.size
           metadata := { e.metadata with atime_ns := src.get_utime.1 }
           mtime_ns := src.get_utime.2 }

/-- Embeds `LocalFile.mark_metadata_transferred` (and the identical
`S3File` method). -/
def Entry.mark_metadata_transferred (e src : Entry) : Entry :=
  { e with metadata := { uid := src.metadata.uid
                         gid := src.metadata.gid
                         mode := src.metadata.mode
                         atime_ns := src.get_utime.1 }
           mtime_ns := src.get_utime.2 }

/-- Value copy of an entry.  `JSONSerDes.copy` is documented as a value
copy done by a JSON round trip; the round trip itself is embedded (and
shown defective) with the serialization layer below, while the engine
model uses the documented value-copy semantics. -/
def Entry.copy (e : Entry) : Entry := e

/-! ### Manifests -/

/-- A file selector, embedded as its root path together with the sequence
of entries its `walk()` yields. -/
structure Selector where
  rootpath : String
  output : List Entry
deriving DecidableEq, Repr

structure Manifest where
  root : String
  path : String
  reservedPfx : Option String
  entries : List (String × Entry)
  selectors : List Selector
deriving DecidableEq, Repr

/-- Strip trailing slash characters (Python `str.rstrip('/')`). -/
def stripSlashR (s : String) : String :=
  String.mk (((s.data.reverse).dropWhile (fun c => c = '/')).reverse)

/-- Python `str.startswith`, computed on the character lists (the
library `String.startsWith` does not reduce inside the kernel). -/
def strStartsWith (s pfx : String) : Bool :=
  pfx.data.isPrefixOf s.data

/-- Python slicing `s[n:]`. -/
def strDrop (s : String) (n : Nat) : String :=
  String.mk (s.data.drop n)

/-- Embeds `Manifest.is_reserved_path`.  An unset or empty reserved
path prefix (Python falsy) reserves nothing. -/
def Manifest.is_reserved_path (m : Manifest) (rel_path : String) : Bool :=
  match m.reservedPfx with
  | none => false
  | some pfx =>
    if pfx = "" then false
    else strStartsWith rel_path pfx || rel_path = stripSlashR pfx

/-- Embeds `Manifest.diff_from`'s result dictionary. -/
structure Diff where
  added : List String
  deleted : List String
  contents : List String
  metadata : List String
  unchanged : List String
  regressed : List String
  new_manifest : Manifest
  old_manifest : Manifest
deriving DecidableEq, Repr

structure DiffAcc where
  contents : List String
  metadata : List String
  unchanged : List String
  regressed : List String
deriving DecidableEq, Repr

/-- One iteration of the `for p in files_common` loop of
`Manifest.diff_from`. -/
def diffStep (self old_manifest : Manifest) (st : DiffAcc) (p : String) :
    Except String DiffAcc :=
  match alookup self.entries p, alookup old_manifest.entries p with
  | some lf_new, some lf_old => do
    let fd ← lf_new.delta lf_old
    if !fd.dirty then
      pure { st with unchanged := st.unchanged ++ [p] }
    else
      let st := if lf_old.mtime_ns > lf_new.mtime_ns then
          { st with regressed := st.regressed ++ [p] } else st
      let changedSet : Bool := fd.size || fd.mtime_ns || fd.cksum.getD false
      let contents_modified : Bool := !lf_new.is_dir && changedSet
      let metadata_modified : Bool :=
        (lf_new.is_dir && changedSet) || fd.uid || fd.gid || fd.mode
      let st := if contents_modified then
          { st with contents := st.contents ++ [p] } else st
      let st := if metadata_modified then
          { st with metadata := st.metadata ++ [p] } else st
      pure st
  | _, _ => .error "KeyError"

/-- Embeds `Manifest.diff_from`.  Python iterates over sets whose order is
unspecified; the embedding fixes insertion order (the claims proved below
do not depend on the choice). -/
def Manifest.diff_from (self old_manifest : Manifest) : Except String Diff := do
  let paths_self := akeys self.entries
  let paths_old := akeys old_manifest.entries
  let files_added := paths_self.filter (fun p => decide (p ∉ paths_old))
  let files_deleted := paths_old.filter (fun p => decide (p ∉ paths_self))
  let files_common := paths_self.filter (fun p => decide (p ∈ paths_old))
  let st ← files_common.foldlM (diffStep self old_manifest)
    ⟨[], [], [], []⟩
  .ok { added := files_added
        deleted := files_deleted
        contents := st.contents
        metadata := st.metadata
        unchanged := st.unchanged
        regressed := st.regressed
        new_manifest := self
        old_manifest := old_manifest }

/-- Embeds `Manifest.mark_transferred` (the `bytes_up` manifest counter is
not modelled). -/
def Manifest.mark_transferred (m : Manifest) (rel_path : String) (src_f : Entry) : Manifest :=
  match alookup m.entries rel_path with
  | some e => { m with entries := areplace m.entries rel_path (e.mark_contents_transferred src_f) }
  | none => { m with entries := m.entries ++ [(rel_path, src_f.copy)] }

/-- Embeds `Manifest.mark_deleted`; `del` of an absent key is a
`KeyError`. -/
def Manifest.mark_deleted (m : Manifest) (rel_path : String) : Except String Manifest :=
  match alookup m.entries rel_path with
  | some _ => .ok { m with entries := aerase m.entries rel_path }
  | none => .error "KeyError"

/-- Embeds `Manifest.mark_mkdir` (delegates to `mark_transferred`). -/
def Manifest.mark_mkdir (m : Manifest) (rel_p : String) (src_f : Entry) : Manifest :=
  m.mark_transferred rel_p src_f

/-- Value copy of a manifest (see `Entry.copy` for the `copy()`
modelling note). -/
def Manifest.copy (m : Manifest) : Manifest := m

/-! ### Relative paths

Relative paths are plain strings, exactly as in the source.  `dirname`
embeds `os.path.dirname` (everything before the last slash), `nComps`
embeds `len(rel_p.split("/"))`. -/

/-- Everything before the last '/' of the string (`os.path.dirname`, for
the slash-normalized relative paths baycat uses). -/
def dirname (s : String) : String :=
  String.mk (((s.data.reverse.dropWhile (fun c => c ≠ '/')).drop 1).reverse)

theorem dirname_length_lt (s : String) (h : s ≠ "") : (dirname s).length < s.length := by
  have hd : s.data ≠ [] := by
    intro hnil
    apply h
    cases s
    simp_all
  have hpos : 0 < s.data.length := List.length_pos.mpr hd
  have hle : (s.data.reverse.dropWhile (fun c => c ≠ '/')).length ≤ s.data.length := by
    calc (s.data.reverse.dropWhile (fun c => c ≠ '/')).length
        ≤ s.data.reverse.length := (List.dropWhile_suffix _).sublist.length_le
      _ = s.data.length := List.length_reverse _
  unfold dirname
  show ((s.data.reverse.dropWhile (fun c => c ≠ '/')).drop 1).reverse.length < s.data.length
  rw [List.length_reverse, List.length_drop]
  omega

/-- Number of '/'-separated components: `len(rel_p.split("/"))`, which
for the single-character separator equals the slash count plus one. -/
def nComps (s : String) : Nat :=
  s.data.count '/' + 1

/-- Key under which a path's containing directory lives in the
filesystem model: its `dirname`, with the tree root keyed as ".". -/
def parentKey (p : String) : String :=
  if dirname p = "" then "." else dirname p

/-! ### Filesystem model

A local tree is a finite map from relative path to `Node`; the root
directory is keyed ".", matching the `rel_path` the `PathSelector` yields
for it.  Consumed POSIX primitives (spec section 6.5) act on this map.
Removing, creating or renaming an entry updates the containing
directory's mtime (as POSIX does); chown/chmod/utime do not.  Fresh
mtimes are drawn from a monotone clock threaded through the engine
state. -/

structure Node where
  is_dir : Bool
  size : Int
  mtime_ns : Int
  uid : Int
  gid : Int
  mode : Int
  atime_ns : Int
deriving DecidableEq, Repr

abbrev Fs := List (String × Node)

/-- Uid/gid a fresh file gets (the running process's identity). -/
def procUid : Int := 1000

def procGid : Int := 1000

/-- Mode bits a freshly created directory gets (default umask result). -/
def freshDirMode : Int := 493

def touchParent (fs : Fs) (p : String) (t : Int) : Fs :=
  aupd fs (parentKey p) (fun n => { n with mtime_ns := t })

def hasChild (fs : Fs) (p : String) : Bool :=
  fs.any (fun e => strStartsWith e.1 (p ++ "/"))

/-- `os.unlink`. -/
def osUnlink (fs : Fs) (p : String) (t : Int) : Except String Fs :=
  match alookup fs p with
  | none => .error "FileNotFoundError"
  | some n =>
    if n.is_dir then .error "IsADirectoryError"
    else .ok (touchParent (aerase fs p) p t)

/-- `os.rmdir`. -/
def osRmdir (fs : Fs) (p : String) (t : Int) : Except String Fs :=
  match alookup fs p with
  | none => .error "FileNotFoundError"
  | some n =>
    if !n.is_dir then .error "NotADirectoryError"
    else if hasChild fs p then .error "OSError: directory not empty"
    else .ok (touchParent (aerase fs p) p t)

/-- Chain of paths `os.makedirs` materializes for `p`: every ancestor,
shallowest first, then `p` itself.  The recursion consumes `dirname`
steps; the fuel (bounded by the path length, which `dirname` strictly
decreases) keeps it structurally recursive so that the model evaluates
inside the kernel. -/
def mkdirChainAux : Nat → String → List String
  | 0, p => [p]
  | fuel + 1, p => if dirname p = "" then [p] else mkdirChainAux fuel (dirname p) ++ [p]

def mkdirChain (p : String) : List String :=
  mkdirChainAux p.length p

theorem dirname_empty : dirname "" = "" := rfl

theorem mkdirChainAux_fuel (fuel₁ fuel₂ : Nat) (p : String)
    (h₁ : p.length ≤ fuel₁) (h₂ : p.length ≤ fuel₂) :
    mkdirChainAux fuel₁ p = mkdirChainAux fuel₂ p := by
  induction fuel₁ generalizing fuel₂ p with
  | zero =>
    have hp : p = "" := by
      cases p with
      | mk l =>
        cases l with
        | nil => rfl
        | cons c t => simp [String.length] at h₁
    subst hp
    cases fuel₂ <;> simp [mkdirChainAux, dirname_empty]
  | succ f ih =>
    cases fuel₂ with
    | zero =>
      have hp : p = "" := by
        cases p with
        | mk l =>
          cases l with
          | nil => rfl
          | cons c t => simp [String.length] at h₂
      subst hp
      simp [mkdirChainAux, dirname_empty]
    | succ f₂ =>
      simp only [mkdirChainAux]
      by_cases hd : dirname p = ""
      · simp [hd]
      · have hp : p ≠ "" := by
          intro hp
          subst hp
          exact hd rfl
        have hlt := dirname_length_lt p hp
        rw [if_neg hd, if_neg hd, ih f₂ (dirname p) (by omega) (by omega)]

theorem mkdirChain_unfold (p : String) :
    mkdirChain p = if dirname p = "" then [p] else mkdirChain (dirname p) ++ [p] := by
  by_cases hd : dirname p = ""
  · rw [if_pos hd]
    unfold mkdirChain
    cases hl : p.length with
    | zero => rfl
    | succ n => simp [mkdirChainAux, hd]
  · have hp : p ≠ "" := by
      intro hp
      subst hp
      exact hd rfl
    have hlt := dirname_length_lt p hp
    rw [if_neg hd]
    show mkdirChainAux p.length p = mkdirChain (dirname p) ++ [p]
    rw [show p.length = (p.length - 1) + 1 by omega]
    simp only [mkdirChainAux]
    rw [if_neg hd,
      mkdirChainAux_fuel (p.length - 1) (dirname p).length (dirname p) (by omega) (le_refl _)]
    rfl

def freshDir (t : Int) : Node :=
  { is_dir := true, size := 0, mtime_ns := t, uid := procUid, gid := procGid,
    mode := freshDirMode, atime_ns := t }

/-- One component of `os.makedirs`: keep an existing directory, fail on
an existing plain file, create a missing directory (touching its
parent). -/
def mkdirsStep (st : Fs × Int) (q : String) : Except String (Fs × Int) :=
  match alookup st.1 q with
  | some n => if n.is_dir then .ok st else .error "FileExistsError"
  | none => .ok (touchParent (aset st.1 q (freshDir st.2)) q st.2, st.2 + 1)

/-- `os.makedirs(path, exist_ok=True)`: create every missing directory
along the chain; a path component that exists as a plain file fails. -/
def osMakedirs (fs : Fs) (p : String) (clock : Int) : Except String (Fs × Int) :=
  (mkdirChain p).foldlM mkdirsStep (fs, clock)

/-- `SyncLocalToLocal._transfer_file`: `mkstemp` next to the destination
(the temp file requires the destination's parent directory),
`shutil.copy` from the source tree (contents and permission bits), then
`os.rename` into place. -/
def osCopyRename (srcFs fs : Fs) (p : String) (t : Int) : Except String Fs :=
  match alookup srcFs p with
  | none => .error "FileNotFoundError"
  | some nS =>
    if nS.is_dir then .error "IsADirectoryError"
    else match alookup fs (parentKey p) with
    | none => .error "FileNotFoundError"
    | some nP =>
      if !nP.is_dir then .error "NotADirectoryError"
      else match alookup fs p with
      | some nD =>
        if nD.is_dir then .error "IsADirectoryError"
        else .ok (touchParent
          (aset fs p { is_dir := false, size := nS.size, mtime_ns := t,
                       uid := procUid, gid := procGid, mode := nS.mode, atime_ns := t }) p t)
      | none => .ok (touchParent
          (aset fs p { is_dir := false, size := nS.size, mtime_ns := t,
                       uid := procUid, gid := procGid, mode := nS.mode, atime_ns := t }) p t)

/-- `os.chown`; a `None` uid/gid is a `TypeError`. -/
def osChown (fs : Fs) (p : String) (uid gid : Option Int) : Except String Fs :=
  match uid, gid with
  | some u, some g =>
    match alookup fs p with
    | none => .error "FileNotFoundError"
    | some n => .ok (areplace fs p { n with uid := u, gid := g })
  | _, _ => .error "TypeError"

/-- `os.chmod`; a `None` mode is a `TypeError`. -/
def osChmod (fs : Fs) (p : String) (mode : Option Int) : Except String Fs :=
  match mode with
  | some m =>
    match alookup fs p with
    | none => .error "FileNotFoundError"
    | some n => .ok (areplace fs p { n with mode := m })
  | none => .error "TypeError"

/-- `os.utime(path, ns=(atime, mtime))`; a `None` atime is a
`TypeError`. -/
def osUtime (fs : Fs) (p : String) (ut : Option Int × Int) : Except String Fs :=
  match ut.1 with
  | some a =>
    match alookup fs p with
    | none => .error "FileNotFoundError"
    | some n => .ok (areplace fs p { n with atime_ns := a, mtime_ns := ut.2 })
  | none => .error "TypeError"

/-! ### The sync engine (SyncStrategy, local-to-local)

The engine state carries the destination tree, the clock, the working
copy `xfer` of the destination manifest, the dirty flag, the per-run
counters, the `paths_touched` and `dir_fixups` accumulators of `sync`,
and a trace of the primitive strategy operations actually invoked
(recorded at the call sites of `_rm_file` / `_mkdir` /
`_transfer_file` / `_transfer_metadata`). -/

inductive Ev
  | rm (p : String)
  | mkdir (p : String)
  | file (p : String)
  | meta (p : String)
deriving DecidableEq, Repr

structure SyncCfg where
  srcFs : Fs
  manifest_src : Manifest
  manifest_dst : Manifest
  enable_delete : Bool
  dry_run : Bool
  overwrite_regressed : Bool
deriving Repr

/-- `SyncStrategy.__init__` disables deletion for dry runs. -/
def mkSyncCfg (srcFs : Fs) (msrc mdst : Manifest)
    (enable_delete dry_run overwrite_regressed : Bool) : SyncCfg :=
  { srcFs := srcFs
    manifest_src := msrc
    manifest_dst := mdst
    enable_delete := if dry_run && enable_delete then false else enable_delete
    dry_run := dry_run
    overwrite_regressed := overwrite_regressed }

structure SState where
  fs : Fs
  clock : Int
  xfer : Manifest
  dirty : Bool
  cRm : Nat
  cDeleteSkipped : Nat
  cXfer : Nat
  cXferMetadata : Nat
  cMkdir : Nat
  touched : List String
  fixups : List (Int × String)
  trace : List Ev
deriving DecidableEq, Repr

/-- Initial engine state (`SyncStrategy.__init__`): `manifest_xfer` is a
value copy of the destination manifest, the dirty flag is clear, the
counters are zero. -/
def initSState (cfg : SyncCfg) (dstFs : Fs) (clock : Int) : SState :=
  { fs := dstFs
    clock := clock
    xfer := cfg.manifest_dst.copy
    dirty := false
    cRm := 0
    cDeleteSkipped := 0
    cXfer := 0
    cXferMetadata := 0
    cMkdir := 0
    touched := []
    fixups := []
    trace := [] }

/-- `SyncLocalToLocal._rm_file`: dispatches on `manifest_dst`'s record of
the entry (`rmdir` for directories, `unlink` otherwise). -/
def rmFilePrim (cfg : SyncCfg) (st : SState) (rel_p : String) : Except String (Fs × Int) :=
  match alookup cfg.manifest_dst.entries rel_p with
  | none => .error "KeyError"
  | some e =>
    if e.is_dir then (osRmdir st.fs rel_p st.clock).map (fun fs => (fs, st.clock + 1))
    else (osUnlink st.fs rel_p st.clock).map (fun fs => (fs, st.clock + 1))

def markDeletedSt (st : SState) (rel_p : String) : Except String SState :=
  match st.xfer.mark_deleted rel_p with
  | .ok m => .ok { st with xfer := m }
  | .error e => .error e

/-- Embeds `SyncStrategy.rm_file`.  When deletion is enabled it invokes
the primitive inside a `try` block whose handler is the misspelled
`except Execption`: the handler name fails to resolve, so any primitive
failure escapes as a `NameError` (the dirty flag is NOT set and the
`xfer` entry is NOT removed).  When deletion is disabled (including every
dry run) the primitive is skipped but `mark_deleted` still runs. -/
def Sync.rm_file (cfg : SyncCfg) (st : SState) (rel_p : String) : Except String SState :=
  if cfg.enable_delete then
    let st := { st with cRm := st.cRm + 1, trace := st.trace ++ [Ev.rm rel_p] }
    match rmFilePrim cfg st rel_p with
    | .error _ => .error "NameError: name Execption is not defined"
    | .ok (fs', clock') => markDeletedSt { st with fs := fs', clock := clock' } rel_p
  else
    let st := { st with cDeleteSkipped := st.cDeleteSkipped + 1 }
    markDeletedSt st rel_p

/-- Embeds `SyncStrategy.transfer_file` (wrapper): looks the source entry
up (a missing key propagates), runs the primitive unless this is a dry
run or a directory, consumes primitive failures into the dirty flag, and
on the non-failure paths applies `mark_transferred` to `xfer`. -/
def Sync.transfer_file (cfg : SyncCfg) (st : SState) (rel_p : String) : Except String SState :=
  match alookup cfg.manifest_src.entries rel_p with
  | none => .error "KeyError"
  | some src_lf =>
    if !src_lf.is_dir && !cfg.dry_run then
      let st := { st with cXfer := st.cXfer + 1, trace := st.trace ++ [Ev.file rel_p] }
      match osCopyRename cfg.srcFs st.fs rel_p st.clock with
      | .error _ => .ok { st with dirty := true }
      | .ok fs' =>
        .ok { st with fs := fs', clock := st.clock + 1,
                      xfer := st.xfer.mark_transferred rel_p src_lf }
    else
      .ok { st with xfer := st.xfer.mark_transferred rel_p src_lf }

/-- `SyncLocalToLocal._transfer_metadata`: chown/chmod/utime from the
source entry, then `mark_metadata_transferred` on the `xfer` entry.  The
entry lookups happen inside the wrapper's `try`, so their failures are
consumed like any other primitive failure. -/
def xferMetaPrim (cfg : SyncCfg) (st : SState) (rel_p : String) :
    Except String (Fs × Manifest) := do
  match alookup cfg.manifest_src.entries rel_p with
  | none => .error "KeyError"
  | some src_f =>
    match alookup st.xfer.entries rel_p with
    | none => .error "KeyError"
    | some dst_f => do
      let fs ← osChown st.fs rel_p src_f.metadata.uid src_f.metadata.gid
      let fs ← osChmod fs rel_p src_f.metadata.mode
      let fs ← osUtime fs rel_p src_f.get_utime
      .ok (fs, { st.xfer with
                 entries := areplace st.xfer.entries rel_p
                   (dst_f.mark_metadata_transferred src_f) })

/-- Embeds `SyncStrategy.transfer_metadata` (wrapper).  After the
primitive (skipped in dry runs, failures consumed), the source entry is
looked up OUTSIDE the `try` (a missing key propagates) and
`mark_transferred` is applied to `xfer`. -/
def Sync.transfer_metadata (cfg : SyncCfg) (st : SState) (rel_p : String) :
    Except String SState :=
  if cfg.dry_run then
    match alookup cfg.manifest_src.entries rel_p with
    | none => .error "KeyError"
    | some src_lf => .ok { st with xfer := st.xfer.mark_transferred rel_p src_lf }
  else
    let st := { st with cXferMetadata := st.cXferMetadata + 1,
                        trace := st.trace ++ [Ev.meta rel_p] }
    match xferMetaPrim cfg st rel_p with
    | .error _ => .ok { st with dirty := true }
    | .ok (fs', xfer') =>
      let st := { st with fs := fs', xfer := xfer' }
      match alookup cfg.manifest_src.entries rel_p with
      | none => .error "KeyError"
      | some src_lf => .ok { st with xfer := st.xfer.mark_transferred rel_p src_lf }

/-- Embeds `SyncStrategy.mkdir` (wrapper around
`SyncLocalToLocal._mkdir`, which is `os.makedirs(..., exist_ok=True)`).
After the primitive, the source entry is looked up outside the `try` and
`mark_mkdir` is applied. -/
def Sync.mkdir (cfg : SyncCfg) (st : SState) (rel_p : String) : Except String SState :=
  if cfg.dry_run then
    match alookup cfg.manifest_src.entries rel_p with
    | none => .error "KeyError"
    | some src_f => .ok { st with xfer := st.xfer.mark_mkdir rel_p src_f }
  else
    let st := { st with cMkdir := st.cMkdir + 1, trace := st.trace ++ [Ev.mkdir rel_p] }
    match osMakedirs st.fs rel_p st.clock with
    | .error _ => .ok { st with dirty := true }
    | .ok (fs', clock') =>
      let st := { st with fs := fs', clock := clock' }
      match alookup cfg.manifest_src.entries rel_p with
      | none => .error "KeyError"
      | some src_f => .ok { st with xfer := st.xfer.mark_mkdir rel_p src_f }

def fxInsert (fx : List (Int × String)) (x : Int × String) : List (Int × String) :=
  if x ∈ fx then fx else fx ++ [x]

/-- The `while p_cur and p_cur != "/"` ancestor loop of
`SyncStrategy.sync`: walk `dirname` upwards, adding each proper ancestor
to the fixup set with its (negated) component depth.  Fueled like
`mkdirChainAux` to stay kernel-computable. -/
def addAncestorsAux : Nat → List (Int × String) → String → List (Int × String)
  | 0, fx, _ => fx
  | fuel + 1, fx, p =>
    let d := dirname p
    if d = "" || d = "/" then fx
    else addAncestorsAux fuel (fxInsert fx (-(nComps d : Int), d)) d

def addAncestors (fx : List (Int × String)) (p : String) : List (Int × String) :=
  addAncestorsAux p.length fx p

theorem addAncestorsAux_fuel (fuel₁ fuel₂ : Nat) (fx : List (Int × String)) (p : String)
    (h₁ : p.length ≤ fuel₁) (h₂ : p.length ≤ fuel₂) :
    addAncestorsAux fuel₁ fx p = addAncestorsAux fuel₂ fx p := by
  induction fuel₁ generalizing fuel₂ fx p with
  | zero =>
    have hp : p = "" := by
      cases p with
      | mk l =>
        cases l with
        | nil => rfl
        | cons c t => simp [String.length] at h₁
    subst hp
    cases fuel₂ <;> simp [addAncestorsAux, dirname_empty]
  | succ f ih =>
    cases fuel₂ with
    | zero =>
      have hp : p = "" := by
        cases p with
        | mk l =>
          cases l with
          | nil => rfl
          | cons c t => simp [String.length] at h₂
      subst hp
      simp [addAncestorsAux, dirname_empty]
    | succ f₂ =>
      show (if (dirname p = "" || dirname p = "/" : Bool) then fx else _) =
        (if (dirname p = "" || dirname p = "/" : Bool) then fx else _)
      by_cases hd : (decide (dirname p = "") || decide (dirname p = "/")) = true
      · rw [if_pos hd, if_pos hd]
      · have hp : p ≠ "" := by
          intro hp
          subst hp
          exact hd (by simp [dirname_empty])
        have hlt := dirname_length_lt p hp
        rw [if_neg (by exact hd), if_neg (by exact hd)]
        exact ih f₂ _ _ (by omega) (by omega)

theorem addAncestors_unfold (fx : List (Int × String)) (p : String) :
    addAncestors fx p =
      if dirname p = "" || dirname p = "/" then fx
      else addAncestors (fxInsert fx (-(nComps (dirname p) : Int), dirname p)) (dirname p) := by
  by_cases hd : (decide (dirname p = "") || decide (dirname p = "/")) = true
  · rw [if_pos (by exact hd)]
    unfold addAncestors
    cases hl : p.length with
    | zero => rfl
    | succ n =>
      show (if (dirname p = "" || dirname p = "/" : Bool) then fx else _) = fx
      rw [if_pos hd]
  · have hp : p ≠ "" := by
      intro hp
      subst hp
      exact hd (by simp [dirname_empty])
    have hlt := dirname_length_lt p hp
    rw [if_neg (by exact hd)]
    show addAncestorsAux p.length fx p = _
    rw [show p.length = (p.length - 1) + 1 by omega]
    show (if (dirname p = "" || dirname p = "/" : Bool) then fx else _) = _
    rw [if_neg (by exact hd)]
    exact addAncestorsAux_fuel (p.length - 1) (dirname p).length _ _ (by omega) (le_refl _)

/-- Ascending order on the `(-depth, dirpath)` fixup tuples (Python
tuple `sorted`). -/
def fixLe (a b : Int × String) : Prop :=
  a.1 < b.1 ∨ (a.1 = b.1 ∧ a.2 ≤ b.2)

instance : DecidableRel fixLe := fun a b =>
  inferInstanceAs (Decidable (_ ∨ _))

instance : IsTotal (Int × String) fixLe where
  total a b := by
    rcases lt_trichotomy a.1 b.1 with h | h | h
    · exact Or.inl (Or.inl h)
    · rcases le_total a.2 b.2 with h2 | h2
      · exact Or.inl (Or.inr ⟨h, h2⟩)
      · exact Or.inr (Or.inr ⟨h.symm, h2⟩)
    · exact Or.inr (Or.inl h)

instance : IsTrans (Int × String) fixLe where
  trans a b c hab hbc := by
    rcases hab with h1 | ⟨h1, h1'⟩ <;> rcases hbc with h2 | ⟨h2, h2'⟩
    · exact Or.inl (h1.trans h2)
    · exact Or.inl (h2 ▸ h1)
    · exact Or.inl (h1 ▸ h2)
    · exact Or.inr ⟨h1.trans h2, h1'.trans h2'⟩

/-- `sorted(list(dir_fixups))`: the fixup tuples in ascending tuple
order, i.e. deepest directory first.  (The elements are distinct, so any
correct sort yields the same list; a structurally recursive sort keeps
the model executable.) -/
def sortFixups (fx : List (Int × String)) : List (Int × String) :=
  List.insertionSort fixLe fx

/-- One iteration of the deletes loop of `sync`. -/
def delStep (cfg : SyncCfg) (st : SState) (rel_p : String) : Except String SState := do
  let st ← Sync.rm_file cfg st rel_p
  pure { st with touched := st.touched ++ [rel_p] }

/-- One iteration of the directory-creation loop of `sync` (files are
passed over). -/
def mkdirStep (cfg : SyncCfg) (st : SState) (rel_p : String) : Except String SState :=
  match alookup cfg.manifest_src.entries rel_p with
  | none => .error "KeyError"
  | some lf =>
    if !lf.is_dir then pure st
    else do
      let st ← Sync.mkdir cfg st rel_p
      pure { st with touched := st.touched ++ [rel_p],
                     fixups := fxInsert st.fixups (-(nComps rel_p : Int), rel_p) }

/-- One iteration of the file-additions loop of `sync` (directories are
passed over). -/
def addFileStep (cfg : SyncCfg) (st : SState) (rel_p : String) : Except String SState :=
  match alookup cfg.manifest_src.entries rel_p with
  | none => .error "KeyError"
  | some lf =>
    if lf.is_dir then pure st
    else do
      let st ← Sync.transfer_file cfg st rel_p
      let st ← Sync.transfer_metadata cfg st rel_p
      pure { st with touched := st.touched ++ [rel_p] }

/-- One iteration of the content-changes loop of `sync`, including the
regression guard. -/
def contentsStep (cfg : SyncCfg) (regressed : List String) (st : SState) (rel_p : String) :
    Except String SState :=
  if rel_p ∈ regressed ∧ ¬cfg.overwrite_regressed then pure st
  else do
    let st ← Sync.transfer_file cfg st rel_p
    let st ← Sync.transfer_metadata cfg st rel_p
    pure { st with touched := st.touched ++ [rel_p] }

/-- One iteration of the metadata-changes loop of `sync` (note the
additional `rel_p` truthiness test in the guard). -/
def metaStep (cfg : SyncCfg) (regressed : List String) (st : SState) (rel_p : String) :
    Except String SState :=
  if rel_p ≠ "" ∧ rel_p ∈ regressed ∧ ¬cfg.overwrite_regressed then pure st
  else do
    let st ← Sync.transfer_metadata cfg st rel_p
    pure { st with touched := st.touched ++ [rel_p] }

/-- One iteration of the final directory-metadata replay of `sync`:
deleted paths are skipped. -/
def replayStep (cfg : SyncCfg) (deleted : List String) (st : SState) (x : Int × String) :
    Except String SState :=
  if x.2 ∈ deleted then pure st
  else Sync.transfer_metadata cfg st x.2

/-- Embeds `SyncStrategy.sync`: diff, deletes, directory creation, file
additions, content changes, metadata changes, ancestor collection, and
the depth-descending directory metadata replay, in the source's order.
Returns the computed diff alongside the final state (whose `xfer` field
is the manifest the Python method returns). -/
def Sync.sync (cfg : SyncCfg) (st0 : SState) : Except String (Diff × SState) := do
  let diff_state ← cfg.manifest_src.diff_from cfg.manifest_dst
  let st ← diff_state.deleted.foldlM (delStep cfg) st0
  let st ← diff_state.added.foldlM (mkdirStep cfg) st
  let st ← diff_state.added.foldlM (addFileStep cfg) st
  let st ← diff_state.contents.foldlM (contentsStep cfg diff_state.regressed) st
  let st ← diff_state.metadata.foldlM (metaStep cfg diff_state.regressed) st
  let st := { st with fixups := st.touched.foldl addAncestors st.fixups }
  let st ← (sortFixups st.fixups).foldlM (replayStep cfg diff_state.deleted) st
  .ok (diff_state, st)

/-! ### Scanning a tree into a manifest

`manifestOfFs` is the manifest `Manifest.for_path` builds for a tree in
the state our filesystem model records: one `LocalFile` entry per node,
sizes and times from `stat`, no digests (`do_checksum` defaults to
false), digest algorithm MD5. -/

def entryOfNode (root p : String) (n : Node) : Entry :=
  { kind := .localFile
    rel_path := p
    path := root ++ "/" ++ p
    is_dir := n.is_dir
    size := n.size
    mtime_ns := n.mtime_ns
    cksum := none
    cksum_type := "MD5"
    collected := 0
    metadata := { uid := some n.uid, gid := some n.gid, mode := some n.mode,
                  atime_ns := some n.atime_ns } }

def manifestOfFs (root : String) (fs : Fs) : Manifest :=
  { root := root
    path := root ++ "/.baycat"
    reservedPfx := some ".baycat/"
    entries := fs.map (fun e => (e.1, entryOfNode root e.1 e.2))
    selectors := [{ rootpath := root, output := [] }] }

/-! ### Path joining and the reserved layout (util.py) -/

def METADATA_DIRNAME : String := ".baycat"

def MANIFEST_FILENAME : String := "manifest"

def collapseSlashesL : List Char → List Char
  | [] => []
  | [c] => [c]
  | c1 :: c2 :: t =>
    if c1 = '/' && c2 = '/' then collapseSlashesL (c2 :: t)
    else c1 :: collapseSlashesL (c2 :: t)

/-- Embeds `bc_path_join` (util.py): join with '/' and collapse every
double slash (the Python loop replaces "//" until none remains; the
recursion computes the same fixpoint). -/
def bc_path_join (a b : String) : String :=
  String.mk (collapseSlashesL (a ++ "/" ++ b).data)

/-! ### JSON serialization (json_serdes.py and the to/from_json_obj pairs)

JSON documents are embedded as `JVal`.  Objects are keyed field lists so
that a missing dictionary key (Python `KeyError`) is representable. -/

inductive JVal where
  | jnull
  | jstr (s : String)
  | jint (n : Int)
  | jbool (b : Bool)
  | jobj (fields : List (String × JVal))
  | jarr (items : List JVal)

def jOfOpt : Option Int → JVal
  | none => .jnull
  | some n => .jint n

def jOfOptStr : Option String → JVal
  | none => .jnull
  | some s => .jstr s

/-- Dictionary subscript `obj[k]`: a missing key raises `KeyError`. -/
def jget (l : List (String × JVal)) (k : String) : Except String JVal :=
  match alookup l k with
  | some v => .ok v
  | none => .error ("KeyError: " ++ k)

def jAsStr : JVal → Except String String
  | .jstr s => .ok s
  | _ => .error "TypeError"

def jAsInt : JVal → Except String Int
  | .jint n => .ok n
  | _ => .error "TypeError"

def jAsOptStr : JVal → Except String (Option String)
  | .jstr s => .ok (some s)
  | .jnull => .ok none
  | _ => .error "TypeError"

def jAsOptInt : JVal → Except String (Option Int)
  | .jint n => .ok (some n)
  | .jnull => .ok none
  | _ => .error "TypeError"

def jAsBool : JVal → Except String Bool
  | .jbool b => .ok b
  | _ => .error "TypeError"

/-- `LocalFile`'s `to_json_obj` is the inherited default `vars(self)`:
the instance attributes in assignment order.  Note there is a `path`
attribute but no `root_path` attribute. -/
def entryToJsonObj (e : Entry) : List (String × JVal) :=
  [("_json_classname", .jstr "LocalFile"),
   ("rel_path", .jstr e.rel_path),
   ("path", .jstr e.path),
   ("cksum", jOfOptStr e.cksum),
   ("cksum_type", .jstr e.cksum_type),
   ("is_dir", .jbool e.is_dir),
   ("collected", .jint e.collected),
   ("size", .jint e.size),
   ("mtime_ns", .jint e.mtime_ns),
   ("metadata", .jobj [("uid", jOfOpt e.metadata.uid),
                       ("gid", jOfOpt e.metadata.gid),
                       ("mode", jOfOpt e.metadata.mode),
                       ("atime_ns", jOfOpt e.metadata.atime_ns)])]

/-- Embeds `LocalFile.from_json_obj`: class-tag check, then the field
reads in source order.  The constructor call at the end reads
`obj["root_path"]` — a key `to_json_obj` never emits. -/
def entryFromJsonObj (obj : List (String × JVal)) : Except String Entry := do
  match alookup obj "_json_classname" with
  | none => .error "ValueError: Got invalid object!"
  | some (.jstr "LocalFile") =>
    let size ← jget obj "size" >>= jAsInt
    let mtime_ns ← jget obj "mtime_ns" >>= jAsInt
    let md ← jget obj "metadata"
    match md with
    | .jobj mfields => do
      let uid ← jget mfields "uid" >>= jAsOptInt
      let gid ← jget mfields "gid" >>= jAsOptInt
      let mode ← jget mfields "mode" >>= jAsOptInt
      let atime_ns ← jget mfields "atime_ns" >>= jAsOptInt
      let root_path ← jget obj "root_path" >>= jAsStr
      let rel_path ← jget obj "rel_path" >>= jAsStr
      let cksum ← jget obj "cksum" >>= jAsOptStr
      let cksum_type ← jget obj "cksum_type" >>= jAsStr
      let is_dir ← jget obj "is_dir" >>= jAsBool
      let collected ← jget obj "collected" >>= jAsInt
      .ok { kind := .localFile
            rel_path := rel_path
            path := bc_path_join root_path rel_path
            is_dir := is_dir
            size := size
            mtime_ns := mtime_ns
            cksum := cksum
            cksum_type := cksum_type
            collected := collected
            metadata := { uid := uid, gid := gid, mode := mode, atime_ns := atime_ns } }
    | _ => .error "TypeError"
  | some _ => .error "ValueError: Got invalid object!"

def selectorToJsonObj (sel : Selector) : List (String × JVal) :=
  [("_json_classname", .jstr "PathSelector"),
   ("rootpath", .jstr sel.rootpath)]

/-- Embeds `PathSelector.from_json_obj`.  A freshly decoded selector has
not walked anything yet, so its modelled `walk()` output is empty. -/
def selectorFromJsonObj (obj : List (String × JVal)) : Except String Selector := do
  match alookup obj "_json_classname" with
  | none => .error "ValueError: Got invalid object!"
  | some (.jstr "PathSelector") =>
    let rootpath ← jget obj "rootpath" >>= jAsStr
    .ok { rootpath := rootpath, output := [] }
  | some _ => .error "ValueError: Got invalid object!"

/-- Embeds `baycat_json_decoder` in entry position: tag-dispatched
decode.  An object without a tag is returned undecoded by the Python
function (and then poisons the manifest); in entry position that is a
partial decode, modelled as an error. -/
def decodeEntryObj : JVal → Except String Entry
  | .jobj fields =>
    match alookup fields "_json_classname" with
    | none => .error "TypeError: partial decode"
    | some (.jstr "LocalFile") => entryFromJsonObj fields
    | some (.jstr _) => .error "ValueError: Got unknown JSON classname"
    | some _ => .error "ValueError: Got unknown JSON classname"
  | _ => .error "TypeError: partial decode"

def decodeSelectorObj : JVal → Except String Selector
  | .jobj fields =>
    match alookup fields "_json_classname" with
    | none => .error "TypeError: partial decode"
    | some (.jstr "PathSelector") => selectorFromJsonObj fields
    | some (.jstr _) => .error "ValueError: Got unknown JSON classname"
    | some _ => .error "ValueError: Got unknown JSON classname"
  | _ => .error "TypeError: partial decode"

/-- Embeds `Manifest.to_json_obj`. -/
def manifestToJsonObj (m : Manifest) : List (String × JVal) :=
  [("_json_classname", .jstr "Manifest"),
   ("path", .jstr m.path),
   ("root", .jstr m.root),
   ("entries", .jobj (m.entries.map (fun e => (e.1, .jobj (entryToJsonObj e.2))))),
   ("selectors", .jarr (m.selectors.map (fun s => .jobj (selectorToJsonObj s))))]

/-- Reserved-path policy computed by `Manifest.__init__` from the
manifest path and the root (`path[len(root)+1:] + "/"` when the path
sits under a truthy root). -/
def reservedOfRootPath (root mpath : String) : Option String :=
  if root ≠ "" ∧ strStartsWith mpath root then some ((strDrop mpath (root.length + 1)) ++ "/")
  else none

/-- Embeds `Manifest.from_json_obj`: tag check, the `Manifest(path=...,
root=...)` constructor (which recomputes the reserved policy), then the
recursive decode of entries and selectors. -/
def manifestFromJsonObj (obj : List (String × JVal)) : Except String Manifest := do
  match alookup obj "_json_classname" with
  | none => .error "ValueError: Got invalid object!"
  | some (.jstr "Manifest") =>
    let path ← jget obj "path" >>= jAsStr
    let root ← jget obj "root" >>= jAsStr
    let entriesJ ← jget obj "entries"
    match entriesJ with
    | .jobj efields => do
      let entries ← efields.foldlM
        (fun (acc : List (String × Entry)) e => do
          let v ← decodeEntryObj e.2
          pure (acc ++ [(e.1, v)])) []
      let selsJ ← jget obj "selectors"
      match selsJ with
      | .jarr items => do
        let sels ← items.foldlM
          (fun (acc : List Selector) it => do
            let s ← decodeSelectorObj it
            pure (acc ++ [s])) []
        .ok { root := root
              path := path
              reservedPfx := reservedOfRootPath root path
              entries := entries
              selectors := sels }
      | _ => .error "TypeError"
    | _ => .error "TypeError"
  | some _ => .error "ValueError: Got invalid object!"

/-! ### Local manifest persistence (Manifest.save / Manifest.load)

The local disk consumed by `save`/`load` is a map from path to either a
directory or a file holding a JSON document. -/

inductive DiskNode where
  | dir
  | file (doc : JVal)

abbrev Disk := List (String × DiskNode)

/-- Embeds `Manifest.save`: vacuous-selector check, then the
overwrite/existence check, then the target-is-a-file check, then
`makedirs` and the write.  Each failure is raised before anything is
written, so on the error paths the disk is returned to the caller
untouched. -/
def Manifest.save (m : Manifest) (disk : Disk) (pathArg : Option String := none)
    (manifestPathArg : Option String := none) (overwrite : Bool := false) :
    Except String Disk :=
  let path := pathArg.getD m.path
  if m.selectors = [] then .error "VacuousManifestError"
  else
    let manifest_path := manifestPathArg.getD (bc_path_join path MANIFEST_FILENAME)
    if ¬overwrite ∧ (alookup disk manifest_path).isSome then
      .error "ManifestAlreadyExists"
    else match alookup disk path with
    | some (.file _) => .error "ValueError: Target path exists, but is not a directory"
    | some .dir =>
      .ok (aset disk manifest_path (.file (.jobj (manifestToJsonObj m))))
    | none =>
      .ok (aset (aset disk path .dir) manifest_path (.file (.jobj (manifestToJsonObj m))))

/-- Embeds `Manifest.load`: open the document at the default location
under the root (or the given path) and run the recursive decode. -/
def Manifest.load (root : String) (disk : Disk) (pathArg : Option String := none) :
    Except String Manifest :=
  let path := pathArg.getD (bc_path_join (bc_path_join root METADATA_DIRNAME) MANIFEST_FILENAME)
  match alookup disk path with
  | some (.file doc) =>
    match doc with
    | .jobj fields => manifestFromJsonObj fields
    | _ => .error "ValueError"
  | some .dir => .error "IsADirectoryError"
  | none => .error "FileNotFoundError"

/-! ### Population (Manifest.run_selectors) -/

/-- Digest of the file at a path (`f_ck` / `LocalFile._md5`).  The digest
value is opaque to every property below; only that it is computed and
stored is relevant, so it is modelled as a function of the path. -/
def digestOf (p : String) : String :=
  "md5:" ++ p

/-- One entry of a selector walk being folded into the manifest by
`run_selectors`: reserved paths are skipped with a debug note. -/
def selAddStep (acc : Manifest) (lf : Entry) : Manifest :=
  if acc.is_reserved_path lf.rel_path then acc
  else { acc with entries := aset acc.entries lf.rel_path lf }

/-- Embeds `Manifest.run_selectors`: walk every selector, skipping
reserved paths, then (when requested) fill in digests for every
non-directory entry.  The worker pool only parallelizes the digest
computation; the merged result is the same map. -/
def Manifest.run_selectors (m : Manifest) (do_checksum : Bool) : Manifest :=
  let m := m.selectors.foldl (fun acc sel => sel.output.foldl selAddStep acc) m
  if do_checksum then
    { m with entries :=
        m.entries.map (fun e =>
          if e.2.is_dir then e else (e.1, { e.2 with cksum := some (digestOf e.1) })) }
  else m

/-! ### The object-store manifest (s3_manifest.py, s3_file.py) -/

def S3MANIFEST_DIR_KEY : String := ".baycat"

def S3MANIFEST_FILE_KEY : String := "s3manifest"

def S3MANIFEST_KEY : String := S3MANIFEST_DIR_KEY ++ "/" ++ S3MANIFEST_FILE_KEY

/-- One record of a `list_objects_v2` listing.  `etag` is the digest
without the quote characters the wire format carries; `lastModifiedNs`
is `LastModified` converted to nanoseconds (the source multiplies the
epoch-second timestamp by 1e9). -/
structure ObjSum where
  key : String
  etag : String
  size : Int
  lastModifiedNs : Int
deriving DecidableEq, Repr

structure S3Manifest where
  bucket_name : String
  root : String
  path : String
  entries : List (String × Entry)
deriving DecidableEq, Repr

/-- Modelled from the spec: `S3Manifest._add_entry` calls
`S3File.from_objsum(self.root, objsum)`, which is absent from src/ (only
this caller and the `S3File` constructor, which takes exactly a root
path and an object summary, are present).  Spec 4.6: "Construct an Entry
from the listing (ETag as digest, listed size, LastModified as mtime in
seconds)", i.e. the `S3File.__init__` construction, which this
definition follows: `rel_path` strips the root prefix
(`_s3path_to_rel`), the digest is the unquoted ETag, and every POSIX
metadata field is unknown. -/
def S3File.from_objsum (root_path : String) (o : ObjSum) : Entry :=
  { kind := .s3File
    rel_path := strDrop o.key root_path.length
    path := o.key
    is_dir := false
    size := o.size
    mtime_ns := o.lastModifiedNs
    cksum := some o.etag
    cksum_type := "MD5"
    collected := 0
    metadata := { uid := none, gid := none, mode := none, atime_ns := none } }

/-- Embeds `S3Manifest._add_entry`: skip the manifest's own key and its
directory placeholder; keep an existing clean entry; otherwise adopt the
listed object. -/
def S3Manifest.add_entry (m : S3Manifest) (objsum : ObjSum) : Except String S3Manifest :=
  let s3f := S3File.from_objsum m.root objsum
  let dpath := s3f.rel_path
  if dpath = S3MANIFEST_KEY ∨ dpath = S3MANIFEST_DIR_KEY then .ok m
  else
    match alookup m.entries dpath with
    | some e => do
      let d ← s3f.delta e
      if ¬d.dirty then .ok m
      else .ok { m with entries := aset m.entries dpath s3f }
    | none => .ok { m with entries := aset m.entries dpath s3f }

/-- Embeds `S3Manifest.update`: fold `_add_entry` over the listing of
the bucket under the root prefix.  Pagination (continuation tokens) only
chunks the listing; the concatenated listing is the input here. -/
def S3Manifest.update (m : S3Manifest) (listing : List ObjSum) : Except String S3Manifest :=
  listing.foldlM S3Manifest.add_entry m

/-- What an object-store key holds. -/
inductive S3Stored where
  | blob (o : ObjSum)
  | manifestDoc (m : S3Manifest)

abbrev S3Store := List (String × S3Stored)

/-- Embeds `S3Manifest.save`: the manifest document is uploaded to
`bc_path_join(root, path)` unconditionally — there is no check of
whether an object already exists at the key.  `overwrite` defaults to
true, and passing false raises `ValueError` before anything is
uploaded. -/
def S3Manifest.save (m : S3Manifest) (store : S3Store) (pathArg : Option String := none)
    (overwrite : Bool := true) : Except String S3Store :=
  let path := pathArg.getD (bc_path_join m.root m.path)
  if ¬overwrite then
    .error "ValueError: Request to not overwrite a manifest in S3, but I am lazy."
  else
    .ok (aset store path (.manifestDoc m))

instance {ε α : Type} [DecidableEq ε] [DecidableEq α] : DecidableEq (Except ε α) := fun a b =>
  match a, b with
  | .ok x, .ok y => if h : x = y then isTrue (by rw [h]) else isFalse (by simpa using h)
  | .error x, .error y => if h : x = y then isTrue (by rw [h]) else isFalse (by simpa using h)
  | .ok _, .error _ => isFalse (by simp)
  | .error _, .ok _ => isFalse (by simp)

/-! ### Concrete sample data used by counterexamples and witnesses -/

def mkNode (d : Bool) (sz mt : Int) : Node :=
  { is_dir := d, size := sz, mtime_ns := mt, uid := 5, gid := 6, mode := 420, atime_ns := 1 }

def mkLocalEntry (p : String) (d : Bool) (sz mt : Int) : Entry :=
  { kind := .localFile
    rel_path := p
    path := "/r/" ++ p
    is_dir := d
    size := sz
    mtime_ns := mt
    cksum := none
    cksum_type := "MD5"
    collected := 0
    metadata := { uid := some 5, gid := some 6, mode := some 420, atime_ns := some 1 } }

def mkS3Entry (p : String) (sz mt : Int) : Entry :=
  { kind := .s3File
    rel_path := p
    path := "/oh/no/" ++ p
    is_dir := false
    size := sz
    mtime_ns := mt
    cksum := some "d41d8cd98f00b204e9800998ecf8427e"
    cksum_type := "MD5"
    collected := 0
    metadata := { uid := none, gid := none, mode := none, atime_ns := none } }

/-- Source tree for the regression-guard counterexample: a root and one
file. -/
def fsC1src : Fs := [(".", mkNode true 0 10), ("a", mkNode false 3 100)]

/-- Destination tree whose copy of the file carries a NEWER mtime than
the source (it was modified behind baycat's back). -/
def fsC1dst : Fs := [(".", mkNode true 0 10), ("a", mkNode false 4 200)]

def cfgC1 : SyncCfg :=
  mkSyncCfg fsC1src (manifestOfFs "/s" fsC1src) (manifestOfFs "/d" fsC1dst) true false false

/-- Source tree with two top-level files, destination with a stale file:
exercises deletes, transfers and the dry-run path. -/
def fsC2src : Fs :=
  [(".", mkNode true 0 10), ("f1", mkNode false 3 100), ("f2", mkNode false 7 50)]

def fsC2dst : Fs := [(".", mkNode true 0 10), ("gone", mkNode false 1 5)]

def cfgC2dry : SyncCfg :=
  mkSyncCfg fsC2src (manifestOfFs "/s" fsC2src) (manifestOfFs "/d" fsC2dst) true true false

def cfgC6 : SyncCfg :=
  mkSyncCfg fsC2src (manifestOfFs "/s" fsC2src) (manifestOfFs "/d" fsC2dst) false false false

/-- Destination whose manifest still lists a file "gone" that is no
longer on disk: the delete primitive raises. -/
def fsC3dstdisk : Fs := [(".", mkNode true 0 10)]

def cfgC3 : SyncCfg :=
  mkSyncCfg fsC3dstdisk (manifestOfFs "/s" fsC3dstdisk) (manifestOfFs "/d" fsC2dst)
    true false false

def mC7empty : Manifest :=
  { root := "/r", path := "/r/.baycat", reservedPfx := some ".baycat/",
    entries := [], selectors := [] }

def mC7 : Manifest :=
  { mC7empty with
    selectors := [{ rootpath := "/r", output := [] }]
    entries := [("a", mkLocalEntry "a" false 3 100)] }

def diskC7 : Disk := [("/r/.baycat/manifest", .file .jnull)]

def mC4 : Manifest :=
  { root := "/r", path := "/r/.baycat", reservedPfx := some ".baycat/",
    entries := [("a", mkLocalEntry "a" false 3 100)],
    selectors := [{ rootpath := "/r", output := [] }] }

def mC5new : Manifest :=
  { root := "", path := "x", reservedPfx := none,
    entries := [("x", mkS3Entry "x" 3 100)], selectors := [] }

def mC5old : Manifest :=
  { mC5new with entries := [("x", mkS3Entry "x" 3 (100 + 500000000))] }

def smC8 : S3Manifest :=
  { bucket_name := "b", root := "", path := S3MANIFEST_KEY, entries := [] }

def oC8 : ObjSum := { key := ".baycat/evil", etag := "e", size := 1, lastModifiedNs := 0 }

def deC9 : EntryDelta :=
  { recomputed_cksum := false, size := false, mtime_ns := false, cksum := none,
    uid := false, gid := false, mode := false, atime_ns := false, dirty := false }

/-! ## Claim theorems -/

/-- C10: `S3Manifest.save` never checks whether a manifest object already
exists at the destination key.  With `overwrite=false` it raises
`ValueError` before uploading anything (no store it could have produced),
and with the default `overwrite=true` it unconditionally uploads,
replacing whatever is stored at that key — for every store, whether or
not the key is present. -/
theorem C10_s3_save_unconditional (m : S3Manifest) (store : S3Store) (pa : Option String) :
    m.save store pa false =
      .error "ValueError: Request to not overwrite a manifest in S3, but I am lazy." ∧
    m.save store pa true =
      .ok (aset store (pa.getD (bc_path_join m.root m.path)) (.manifestDoc m)) := by
  constructor <;> rfl

/-- C7: `Manifest.save` raises `VacuousManifestError` whenever the
manifest has no selectors, and (when selectors are present) raises
`ManifestAlreadyExists` whenever the target manifest file exists and
overwrite was not requested.  Both checks fire before anything is
written: on these paths `save` returns an error and produces no disk, so
the previously saved file is unchanged. -/
theorem C7_manifest_save_refusals (m : Manifest) (disk : Disk) (pa mpa : Option String)
    (ow : Bool) :
    (m.selectors = [] → m.save disk pa mpa ow = .error "VacuousManifestError") ∧
    (m.selectors ≠ [] →
      (alookup disk (mpa.getD (bc_path_join (pa.getD m.path) MANIFEST_FILENAME))).isSome →
      m.save disk pa mpa false = .error "ManifestAlreadyExists") := by
  constructor
  · intro h
    unfold Manifest.save
    simp [h]
  · intro h hex
    unfold Manifest.save
    simp [h, hex]

/-- Witness for C7 at concrete inputs: a selector-less manifest is
refused as vacuous, and a populated manifest is refused when the target
file already exists without overwrite. -/
theorem C7_witness :
    (mC7empty.selectors = [] ∧
      mC7empty.save [] none none false = .error "VacuousManifestError") ∧
    (mC7.selectors ≠ [] ∧
      (alookup diskC7 ((none : Option String).getD
        (bc_path_join ((none : Option String).getD mC7.path) MANIFEST_FILENAME))).isSome ∧
      mC7.save diskC7 none none false = .error "ManifestAlreadyExists") := by
  refine ⟨⟨rfl, ?_⟩, ⟨by decide, by decide, ?_⟩⟩
  · exact (C7_manifest_save_refusals mC7empty [] none none false).1 rfl
  · exact (C7_manifest_save_refusals mC7 diskC7 none none false).2 (by decide) (by decide)

/-- Helper for C4: for EVERY entry, decoding the dictionary
`to_json_obj` emits raises `KeyError` on the missing `root_path` key —
`vars(self)` stores the absolute `path`, but `from_json_obj` reads
`obj["root_path"]`. -/
theorem entry_round_trip_keyerror (e : Entry) :
    entryFromJsonObj (entryToJsonObj e) = .error "KeyError: root_path" := by
  obtain ⟨kind, rp, pa, isd, sz, mt, ck, ckt, col, uid, gid, mode, at_⟩ := e
  cases uid <;> cases gid <;> cases mode <;> cases at_ <;> rfl

/-- C4: the save/load round trip of a populated local manifest does not
return an equal manifest — it raises.  `LocalFile.from_json_obj` reads
`obj["root_path"]`, a key the serializer never emits, so loading the
saved document fails with `KeyError: root_path` (the repo's own
`test_serdes__happy_path` and `test_save_load__happy_path` require the
round trip to succeed and compare equal). -/
theorem C4_load_save_keyerror :
    ((mC4.save [] none none true) >>= fun dk => Manifest.load "/r" dk none) =
      .error "KeyError: root_path" ∧
    (mC4.save [] none none true).toOption.isSome = true := by
  constructor <;> rfl

/-- C3: with deletes enabled, a failing delete primitive escapes
`sync()` as a `NameError` (the handler is the misspelled
`except Execption`), instead of being logged and consumed into the dirty
flag as the method's docstring promises.  Here the destination manifest
lists a file that is already gone from the destination tree, so
`_rm_file` raises and the whole sync aborts. -/
theorem C3_failing_delete_propagates :
    Sync.sync cfgC3 (initSState cfgC3 fsC3dstdisk 1000) =
      .error "NameError: name Execption is not defined" ∧
    Sync.rm_file cfgC3 (initSState cfgC3 fsC3dstdisk 1000) "gone" =
      .error "NameError: name Execption is not defined" := by
  constructor <;> rfl

/-- C9 (amended): the mtime comparison tolerance is selected by the
class of the NEW-side entry alone — 1 s when the new entry is an
object-store entry, 1 ns (any difference flagged) when it is local —
regardless of what the old side is. -/
theorem C9_mtime_resolution (self old : Entry) (de : EntryDelta)
    (hde : self.delta old = .ok de) :
    de.mtime_ns = decide (|self.mtime_ns - old.mtime_ns| > self.timeThreshold) ∧
    (self.kind = .localFile → self.timeThreshold = 0) ∧
    (self.kind = .s3File → self.timeThreshold = 1000000000) := by
  refine ⟨?_, fun h => by simp [Entry.timeThreshold, h], fun h => by simp [Entry.timeThreshold, h]⟩
  unfold Entry.delta at hde
  split at hde
  · exact absurd hde (by simp)
  · split at hde
    · exact absurd hde (by simp)
    · split at hde
      · exact absurd hde (by simp)
      · cases hde
        rfl

/-- Witness for C9: two object-store entries 1 ns apart compare clean
(the 1 s tolerance), and the stated formula holds. -/
theorem C9_witness :
    (mkS3Entry "x" 3 100).delta (mkS3Entry "x" 3 101) = .ok deC9 ∧
    (deC9.mtime_ns =
        decide (|(mkS3Entry "x" 3 100).mtime_ns - (mkS3Entry "x" 3 101).mtime_ns| >
          (mkS3Entry "x" 3 100).timeThreshold) ∧
      ((mkS3Entry "x" 3 100).kind = .localFile → (mkS3Entry "x" 3 100).timeThreshold = 0) ∧
      ((mkS3Entry "x" 3 100).kind = .s3File →
        (mkS3Entry "x" 3 100).timeThreshold = 1000000000)) :=
  ⟨by decide, C9_mtime_resolution _ _ _ (by decide)⟩

/-- Counterexample for C9 as stated: the old side IS an object-store
entry and the mtimes differ by 1 ns (well within 1 second), yet the
delta flags mtime dirty, because the new side is a local entry and
dispatch uses only the new side's class. -/
theorem C9_counterexample :
    ((mkLocalEntry "x" false 3 1001).delta (mkS3Entry "x" 3 1000)).map
      (fun de => de.mtime_ns) = .ok true ∧
    |(1001 : Int) - 1000| ≤ 1000000000 := by
  constructor
  · rfl
  · decide

/-! ### Reserved-path exclusion (C8) -/

theorem akeys_areplace {A : Type} (l : List (String × A)) (k : String) (v : A) :
    akeys (areplace l k v) = akeys l := by
  induction l with
  | nil => rfl
  | cons e t ih =>
    obtain ⟨k', w⟩ := e
    by_cases h : k' = k <;> simp [areplace, akeys, h] <;> simpa [akeys] using ih

theorem mem_akeys_aset {A : Type} (l : List (String × A)) (k q : String) (v : A) :
    q ∈ akeys (aset l k v) ↔ q ∈ akeys l ∨ q = k := by
  unfold aset
  cases hk : alookup l k with
  | none =>
    simp [hk, akeys, List.mem_append]
  | some w =>
    rw [if_pos (by simp [hk])]
    rw [akeys_areplace]
    have hkmem : k ∈ akeys l := (alookup_isSome_iff_mem_akeys l k).mp (by simp [hk])
    constructor
    · exact fun h => Or.inl h
    · rintro (h | rfl)
      · exact h
      · exact hkmem

theorem is_reserved_path_congr (m₁ m₂ : Manifest) (h : m₁.reservedPfx = m₂.reservedPfx)
    (x : String) : m₁.is_reserved_path x = m₂.is_reserved_path x := by
  unfold Manifest.is_reserved_path
  rw [h]

theorem selAddStep_reservedPfx (acc : Manifest) (lf : Entry) :
    (selAddStep acc lf).reservedPfx = acc.reservedPfx := by
  unfold selAddStep
  split <;> rfl

theorem selAddStep_keys (acc : Manifest) (lf : Entry) (p : String)
    (hp : p ∈ akeys (selAddStep acc lf).entries) :
    p ∈ akeys acc.entries ∨ acc.is_reserved_path p = false := by
  unfold selAddStep at hp
  by_cases hres : acc.is_reserved_path lf.rel_path = true
  · rw [if_pos hres] at hp
    exact Or.inl hp
  · rw [if_neg hres] at hp
    rcases (mem_akeys_aset _ _ _ _).mp hp with h | rfl
    · exact Or.inl h
    · exact Or.inr (by simpa using hres)

theorem selfold_spec (pfx : Option String) (out : List Entry) (acc : Manifest)
    (hpfx : acc.reservedPfx = pfx) :
    (out.foldl selAddStep acc).reservedPfx = pfx ∧
    ∀ p ∈ akeys (out.foldl selAddStep acc).entries,
      p ∈ akeys acc.entries ∨ (out.foldl selAddStep acc).is_reserved_path p = false := by
  induction out generalizing acc with
  | nil => exact ⟨hpfx, fun p hp => Or.inl hp⟩
  | cons lf out ih =>
    simp only [List.foldl_cons]
    obtain ⟨h1, h2⟩ := ih (selAddStep acc lf) (by rw [selAddStep_reservedPfx, hpfx])
    refine ⟨h1, fun p hp => ?_⟩
    rcases h2 p hp with h | h
    · rcases selAddStep_keys acc lf p h with h' | h'
      · exact Or.inl h'
      · refine Or.inr ?_
        rw [is_reserved_path_congr _ acc (by rw [h1, hpfx])]
        exact h'
    · exact Or.inr h

theorem selsfold_spec (pfx : Option String) (sels : List Selector) (acc : Manifest)
    (hpfx : acc.reservedPfx = pfx) :
    (sels.foldl (fun acc sel => sel.output.foldl selAddStep acc) acc).reservedPfx = pfx ∧
    ∀ p ∈ akeys (sels.foldl (fun acc sel => sel.output.foldl selAddStep acc) acc).entries,
      p ∈ akeys acc.entries ∨
        (sels.foldl (fun acc sel => sel.output.foldl selAddStep acc) acc).is_reserved_path p
          = false := by
  induction sels generalizing acc with
  | nil => exact ⟨hpfx, fun p hp => Or.inl hp⟩
  | cons sel sels ih =>
    simp only [List.foldl_cons]
    obtain ⟨hs1, hs2⟩ := selfold_spec pfx sel.output acc hpfx
    obtain ⟨h1, h2⟩ := ih (sel.output.foldl selAddStep acc) hs1
    refine ⟨h1, fun p hp => ?_⟩
    rcases h2 p hp with h | h
    · rcases hs2 p h with h' | h'
      · exact Or.inl h'
      · refine Or.inr ?_
        rw [is_reserved_path_congr _ (sel.output.foldl selAddStep acc) (by rw [h1, hs1])]
        exact h'
    · exact Or.inr h

theorem akeys_map_snd {A : Type} (l : List (String × A)) (f : String × A → A) :
    akeys (l.map (fun e => (e.1, f e))) = akeys l := by
  induction l with
  | nil => rfl
  | cons e t ih => simpa [akeys] using ih

theorem akeys_cksum_map (l : List (String × Entry)) :
    akeys (l.map (fun e =>
      if e.2.is_dir then e else (e.1, { e.2 with cksum := some (digestOf e.1) }))) =
    akeys l := by
  induction l with
  | nil => rfl
  | cons e t ih =>
    by_cases hd : e.2.is_dir = true <;> simp [akeys, hd] <;> simpa [akeys] using ih

/-- C8 (amended): selector population never adds a reserved path — any
manifest whose entries are reserved-free stays reserved-free across
`run_selectors` — and the object-store adoption skips exactly the
manifest's own key and its directory placeholder (other keys under the
reserved directory are adopted; see the counterexample). -/
theorem C8_reserved_exclusion (m : Manifest) (ck : Bool)
    (h0 : ∀ p ∈ akeys m.entries, m.is_reserved_path p = false) :
    (∀ p ∈ akeys (m.run_selectors ck).entries, m.is_reserved_path p = false) ∧
    (∀ (sm : S3Manifest) (o : ObjSum),
      ((S3File.from_objsum sm.root o).rel_path = S3MANIFEST_KEY ∨
        (S3File.from_objsum sm.root o).rel_path = S3MANIFEST_DIR_KEY) →
      sm.add_entry o = .ok sm) := by
  constructor
  · intro p hp
    unfold Manifest.run_selectors at hp
    obtain ⟨h1, h2⟩ := selsfold_spec m.reservedPfx m.selectors m rfl
    set mid := m.selectors.foldl (fun acc sel => sel.output.foldl selAddStep acc) m with hmid
    have hp' : p ∈ akeys mid.entries := by
      by_cases hck : ck = true
      · rw [hck] at hp
        simp only [if_pos] at hp
        rw [akeys_cksum_map] at hp
        exact hp
      · have hck' : ck = false := by simpa using hck
        rw [hck'] at hp
        simpa using hp
    rcases h2 p hp' with h | h
    · exact h0 p h
    · rw [← is_reserved_path_congr mid m (by rw [h1])]
      exact h
  · intro sm o h
    unfold S3Manifest.add_entry
    rw [if_pos h]

def selC8 : Selector :=
  { rootpath := "/r"
    output := [mkLocalEntry ".baycat/x" false 1 1, mkLocalEntry "a" false 1 1] }

def mC8 : Manifest :=
  { root := "/r", path := "/r/.baycat", reservedPfx := some ".baycat/",
    entries := [], selectors := [selC8] }

/-- Witness for C8 at concrete inputs: population of a manifest whose
selector yields a reserved path keeps the entry map reserved-free
(the reserved path is skipped), and adoption of the manifest's own key
leaves the entry map unchanged. -/
theorem C8_witness :
    (∀ p ∈ akeys mC8.entries, mC8.is_reserved_path p = false) ∧
    ((∀ p ∈ akeys (mC8.run_selectors false).entries, mC8.is_reserved_path p = false) ∧
      (∀ (sm : S3Manifest) (o : ObjSum),
        ((S3File.from_objsum sm.root o).rel_path = S3MANIFEST_KEY ∨
          (S3File.from_objsum sm.root o).rel_path = S3MANIFEST_DIR_KEY) →
        sm.add_entry o = .ok sm)) := by
  have h0 : ∀ p ∈ akeys mC8.entries, mC8.is_reserved_path p = false := by
    intro p hp
    simp [mC8, akeys] at hp
  exact ⟨h0, C8_reserved_exclusion mC8 false h0⟩

/-- Counterexample for C8 as stated: object-store adoption skips only
the exact manifest key and its directory placeholder, so a key under the
reserved directory such as ".baycat/evil" IS adopted, violating the
universal reserved-prefix invariant for object-store manifests. -/
theorem C8_counterexample :
    (smC8.update [oC8]).map (fun m => akeys m.entries) = .ok [".baycat/evil"] ∧
    strStartsWith ".baycat/evil" (S3MANIFEST_DIR_KEY ++ "/") = true := by
  constructor <;> rfl

/-- Counterexample for C1 as stated: a destination file whose mtime
regressed (is newer than the source's) is skipped by the regression
guard without any per-operation error: the run reports success (dirty
flag clear), deletes are enabled, yet the final diff still lists the
file under `contents`. -/
theorem C1_counterexample :
    cfgC1.enable_delete = true ∧ cfgC1.dry_run = false ∧
    (Sync.sync cfgC1 (initSState cfgC1 fsC1dst 1000)).map
      (fun r => (r.2.dirty,
        ((manifestOfFs "/s" fsC1src).diff_from (manifestOfFs "/d" r.2.fs)).map
          (fun d2 => (d2.added, d2.deleted, d2.contents, d2.metadata)))) =
      .ok (false, .ok ([], [], ["a"], [])) := by
  refine ⟨rfl, rfl, ?_⟩
  rfl

/-! ### Dry runs (C2) -/

theorem except_bind_ok {α β : Type} (x : Except String α) (f : α → Except String β) (b : β)
    (h : (x >>= f) = .ok b) : ∃ a, x = .ok a ∧ f a = .ok b := by
  cases x with
  | error e => simp [Bind.bind, Except.bind] at h
  | ok a => exact ⟨a, rfl, by simpa [Bind.bind, Except.bind] using h⟩

/-- Everything a dry run must preserve: tree, clock, dirty flag, trace,
and all counters but `delete_skipped` (which grows by `k`). -/
def dryPres (st st' : SState) (k : Nat) : Prop :=
  st'.fs = st.fs ∧ st'.clock = st.clock ∧ st'.dirty = st.dirty ∧ st'.trace = st.trace ∧
  st'.cRm = st.cRm ∧ st'.cXfer = st.cXfer ∧ st'.cXferMetadata = st.cXferMetadata ∧
  st'.cMkdir = st.cMkdir ∧ st'.cDeleteSkipped = st.cDeleteSkipped + k

theorem dryPres_refl (st : SState) : dryPres st st 0 := by
  unfold dryPres
  simp

theorem dryPres_trans (s₀ s₁ s₂ : SState) (k₁ k₂ : Nat)
    (h₁ : dryPres s₀ s₁ k₁) (h₂ : dryPres s₁ s₂ k₂) : dryPres s₀ s₂ (k₁ + k₂) := by
  unfold dryPres at *
  obtain ⟨a1, a2, a3, a4, a5, a6, a7, a8, a9⟩ := h₁
  obtain ⟨b1, b2, b3, b4, b5, b6, b7, b8, b9⟩ := h₂
  refine ⟨?_, ?_, ?_, ?_, ?_, ?_, ?_, ?_, ?_⟩ <;> simp_all <;> omega

theorem dryPres_touched (st st' : SState) (k : Nat) (t : List String)
    (h : dryPres st st' k) : dryPres st { st' with touched := t } k := h

theorem rm_file_disabled_spec (cfg : SyncCfg) (st : SState) (p : String) (st' : SState)
    (hed : cfg.enable_delete = false) (h : Sync.rm_file cfg st p = .ok st') :
    dryPres st st' 1 := by
  unfold Sync.rm_file at h
  rw [if_neg (by simp [hed])] at h
  unfold markDeletedSt at h
  dsimp only at h
  cases hmk : Manifest.mark_deleted st.xfer p with
  | error e => rw [hmk] at h; exact absurd h (by simp)
  | ok mm =>
    rw [hmk] at h
    injection h with h
    subst h
    unfold dryPres
    simp

theorem transfer_file_dry_spec (cfg : SyncCfg) (st : SState) (p : String) (st' : SState)
    (hdry : cfg.dry_run = true) (h : Sync.transfer_file cfg st p = .ok st') :
    dryPres st st' 0 := by
  unfold Sync.transfer_file at h
  cases hsrc : alookup cfg.manifest_src.entries p with
  | none => rw [hsrc] at h; exact absurd h (by simp)
  | some src_lf =>
    rw [hsrc] at h
    dsimp only at h
    rw [if_neg (by simp [hdry])] at h
    injection h with h
    subst h
    unfold dryPres
    simp

theorem transfer_metadata_dry_spec (cfg : SyncCfg) (st : SState) (p : String) (st' : SState)
    (hdry : cfg.dry_run = true) (h : Sync.transfer_metadata cfg st p = .ok st') :
    dryPres st st' 0 := by
  unfold Sync.transfer_metadata at h
  rw [if_pos (by simp [hdry])] at h
  cases hsrc : alookup cfg.manifest_src.entries p with
  | none => rw [hsrc] at h; exact absurd h (by simp)
  | some src_lf =>
    rw [hsrc] at h
    dsimp only at h
    injection h with h
    subst h
    unfold dryPres
    simp

theorem mkdir_dry_spec (cfg : SyncCfg) (st : SState) (p : String) (st' : SState)
    (hdry : cfg.dry_run = true) (h : Sync.mkdir cfg st p = .ok st') :
    dryPres st st' 0 := by
  unfold Sync.mkdir at h
  rw [if_pos (by simp [hdry])] at h
  cases hsrc : alookup cfg.manifest_src.entries p with
  | none => rw [hsrc] at h; exact absurd h (by simp)
  | some src_f =>
    rw [hsrc] at h
    dsimp only at h
    injection h with h
    subst h
    unfold dryPres
    simp

theorem delStep_dry_spec (cfg : SyncCfg) (st : SState) (p : String) (st' : SState)
    (hed : cfg.enable_delete = false) (h : delStep cfg st p = .ok st') :
    dryPres st st' 1 := by
  unfold delStep at h
  obtain ⟨s₁, h₁, h₂⟩ := except_bind_ok _ _ _ h
  simp only [pure, Except.pure, Except.ok.injEq] at h₂
  subst h₂
  exact dryPres_touched _ _ _ _ (rm_file_disabled_spec cfg st p s₁ hed h₁)

theorem mkdirStep_dry_spec (cfg : SyncCfg) (st : SState) (p : String) (st' : SState)
    (hdry : cfg.dry_run = true) (h : mkdirStep cfg st p = .ok st') :
    dryPres st st' 0 := by
  unfold mkdirStep at h
  cases hsrc : alookup cfg.manifest_src.entries p with
  | none => rw [hsrc] at h; exact absurd h (by simp)
  | some lf =>
    rw [hsrc] at h
    dsimp only at h
    by_cases hd : (!lf.is_dir) = true
    · rw [if_pos hd] at h
      simp only [pure, Except.pure, Except.ok.injEq] at h
      subst h
      exact dryPres_refl st
    · rw [if_neg hd] at h
      obtain ⟨s₁, h₁, h₂⟩ := except_bind_ok _ _ _ h
      simp only [pure, Except.pure, Except.ok.injEq] at h₂
      subst h₂
      exact mkdir_dry_spec cfg st p s₁ hdry h₁

theorem addFileStep_dry_spec (cfg : SyncCfg) (st : SState) (p : String) (st' : SState)
    (hdry : cfg.dry_run = true) (h : addFileStep cfg st p = .ok st') :
    dryPres st st' 0 := by
  unfold addFileStep at h
  cases hsrc : alookup cfg.manifest_src.entries p with
  | none => rw [hsrc] at h; exact absurd h (by simp)
  | some lf =>
    rw [hsrc] at h
    dsimp only at h
    by_cases hd : lf.is_dir = true
    · rw [if_pos hd] at h
      simp only [pure, Except.pure, Except.ok.injEq] at h
      subst h
      exact dryPres_refl st
    · rw [if_neg hd] at h
      obtain ⟨s₁, h₁, h₂⟩ := except_bind_ok _ _ _ h
      obtain ⟨s₂, h₃, h₄⟩ := except_bind_ok _ _ _ h₂
      simp only [pure, Except.pure, Except.ok.injEq] at h₄
      subst h₄
      exact dryPres_touched _ _ _ _
        (dryPres_trans _ _ _ 0 0 (transfer_file_dry_spec cfg st p s₁ hdry h₁)
          (transfer_metadata_dry_spec cfg s₁ p s₂ hdry h₃))

theorem contentsStep_dry_spec (cfg : SyncCfg) (reg : List String) (st : SState) (p : String)
    (st' : SState) (hdry : cfg.dry_run = true) (h : contentsStep cfg reg st p = .ok st') :
    dryPres st st' 0 := by
  unfold contentsStep at h
  by_cases hg : p ∈ reg ∧ ¬cfg.overwrite_regressed
  · rw [if_pos hg] at h
    simp only [pure, Except.pure, Except.ok.injEq] at h
    subst h
    exact dryPres_refl st
  · rw [if_neg hg] at h
    obtain ⟨s₁, h₁, h₂⟩ := except_bind_ok _ _ _ h
    obtain ⟨s₂, h₃, h₄⟩ := except_bind_ok _ _ _ h₂
    simp only [pure, Except.pure, Except.ok.injEq] at h₄
    subst h₄
    exact dryPres_touched _ _ _ _
      (dryPres_trans _ _ _ 0 0 (transfer_file_dry_spec cfg st p s₁ hdry h₁)
        (transfer_metadata_dry_spec cfg s₁ p s₂ hdry h₃))

theorem metaStep_dry_spec (cfg : SyncCfg) (reg : List String) (st : SState) (p : String)
    (st' : SState) (hdry : cfg.dry_run = true) (h : metaStep cfg reg st p = .ok st') :
    dryPres st st' 0 := by
  unfold metaStep at h
  by_cases hg : p ≠ "" ∧ p ∈ reg ∧ ¬cfg.overwrite_regressed
  · rw [if_pos hg] at h
    simp only [pure, Except.pure, Except.ok.injEq] at h
    subst h
    exact dryPres_refl st
  · rw [if_neg hg] at h
    obtain ⟨s₁, h₁, h₂⟩ := except_bind_ok _ _ _ h
    simp only [pure, Except.pure, Except.ok.injEq] at h₂
    subst h₂
    exact dryPres_touched _ _ _ _ (transfer_metadata_dry_spec cfg st p s₁ hdry h₁)

theorem replayStep_dry_spec (cfg : SyncCfg) (del : List String) (st : SState) (x : Int × String)
    (st' : SState) (hdry : cfg.dry_run = true) (h : replayStep cfg del st x = .ok st') :
    dryPres st st' 0 := by
  unfold replayStep at h
  by_cases hg : x.2 ∈ del
  · rw [if_pos hg] at h
    simp only [pure, Except.pure, Except.ok.injEq] at h
    subst h
    exact dryPres_refl st
  · rw [if_neg hg] at h
    exact transfer_metadata_dry_spec cfg st x.2 st' hdry h

theorem fold_dryPres0 {α : Type} (step : SState → α → Except String SState) (l : List α)
    (hstep : ∀ st a st', a ∈ l → step st a = .ok st' → dryPres st st' 0) :
    ∀ st st', l.foldlM step st = .ok st' → dryPres st st' 0 := by
  induction l with
  | nil =>
    intro st st' h
    simp only [List.foldlM_nil, pure, Except.pure, Except.ok.injEq] at h
    subst h
    exact dryPres_refl st
  | cons a l ih =>
    intro st st' h
    rw [List.foldlM_cons] at h
    obtain ⟨s₁, h₁, h₂⟩ := except_bind_ok _ _ _ h
    exact dryPres_trans _ _ _ 0 0
      (hstep st a s₁ (List.mem_cons_self _ _) h₁)
      (ih (fun st a st' ha => hstep st a st' (List.mem_cons_of_mem _ ha)) s₁ st' h₂)

theorem fold_dryDel (cfg : SyncCfg) (hed : cfg.enable_delete = false) (l : List String) :
    ∀ st st', l.foldlM (delStep cfg) st = .ok st' → dryPres st st' l.length := by
  induction l with
  | nil =>
    intro st st' h
    simp only [List.foldlM_nil, pure, Except.pure, Except.ok.injEq] at h
    subst h
    exact dryPres_refl st
  | cons a l ih =>
    intro st st' h
    rw [List.foldlM_cons] at h
    obtain ⟨s₁, h₁, h₂⟩ := except_bind_ok _ _ _ h
    have := dryPres_trans _ _ _ 1 l.length
      (delStep_dry_spec cfg st a s₁ hed h₁) (ih s₁ st' h₂)
    simpa [Nat.add_comm, List.length_cons] using this

theorem mkSyncCfg_dry_enable (srcFs : Fs) (ms md : Manifest) (ed ow : Bool) :
    (mkSyncCfg srcFs ms md ed true ow).enable_delete = false := by
  unfold mkSyncCfg
  cases ed <;> rfl

/-- C2 (amended): a dry run never invokes any strategy primitive (the
operation trace stays empty), leaves the destination tree and the clock
untouched, consumes no errors (dirty stays clear), and keeps the
rm/xfer/xfer-metadata/mkdir counters at zero; only `delete_skipped`
counts the deletions that were passed over.  The `xfer` manifest,
however, IS mutated by the wrappers' `mark_*` calls (see the
counterexample), so `sync()` returns the goal-state manifest, not a copy
of the destination. -/
theorem C2_dry_run (srcFs : Fs) (ms md : Manifest) (ed ow : Bool) (dstFs : Fs) (c0 : Int)
    (d : Diff) (st' : SState)
    (hrun : Sync.sync (mkSyncCfg srcFs ms md ed true ow)
      (initSState (mkSyncCfg srcFs ms md ed true ow) dstFs c0) = .ok (d, st')) :
    st'.trace = [] ∧ st'.fs = dstFs ∧ st'.clock = c0 ∧ st'.dirty = false ∧
    st'.cRm = 0 ∧ st'.cXfer = 0 ∧ st'.cXferMetadata = 0 ∧ st'.cMkdir = 0 ∧
    st'.cDeleteSkipped = d.deleted.length := by
  set cfg := mkSyncCfg srcFs ms md ed true ow with hcfg
  have hdry : cfg.dry_run = true := rfl
  have hed : cfg.enable_delete = false := mkSyncCfg_dry_enable srcFs ms md ed ow
  unfold Sync.sync at hrun
  obtain ⟨plan, hplan, hrun⟩ := except_bind_ok _ _ _ hrun
  obtain ⟨s₁, h₁, hrun⟩ := except_bind_ok _ _ _ hrun
  obtain ⟨s₂, h₂, hrun⟩ := except_bind_ok _ _ _ hrun
  obtain ⟨s₃, h₃, hrun⟩ := except_bind_ok _ _ _ hrun
  obtain ⟨s₄, h₄, hrun⟩ := except_bind_ok _ _ _ hrun
  obtain ⟨s₅, h₅, hrun⟩ := except_bind_ok _ _ _ hrun
  obtain ⟨s₆, h₆, hrun⟩ := except_bind_ok _ _ _ hrun
  simp only [Except.ok.injEq, Prod.mk.injEq] at hrun
  obtain ⟨hd, hst⟩ := hrun
  subst hd
  subst hst
  have p₁ := fold_dryDel cfg hed plan.deleted _ _ h₁
  have p₂ := fold_dryPres0 (mkdirStep cfg) plan.added
    (fun st a st' _ h => mkdirStep_dry_spec cfg st a st' hdry h) _ _ h₂
  have p₃ := fold_dryPres0 (addFileStep cfg) plan.added
    (fun st a st' _ h => addFileStep_dry_spec cfg st a st' hdry h) _ _ h₃
  have p₄ := fold_dryPres0 (contentsStep cfg plan.regressed) plan.contents
    (fun st a st' _ h => contentsStep_dry_spec cfg plan.regressed st a st' hdry h) _ _ h₄
  have p₅ := fold_dryPres0 (metaStep cfg plan.regressed) plan.metadata
    (fun st a st' _ h => metaStep_dry_spec cfg plan.regressed st a st' hdry h) _ _ h₅
  have p₆ : dryPres { s₅ with fixups := s₅.touched.foldl addAncestors s₅.fixups } s₆ 0 :=
    fold_dryPres0 (replayStep cfg plan.deleted)
      (sortFixups (s₅.touched.foldl addAncestors s₅.fixups))
      (fun st a st' _ h => replayStep_dry_spec cfg plan.deleted st a st' hdry h) _ _ h₆
  have p₅' : dryPres s₄ { s₅ with fixups := s₅.touched.foldl addAncestors s₅.fixups } 0 := p₅
  have q₁ := dryPres_trans _ _ _ _ 0 p₁ p₂
  have q₂ := dryPres_trans _ _ _ _ 0 q₁ p₃
  have q₃ := dryPres_trans _ _ _ _ 0 q₂ p₄
  have q₄ := dryPres_trans _ _ _ _ 0 q₃ p₅'
  have q₅ := dryPres_trans _ _ _ _ 0 q₄ p₆
  obtain ⟨a1, a2, a3, a4, a5, a6, a7, a8, a9⟩ := q₅
  unfold initSState at a1 a2 a3 a4 a5 a6 a7 a8 a9
  simp only at a1 a2 a3 a4 a5 a6 a7 a8 a9
  refine ⟨a4, a1, a2, a3, a5, a6, a7, a8, by omega⟩

/-- Witness for C2: on the concrete scenario (two new source files, one
stale destination file, dry run with deletions requested) the dry-run
conclusions all hold — empty trace, untouched tree and clock, clear
dirty flag, zero action counters, and `delete_skipped` equal to the
number of planned deletions. -/
theorem C2_witness :
    (Sync.sync cfgC2dry (initSState cfgC2dry fsC2dst 1000)).map
      (fun r => (r.2.trace, r.2.fs, r.2.clock, r.2.dirty, r.2.cRm, r.2.cXfer,
                 r.2.cXferMetadata, r.2.cMkdir,
                 decide (r.2.cDeleteSkipped = r.1.deleted.length))) =
      .ok ([], fsC2dst, 1000, false, 0, 0, 0, 0, true) := by
  cases hs : Sync.sync cfgC2dry (initSState cfgC2dry fsC2dst 1000) with
  | error e =>
    have hh : (Sync.sync cfgC2dry (initSState cfgC2dry fsC2dst 1000)).toOption.isSome
        = true := by decide
    rw [hs] at hh
    simp [Except.toOption] at hh
  | ok r =>
    obtain ⟨htr, hfs, hcl, hdi, hrm, hx, hxm, hmk, hds⟩ :=
      C2_dry_run fsC2src (manifestOfFs "/s" fsC2src) (manifestOfFs "/d" fsC2dst)
        true false fsC2dst 1000 r.1 r.2 hs
    simp [Except.map, htr, hfs, hcl, hdi, hrm, hx, hxm, hmk, hds]

/-- Counterexample for C2 as stated: a dry run does NOT leave the `xfer`
manifest untouched — the wrappers still apply their `mark_*` calls, so
the manifest `sync()` returns differs from the copy of the destination
manifest (here the stale file was marked deleted and the new files
marked transferred). -/
theorem C2_counterexample :
    cfgC2dry.dry_run = true ∧
    (Sync.sync cfgC2dry (initSState cfgC2dry fsC2dst 1000)).map (fun r => r.2.xfer) ≠
      .ok cfgC2dry.manifest_dst.copy := by
  refine ⟨rfl, ?_⟩
  decide

/-- Counterexample for C6 as stated: the trace of a run with two added
files is content/metadata interleaved per file — the metadata restore of
the first file (index 1) happens BEFORE the content transfer of the
second file (index 2), refuting "all metadata restores happen after all
content transfers". -/
theorem C6_counterexample :
    (Sync.sync cfgC6 (initSState cfgC6 fsC2dst 1000)).map (fun r => r.2.trace) =
      .ok [Ev.file "f1", Ev.meta "f1", Ev.file "f2", Ev.meta "f2"] ∧
    [Ev.file "f1", Ev.meta "f1", Ev.file "f2", Ev.meta "f2"].get? 1 = some (Ev.meta "f1") ∧
    [Ev.file "f1", Ev.meta "f1", Ev.file "f2", Ev.meta "f2"].get? 2 = some (Ev.file "f2") := by
  refine ⟨?_, rfl, rfl⟩
  rfl

/-! ### Characterizing the diff (shared by C5 and C1) -/

def commonKeys (m mo : Manifest) : List String :=
  (akeys m.entries).filter (fun p => decide (p ∈ akeys mo.entries))

/-- Entries and delta the common-path loop of `diff_from` works with at
path `p` (`none` when a lookup or the delta raises). -/
def stepInfo (m mo : Manifest) (p : String) : Option (Entry × Entry × EntryDelta) :=
  match alookup m.entries p, alookup mo.entries p with
  | some eN, some eO =>
    match eN.delta eO with
    | .ok fd => some (eN, eO, fd)
    | .error _ => none
  | _, _ => none

def changedSetFlag (fd : EntryDelta) : Bool :=
  fd.size || fd.mtime_ns || fd.cksum.getD false

def classC (m mo : Manifest) (p : String) : Bool :=
  match stepInfo m mo p with
  | some (eN, _, fd) => fd.dirty && (!eN.is_dir && changedSetFlag fd)
  | none => false

def classM (m mo : Manifest) (p : String) : Bool :=
  match stepInfo m mo p with
  | some (eN, _, fd) => fd.dirty && ((eN.is_dir && changedSetFlag fd) || fd.uid || fd.gid || fd.mode)
  | none => false

def classU (m mo : Manifest) (p : String) : Bool :=
  match stepInfo m mo p with
  | some (_, _, fd) => !fd.dirty
  | none => false

def classR (m mo : Manifest) (p : String) : Bool :=
  match stepInfo m mo p with
  | some (eN, eO, fd) => fd.dirty && decide (eO.mtime_ns > eN.mtime_ns)
  | none => false

theorem diffStep_ok_spec (m mo : Manifest) (acc : DiffAcc) (q : String) (acc₁ : DiffAcc)
    (h : diffStep m mo acc q = .ok acc₁) :
    (stepInfo m mo q).isSome = true ∧
    (∀ p, p ∈ acc₁.contents ↔ p ∈ acc.contents ∨ (p = q ∧ classC m mo q = true)) ∧
    (∀ p, p ∈ acc₁.metadata ↔ p ∈ acc.metadata ∨ (p = q ∧ classM m mo q = true)) ∧
    (∀ p, p ∈ acc₁.unchanged ↔ p ∈ acc.unchanged ∨ (p = q ∧ classU m mo q = true)) ∧
    (∀ p, p ∈ acc₁.regressed ↔ p ∈ acc.regressed ∨ (p = q ∧ classR m mo q = true)) := by
  unfold diffStep at h
  cases hN : alookup m.entries q with
  | none => rw [hN] at h; exact absurd h (by simp)
  | some eN =>
  cases hO : alookup mo.entries q with
  | none => rw [hN, hO] at h; exact absurd h (by simp)
  | some eO =>
  rw [hN, hO] at h
  dsimp only at h
  cases hfd : eN.delta eO with
  | error e => rw [hfd] at h; exact absurd h (by simp [Bind.bind, Except.bind])
  | ok fd =>
  rw [hfd] at h
  have hsi : stepInfo m mo q = some (eN, eO, fd) := by
    unfold stepInfo
    rw [hN, hO]
    dsimp only
    rw [hfd]
  simp only [Bind.bind, Except.bind] at h
  refine ⟨by simp [hsi], ?_⟩
  by_cases hdirty : fd.dirty = true
  · rw [if_neg (by simp [hdirty])] at h
    simp only [pure, Except.pure, Except.ok.injEq] at h
    subst h
    refine ⟨?_, ?_, ?_, ?_⟩ <;> intro p <;>
      by_cases hR : eO.mtime_ns > eN.mtime_ns <;>
      by_cases hC : (!eN.is_dir && (fd.size || fd.mtime_ns || fd.cksum.getD false)) = true <;>
      by_cases hM : ((eN.is_dir && (fd.size || fd.mtime_ns || fd.cksum.getD false)) ||
        fd.uid || fd.gid || fd.mode) = true <;>
      simp [hR, hC, hM, classC, classM, classU, classR, hsi, hdirty, changedSetFlag,
        List.mem_append] <;> tauto
  · have hd' : fd.dirty = false := by simpa using hdirty
    rw [if_pos (by simp [hd'])] at h
    simp only [pure, Except.pure, Except.ok.injEq] at h
    subst h
    refine ⟨fun p => by simp [classC, hsi, hd'], fun p => by simp [classM, hsi, hd'],
      fun p => ?_, fun p => by simp [classR, hsi, hd']⟩
    simp [classU, hsi, hd', List.mem_append]

theorem diff_fold_spec (m mo : Manifest) (l : List String) (acc st : DiffAcc)
    (h : l.foldlM (diffStep m mo) acc = .ok st) :
    (∀ p ∈ l, (stepInfo m mo p).isSome = true) ∧
    (∀ p, p ∈ st.contents ↔ p ∈ acc.contents ∨ (p ∈ l ∧ classC m mo p = true)) ∧
    (∀ p, p ∈ st.metadata ↔ p ∈ acc.metadata ∨ (p ∈ l ∧ classM m mo p = true)) ∧
    (∀ p, p ∈ st.unchanged ↔ p ∈ acc.unchanged ∨ (p ∈ l ∧ classU m mo p = true)) ∧
    (∀ p, p ∈ st.regressed ↔ p ∈ acc.regressed ∨ (p ∈ l ∧ classR m mo p = true)) := by
  induction l generalizing acc with
  | nil =>
    simp only [List.foldlM_nil, pure, Except.pure] at h
    cases h
    simp
  | cons q l ih =>
    rw [List.foldlM_cons] at h
    cases hq : diffStep m mo acc q with
    | error e =>
      rw [hq] at h
      exact absurd h (by simp [Bind.bind, Except.bind])
    | ok acc₁ =>
      rw [hq] at h
      simp only [Bind.bind, Except.bind] at h
      obtain ⟨hsi, hC, hM, hU, hR⟩ := diffStep_ok_spec m mo acc q acc₁ hq
      obtain ⟨ihs, ihC, ihM, ihU, ihR⟩ := ih acc₁ h
      refine ⟨?_, ?_, ?_, ?_, ?_⟩
      · intro p hp
        rcases List.mem_cons.mp hp with hp | hp
        · subst hp; exact hsi
        · exact ihs p hp
      · intro p
        rw [ihC p, hC p]
        constructor
        · rintro ((h | ⟨rfl, hc⟩) | ⟨hl, hc⟩)
          · exact Or.inl h
          · exact Or.inr ⟨List.mem_cons_self _ _, hc⟩
          · exact Or.inr ⟨List.mem_cons_of_mem _ hl, hc⟩
        · rintro (h | ⟨hl, hc⟩)
          · exact Or.inl (Or.inl h)
          · rcases List.mem_cons.mp hl with rfl | hl
            · exact Or.inl (Or.inr ⟨rfl, hc⟩)
            · exact Or.inr ⟨hl, hc⟩
      · intro p
        rw [ihM p, hM p]
        constructor
        · rintro ((h | ⟨rfl, hc⟩) | ⟨hl, hc⟩)
          · exact Or.inl h
          · exact Or.inr ⟨List.mem_cons_self _ _, hc⟩
          · exact Or.inr ⟨List.mem_cons_of_mem _ hl, hc⟩
        · rintro (h | ⟨hl, hc⟩)
          · exact Or.inl (Or.inl h)
          · rcases List.mem_cons.mp hl with rfl | hl
            · exact Or.inl (Or.inr ⟨rfl, hc⟩)
            · exact Or.inr ⟨hl, hc⟩
      · intro p
        rw [ihU p, hU p]
        constructor
        · rintro ((h | ⟨rfl, hc⟩) | ⟨hl, hc⟩)
          · exact Or.inl h
          · exact Or.inr ⟨List.mem_cons_self _ _, hc⟩
          · exact Or.inr ⟨List.mem_cons_of_mem _ hl, hc⟩
        · rintro (h | ⟨hl, hc⟩)
          · exact Or.inl (Or.inl h)
          · rcases List.mem_cons.mp hl with rfl | hl
            · exact Or.inl (Or.inr ⟨rfl, hc⟩)
            · exact Or.inr ⟨hl, hc⟩
      · intro p
        rw [ihR p, hR p]
        constructor
        · rintro ((h | ⟨rfl, hc⟩) | ⟨hl, hc⟩)
          · exact Or.inl h
          · exact Or.inr ⟨List.mem_cons_self _ _, hc⟩
          · exact Or.inr ⟨List.mem_cons_of_mem _ hl, hc⟩
        · rintro (h | ⟨hl, hc⟩)
          · exact Or.inl (Or.inl h)
          · rcases List.mem_cons.mp hl with rfl | hl
            · exact Or.inl (Or.inr ⟨rfl, hc⟩)
            · exact Or.inr ⟨hl, hc⟩

/-- What `diff_from` computes, list by list. -/
theorem diff_from_lists (m mo : Manifest) (d : Diff) (h : m.diff_from mo = .ok d) :
    d.added = (akeys m.entries).filter (fun p => decide (p ∉ akeys mo.entries)) ∧
    d.deleted = (akeys mo.entries).filter (fun p => decide (p ∉ akeys m.entries)) ∧
    (∀ p ∈ commonKeys m mo, (stepInfo m mo p).isSome = true) ∧
    (∀ p, p ∈ d.contents ↔ p ∈ commonKeys m mo ∧ classC m mo p = true) ∧
    (∀ p, p ∈ d.metadata ↔ p ∈ commonKeys m mo ∧ classM m mo p = true) ∧
    (∀ p, p ∈ d.unchanged ↔ p ∈ commonKeys m mo ∧ classU m mo p = true) ∧
    (∀ p, p ∈ d.regressed ↔ p ∈ commonKeys m mo ∧ classR m mo p = true) ∧
    d.new_manifest = m ∧ d.old_manifest = mo := by
  unfold Manifest.diff_from at h
  simp only [Bind.bind, Except.bind] at h
  cases hst : (commonKeys m mo).foldlM (diffStep m mo) ⟨[], [], [], []⟩ with
  | error e =>
    unfold commonKeys at hst
    rw [hst] at h
    exact absurd h (by simp)
  | ok st =>
    unfold commonKeys at hst
    rw [hst] at h
    cases h
    obtain ⟨hsi, hC, hM, hU, hR⟩ := diff_fold_spec m mo _ _ st hst
    refine ⟨rfl, rfl, hsi, ?_, ?_, ?_, ?_, rfl, rfl⟩ <;>
      intro p <;> simp_all [commonKeys]

/-- `diff_from` succeeds as soon as every common path's delta does. -/
theorem diff_from_ok_of_info (m mo : Manifest)
    (h : ∀ p ∈ commonKeys m mo, (stepInfo m mo p).isSome = true) :
    ∃ d, m.diff_from mo = .ok d := by
  have main : ∀ (l : List String), (∀ p ∈ l, (stepInfo m mo p).isSome = true) → ∀ acc,
      ∃ st, l.foldlM (diffStep m mo) acc = .ok st := by
    intro l
    induction l with
    | nil => intro _ acc; exact ⟨acc, rfl⟩
    | cons q l ih =>
      intro hl acc
      have hq := hl q (List.mem_cons_self _ _)
      have hstep : ∃ acc₁, diffStep m mo acc q = .ok acc₁ := by
        cases hs : diffStep m mo acc q with
        | ok acc₁ => exact ⟨acc₁, rfl⟩
        | error e =>
          exfalso
          unfold diffStep at hs
          unfold stepInfo at hq
          cases hN : alookup m.entries q with
          | none => rw [hN] at hq; simp at hq
          | some eN =>
            cases hO : alookup mo.entries q with
            | none => rw [hN, hO] at hq; simp at hq
            | some eO =>
              rw [hN, hO] at hq hs
              dsimp only at hq hs
              cases hfd : eN.delta eO with
              | error e2 => rw [hfd] at hq; simp at hq
              | ok fd =>
                rw [hfd] at hs
                simp only [Bind.bind, Except.bind] at hs
                by_cases hd : (!fd.dirty) = true
                · rw [if_pos hd] at hs
                  simp [pure, Except.pure] at hs
                · rw [if_neg hd] at hs
                  simp [pure, Except.pure] at hs
      obtain ⟨acc₁, hacc₁⟩ := hstep
      obtain ⟨st, hfold⟩ := ih (fun p hp => hl p (List.mem_cons_of_mem _ hp)) acc₁
      exact ⟨st, by rw [List.foldlM_cons, hacc₁]; simpa [Bind.bind, Except.bind] using hfold⟩
  obtain ⟨st, hfold⟩ := main (commonKeys m mo) h ⟨[], [], [], []⟩
  cases hdf : m.diff_from mo with
  | ok d => exact ⟨d, rfl⟩
  | error e =>
    exfalso
    unfold Manifest.diff_from at hdf
    simp only [Bind.bind, Except.bind] at hdf
    unfold commonKeys at hfold
    rw [hfold] at hdf
    simp at hdf

/-- C5 (amended): with both entries present and their delta computed,
`diff_from` classifies a common path as `contents` iff the delta is
dirty, the new entry is not a directory and one of size/mtime/cksum is
flagged; as `metadata` iff the delta is dirty and either a uid/gid/mode
flag is set or the size/mtime/cksum set is flagged on a directory entry;
as `regressed` iff the delta is DIRTY and the new mtime is strictly
older than the old; and as `unchanged` iff the delta's `_dirty`
aggregate is false. -/
theorem C5_classification (m mo : Manifest) (d : Diff) (p : String) (eN eO : Entry)
    (fd : EntryDelta) (hd : m.diff_from mo = .ok d)
    (hN : alookup m.entries p = some eN) (hO : alookup mo.entries p = some eO)
    (hfd : eN.delta eO = .ok fd) :
    (p ∈ d.contents ↔ fd.dirty = true ∧ eN.is_dir = false ∧ changedSetFlag fd = true) ∧
    (p ∈ d.metadata ↔ fd.dirty = true ∧
      ((fd.uid || fd.gid || fd.mode) = true ∨ (eN.is_dir = true ∧ changedSetFlag fd = true))) ∧
    (p ∈ d.regressed ↔ fd.dirty = true ∧ eO.mtime_ns > eN.mtime_ns) ∧
    (p ∈ d.unchanged ↔ fd.dirty = false) := by
  obtain ⟨-, -, -, hC, hM, hU, hR, -, -⟩ := diff_from_lists m mo d hd
  have hsi : stepInfo m mo p = some (eN, eO, fd) := by
    simp [stepInfo, hN, hO, hfd]
  have hcommon : p ∈ commonKeys m mo := by
    unfold commonKeys
    rw [List.mem_filter]
    refine ⟨?_, ?_⟩
    · exact (alookup_isSome_iff_mem_akeys _ _).mp (by simp [hN])
    · simp [(alookup_isSome_iff_mem_akeys mo.entries p).mp (by simp [hO])]
  refine ⟨?_, ?_, ?_, ?_⟩
  · rw [hC p]
    simp [hcommon, classC, hsi, changedSetFlag]
  · rw [hM p]
    simp [hcommon, classM, hsi, changedSetFlag]
    by_cases h1 : eN.is_dir = true <;> simp_all <;> tauto
  · rw [hR p]
    simp [hcommon, classR, hsi]
  · rw [hU p]
    simp [hcommon, classU, hsi]

def mC5wNew : Manifest :=
  { root := "", path := "x", reservedPfx := none,
    entries := [("a", mkLocalEntry "a" false 3 100)], selectors := [] }

def mC5wOld : Manifest :=
  { mC5wNew with entries := [("a", mkLocalEntry "a" false 3 200)] }

def dC5w : Diff :=
  { added := [], deleted := [], contents := ["a"], metadata := [], unchanged := [],
    regressed := ["a"], new_manifest := mC5wNew, old_manifest := mC5wOld }

def fdC5w : EntryDelta :=
  { recomputed_cksum := false, size := false, mtime_ns := true, cksum := none,
    uid := false, gid := false, mode := false, atime_ns := false, dirty := true }

/-- Witness for C5 at a concrete input: a local file whose destination
copy is newer lands in `contents` and `regressed` exactly as the
classification says. -/
theorem C5_witness :
    mC5wNew.diff_from mC5wOld = .ok dC5w ∧
    alookup mC5wNew.entries "a" = some (mkLocalEntry "a" false 3 100) ∧
    alookup mC5wOld.entries "a" = some (mkLocalEntry "a" false 3 200) ∧
    (mkLocalEntry "a" false 3 100).delta (mkLocalEntry "a" false 3 200) = .ok fdC5w ∧
    (("a" ∈ dC5w.contents ↔ fdC5w.dirty = true ∧
        (mkLocalEntry "a" false 3 100).is_dir = false ∧ changedSetFlag fdC5w = true) ∧
      ("a" ∈ dC5w.metadata ↔ fdC5w.dirty = true ∧
        ((fdC5w.uid || fdC5w.gid || fdC5w.mode) = true ∨
          ((mkLocalEntry "a" false 3 100).is_dir = true ∧ changedSetFlag fdC5w = true))) ∧
      ("a" ∈ dC5w.regressed ↔ fdC5w.dirty = true ∧
        (mkLocalEntry "a" false 3 200).mtime_ns > (mkLocalEntry "a" false 3 100).mtime_ns) ∧
      ("a" ∈ dC5w.unchanged ↔ fdC5w.dirty = false)) :=
  ⟨by decide, by decide, by decide, by decide,
    C5_classification mC5wNew mC5wOld dC5w "a" _ _ fdC5w (by decide) (by decide) (by decide)
      (by decide)⟩

/-- Counterexample for C5 as stated: between two object-store entries
whose mtimes differ by half a second (old strictly newer), the entry
delta is clean, so the path is classified `unchanged` and NOT
`regressed`, even though the new `mtime_ns` is strictly older than the
old one. -/
theorem C5_counterexample :
    (mC5new.diff_from mC5old).map (fun d => (d.regressed, d.unchanged)) = .ok ([], ["x"]) ∧
    (100 : Int) < 100 + 500000000 := by
  constructor
  · rfl
  · decide

/-! ### Operation ordering within a single sync run (C6) -/

/-- The path an operation acts on. -/
def Ev.path : Ev → String
  | .rm p => p
  | .mkdir p => p
  | .file p => p
  | .meta p => p

/-- Traces produced by the file-addition and content-change loops: a
concatenation of per-file blocks, each either a content transfer
immediately followed by the same path's metadata restore, or a lone
metadata restore (directory entries in the contents loop), so every
content transfer is immediately followed by its own metadata restore. -/
inductive FMChunks : List Ev → Prop
  | nil : FMChunks []
  | file (p : String) (t : List Ev) : FMChunks t → FMChunks (Ev.file p :: Ev.meta p :: t)
  | meta (p : String) (t : List Ev) : FMChunks t → FMChunks (Ev.meta p :: t)

theorem FMChunks_append (t₁ t₂ : List Ev) (h₁ : FMChunks t₁) (h₂ : FMChunks t₂) :
    FMChunks (t₁ ++ t₂) := by
  induction h₁ with
  | nil => exact h₂
  | file p t ht ih => exact FMChunks.file p _ ih
  | meta p t ht ih => exact FMChunks.meta p _ ih

theorem fixLe_fst {a b : Int × String} (h : fixLe a b) : a.1 ≤ b.1 := by
  rcases h with h | ⟨h, _⟩
  · exact le_of_lt h
  · exact le_of_eq h

/-- Every fixup tuple is a directory path tagged with its negated
component depth. -/
def fixShape (fx : List (Int × String)) : Prop :=
  ∀ x ∈ fx, x.1 = -(nComps x.2 : Int)

theorem fixShape_nil : fixShape [] := by
  intro x hx
  cases hx

theorem fixShape_fxInsert (fx : List (Int × String)) (x : Int × String)
    (hfx : fixShape fx) (hx : x.1 = -(nComps x.2 : Int)) : fixShape (fxInsert fx x) := by
  unfold fxInsert
  split
  · exact hfx
  · intro y hy
    rcases List.mem_append.mp hy with hy | hy
    · exact hfx y hy
    · rw [List.mem_singleton.mp hy]
      exact hx

theorem fixShape_addAncestorsAux (fuel : Nat) :
    ∀ fx p, fixShape fx → fixShape (addAncestorsAux fuel fx p) := by
  induction fuel with
  | zero => intro fx p hfx; exact hfx
  | succ f ih =>
    intro fx p hfx
    show fixShape (if (dirname p = "" || dirname p = "/" : Bool) then fx
      else addAncestorsAux f (fxInsert fx (-(nComps (dirname p) : Int), dirname p)) (dirname p))
    split
    · exact hfx
    · exact ih _ _ (fixShape_fxInsert _ _ hfx rfl)

theorem fixShape_addAncestors (fx : List (Int × String)) (p : String)
    (hfx : fixShape fx) : fixShape (addAncestors fx p) :=
  fixShape_addAncestorsAux _ _ _ hfx

theorem fixShape_foldl_addAncestors (ps : List String) :
    ∀ fx, fixShape fx → fixShape (List.foldl addAncestors fx ps) := by
  induction ps with
  | nil => intro fx hfx; exact hfx
  | cons p ps ih => intro fx hfx; exact ih _ (fixShape_addAncestors fx p hfx)

theorem sortFixups_sorted (fx : List (Int × String)) :
    List.Pairwise fixLe (sortFixups fx) :=
  List.sorted_insertionSort fixLe fx

theorem sortFixups_mem (fx : List (Int × String)) (x : Int × String) :
    x ∈ sortFixups fx ↔ x ∈ fx :=
  (List.perm_insertionSort fixLe fx).mem_iff

/-- `rm_file` leaves the fixup set alone and appends at most one `rm`
event (exactly one when deletion is enabled). -/
theorem rm_file_trace (cfg : SyncCfg) (st : SState) (p : String) (st' : SState)
    (h : Sync.rm_file cfg st p = .ok st') :
    st'.fixups = st.fixups ∧ (st'.trace = st.trace ∨ st'.trace = st.trace ++ [Ev.rm p]) := by
  unfold Sync.rm_file at h
  by_cases hed : cfg.enable_delete = true
  · rw [if_pos hed] at h
    dsimp only at h
    split at h
    · exact absurd h (by simp)
    · unfold markDeletedSt at h
      dsimp only at h
      split at h
      · injection h with h
        subst h
        exact ⟨rfl, Or.inr rfl⟩
      · exact absurd h (by simp)
  · rw [if_neg hed] at h
    dsimp only at h
    unfold markDeletedSt at h
    dsimp only at h
    split at h
    · injection h with h
      subst h
      exact ⟨rfl, Or.inl rfl⟩
    · exact absurd h (by simp)

/-- `transfer_file` leaves the fixup set alone; it appends a `file`
event exactly when it actually ran the primitive (never in a dry run). -/
theorem transfer_file_trace (cfg : SyncCfg) (st : SState) (p : String) (st' : SState)
    (h : Sync.transfer_file cfg st p = .ok st') :
    st'.fixups = st.fixups ∧
      (st'.trace = st.trace ∨ (cfg.dry_run = false ∧ st'.trace = st.trace ++ [Ev.file p])) := by
  unfold Sync.transfer_file at h
  cases hsrc : alookup cfg.manifest_src.entries p with
  | none => rw [hsrc] at h; exact absurd h (by simp)
  | some src_lf =>
    rw [hsrc] at h
    dsimp only at h
    by_cases hc : (!src_lf.is_dir && !cfg.dry_run) = true
    · rw [if_pos hc] at h
      simp only [Bool.and_eq_true, Bool.not_eq_true'] at hc
      obtain ⟨-, hdf⟩ := hc
      split at h
      · injection h with h
        subst h
        exact ⟨rfl, Or.inr ⟨hdf, rfl⟩⟩
      · injection h with h
        subst h
        exact ⟨rfl, Or.inr ⟨hdf, rfl⟩⟩
    · rw [if_neg hc] at h
      injection h with h
      subst h
      exact ⟨rfl, Or.inl rfl⟩

/-- `transfer_metadata` leaves the fixup set alone; outside dry runs it
appends exactly one `meta` event (even when the primitive's failure is
consumed into the dirty flag). -/
theorem transfer_metadata_trace (cfg : SyncCfg) (st : SState) (p : String) (st' : SState)
    (h : Sync.transfer_metadata cfg st p = .ok st') :
    st'.fixups = st.fixups ∧
      ((cfg.dry_run = true ∧ st'.trace = st.trace) ∨
        (cfg.dry_run = false ∧ st'.trace = st.trace ++ [Ev.meta p])) := by
  unfold Sync.transfer_metadata at h
  by_cases hdry : cfg.dry_run = true
  · rw [if_pos hdry] at h
    split at h
    · exact absurd h (by simp)
    · injection h with h
      subst h
      exact ⟨rfl, Or.inl ⟨hdry, rfl⟩⟩
  · rw [if_neg hdry] at h
    dsimp only at h
    have hdf : cfg.dry_run = false := by
      revert hdry
      cases cfg.dry_run <;> simp
    split at h
    · injection h with h
      subst h
      exact ⟨rfl, Or.inr ⟨hdf, rfl⟩⟩
    · split at h
      · exact absurd h (by simp)
      · injection h with h
        subst h
        exact ⟨rfl, Or.inr ⟨hdf, rfl⟩⟩

/-- `mkdir` leaves the fixup set alone and appends at most one `mkdir`
event (exactly one outside dry runs). -/
theorem mkdir_trace (cfg : SyncCfg) (st : SState) (p : String) (st' : SState)
    (h : Sync.mkdir cfg st p = .ok st') :
    st'.fixups = st.fixups ∧
      (st'.trace = st.trace ∨ st'.trace = st.trace ++ [Ev.mkdir p]) := by
  unfold Sync.mkdir at h
  by_cases hdry : cfg.dry_run = true
  · rw [if_pos hdry] at h
    split at h
    · exact absurd h (by simp)
    · injection h with h
      subst h
      exact ⟨rfl, Or.inl rfl⟩
  · rw [if_neg hdry] at h
    dsimp only at h
    split at h
    · injection h with h
      subst h
      exact ⟨rfl, Or.inr rfl⟩
    · split at h
      · exact absurd h (by simp)
      · injection h with h
        subst h
        exact ⟨rfl, Or.inr rfl⟩

theorem delStep_trace (cfg : SyncCfg) (st : SState) (p : String) (st' : SState)
    (h : delStep cfg st p = .ok st') :
    st'.fixups = st.fixups ∧ (st'.trace = st.trace ∨ st'.trace = st.trace ++ [Ev.rm p]) := by
  unfold delStep at h
  obtain ⟨s₁, h₁, h₂⟩ := except_bind_ok _ _ _ h
  simp only [pure, Except.pure, Except.ok.injEq] at h₂
  subst h₂
  obtain ⟨hf, ht⟩ := rm_file_trace cfg st p s₁ h₁
  exact ⟨hf, ht⟩

theorem mkdirStep_trace (cfg : SyncCfg) (st : SState) (p : String) (st' : SState)
    (h : mkdirStep cfg st p = .ok st') :
    (st'.fixups = st.fixups ∨ st'.fixups = fxInsert st.fixups (-(nComps p : Int), p)) ∧
      (st'.trace = st.trace ∨ st'.trace = st.trace ++ [Ev.mkdir p]) := by
  unfold mkdirStep at h
  split at h
  · exact absurd h (by simp)
  · split at h
    · simp only [pure, Except.pure, Except.ok.injEq] at h
      subst h
      exact ⟨Or.inl rfl, Or.inl rfl⟩
    · obtain ⟨s₁, h₁, h₂⟩ := except_bind_ok _ _ _ h
      simp only [pure, Except.pure, Except.ok.injEq] at h₂
      subst h₂
      obtain ⟨hf, ht⟩ := mkdir_trace cfg st p s₁ h₁
      exact ⟨Or.inr (by rw [hf]), ht⟩

theorem addFileStep_trace (cfg : SyncCfg) (st : SState) (p : String) (st' : SState)
    (h : addFileStep cfg st p = .ok st') :
    st'.fixups = st.fixups ∧ ∃ b, st'.trace = st.trace ++ b ∧ FMChunks b := by
  unfold addFileStep at h
  split at h
  · exact absurd h (by simp)
  · split at h
    · simp only [pure, Except.pure, Except.ok.injEq] at h
      subst h
      exact ⟨rfl, [], by simp, FMChunks.nil⟩
    · obtain ⟨s₁, h₁, h₂⟩ := except_bind_ok _ _ _ h
      obtain ⟨s₂, h₃, h₄⟩ := except_bind_ok _ _ _ h₂
      simp only [pure, Except.pure, Except.ok.injEq] at h₄
      subst h₄
      obtain ⟨hf₁, ht₁⟩ := transfer_file_trace cfg st p s₁ h₁
      obtain ⟨hf₂, ht₂⟩ := transfer_metadata_trace cfg s₁ p s₂ h₃
      refine ⟨hf₂.trans hf₁, ?_⟩
      rcases ht₂ with ⟨hdry, ht₂⟩ | ⟨hdf, ht₂⟩
      · rcases ht₁ with ht₁ | ⟨hdf', ht₁⟩
        · exact ⟨[], by rw [ht₂, ht₁]; simp, FMChunks.nil⟩
        · rw [hdf'] at hdry
          exact absurd hdry (by simp)
      · rcases ht₁ with ht₁ | ⟨hdf', ht₁⟩
        · exact ⟨[Ev.meta p], by rw [ht₂, ht₁], FMChunks.meta p [] FMChunks.nil⟩
        · exact ⟨[Ev.file p, Ev.meta p], by rw [ht₂, ht₁]; simp,
            FMChunks.file p [] FMChunks.nil⟩

theorem contentsStep_trace (cfg : SyncCfg) (reg : List String) (st : SState) (p : String)
    (st' : SState) (h : contentsStep cfg reg st p = .ok st') :
    st'.fixups = st.fixups ∧ ∃ b, st'.trace = st.trace ++ b ∧ FMChunks b := by
  unfold contentsStep at h
  split at h
  · simp only [pure, Except.pure, Except.ok.injEq] at h
    subst h
    exact ⟨rfl, [], by simp, FMChunks.nil⟩
  · obtain ⟨s₁, h₁, h₂⟩ := except_bind_ok _ _ _ h
    obtain ⟨s₂, h₃, h₄⟩ := except_bind_ok _ _ _ h₂
    simp only [pure, Except.pure, Except.ok.injEq] at h₄
    subst h₄
    obtain ⟨hf₁, ht₁⟩ := transfer_file_trace cfg st p s₁ h₁
    obtain ⟨hf₂, ht₂⟩ := transfer_metadata_trace cfg s₁ p s₂ h₃
    refine ⟨hf₂.trans hf₁, ?_⟩
    rcases ht₂ with ⟨hdry, ht₂⟩ | ⟨hdf, ht₂⟩
    · rcases ht₁ with ht₁ | ⟨hdf', ht₁⟩
      · exact ⟨[], by rw [ht₂, ht₁]; simp, FMChunks.nil⟩
      · rw [hdf'] at hdry
        exact absurd hdry (by simp)
    · rcases ht₁ with ht₁ | ⟨hdf', ht₁⟩
      · exact ⟨[Ev.meta p], by rw [ht₂, ht₁], FMChunks.meta p [] FMChunks.nil⟩
      · exact ⟨[Ev.file p, Ev.meta p], by rw [ht₂, ht₁]; simp,
          FMChunks.file p [] FMChunks.nil⟩

theorem metaStep_trace (cfg : SyncCfg) (reg : List String) (st : SState) (p : String)
    (st' : SState) (h : metaStep cfg reg st p = .ok st') :
    st'.fixups = st.fixups ∧
      (st'.trace = st.trace ∨ st'.trace = st.trace ++ [Ev.meta p]) := by
  unfold metaStep at h
  split at h
  · simp only [pure, Except.pure, Except.ok.injEq] at h
    subst h
    exact ⟨rfl, Or.inl rfl⟩
  · obtain ⟨s₁, h₁, h₂⟩ := except_bind_ok _ _ _ h
    simp only [pure, Except.pure, Except.ok.injEq] at h₂
    subst h₂
    obtain ⟨hf, ht⟩ := transfer_metadata_trace cfg st p s₁ h₁
    refine ⟨hf, ?_⟩
    rcases ht with ⟨-, ht⟩ | ⟨-, ht⟩
    · exact Or.inl ht
    · exact Or.inr ht

theorem replayStep_trace (cfg : SyncCfg) (del : List String) (st : SState)
    (x : Int × String) (st' : SState) (h : replayStep cfg del st x = .ok st') :
    st'.trace = st.trace ∨ (¬ x.2 ∈ del ∧ st'.trace = st.trace ++ [Ev.meta x.2]) := by
  unfold replayStep at h
  split at h
  · simp only [pure, Except.pure, Except.ok.injEq] at h
    subst h
    exact Or.inl rfl
  · rename_i hnd
    obtain ⟨-, ht⟩ := transfer_metadata_trace cfg st x.2 st' h
    rcases ht with ⟨-, ht⟩ | ⟨-, ht⟩
    · exact Or.inl ht
    · exact Or.inr ⟨hnd, ht⟩

/-- Generic fold lemma: if every step of a pass extends the trace by a
block satisfying an append-closed predicate, so does the whole pass. -/
theorem fold_traceQ {α : Type} (step : SState → α → Except String SState)
    (Q : List Ev → Prop) (hnil : Q []) (happ : ∀ b₁ b₂, Q b₁ → Q b₂ → Q (b₁ ++ b₂))
    (l : List α)
    (hstep : ∀ st a st', a ∈ l → step st a = .ok st' →
      ∃ b, st'.trace = st.trace ++ b ∧ Q b) :
    ∀ st st', l.foldlM step st = .ok st' → ∃ b, st'.trace = st.trace ++ b ∧ Q b := by
  induction l with
  | nil =>
    intro st st' h
    simp only [List.foldlM_nil, pure, Except.pure, Except.ok.injEq] at h
    subst h
    exact ⟨[], by simp, hnil⟩
  | cons a l ih =>
    intro st st' h
    rw [List.foldlM_cons] at h
    obtain ⟨s₁, h₁, h₂⟩ := except_bind_ok _ _ _ h
    obtain ⟨b₀, hb₀, hq₀⟩ := hstep st a s₁ (List.mem_cons_self _ _) h₁
    obtain ⟨b₁, hb₁, hq₁⟩ :=
      ih (fun st a st' ha => hstep st a st' (List.mem_cons_of_mem _ ha)) s₁ st' h₂
    exact ⟨b₀ ++ b₁, by rw [hb₁, hb₀, List.append_assoc], happ _ _ hq₀ hq₁⟩

/-- Generic fold lemma: a state predicate preserved by every step of a
pass is preserved by the whole pass. -/
theorem fold_statePres {α : Type} (step : SState → α → Except String SState)
    (P : SState → Prop) (l : List α)
    (hstep : ∀ st a st', a ∈ l → step st a = .ok st' → P st → P st') :
    ∀ st st', l.foldlM step st = .ok st' → P st → P st' := by
  induction l with
  | nil =>
    intro st st' h hp
    simp only [List.foldlM_nil, pure, Except.pure, Except.ok.injEq] at h
    subst h
    exact hp
  | cons a l ih =>
    intro st st' h hp
    rw [List.foldlM_cons] at h
    obtain ⟨s₁, h₁, h₂⟩ := except_bind_ok _ _ _ h
    exact ih (fun st a st' ha => hstep st a st' (List.mem_cons_of_mem _ ha)) s₁ st' h₂
      (hstep st a s₁ (List.mem_cons_self _ _) h₁ hp)

/-- The directory-metadata replay: folding `replayStep` over a list of
fixup tuples that is sorted by `(-depth, path)` and well-shaped appends
only `meta` events for non-deleted fixup paths, in non-increasing
component-depth order. -/
theorem replay_fold_trace (cfg : SyncCfg) (del : List String) :
    ∀ l : List (Int × String), List.Pairwise fixLe l →
    (∀ x ∈ l, x.1 = -(nComps x.2 : Int)) →
    ∀ st st', l.foldlM (replayStep cfg del) st = .ok st' →
      ∃ b, st'.trace = st.trace ++ b ∧
        (∀ e ∈ b, ∃ x, x ∈ l ∧ e = Ev.meta x.2 ∧ ¬ x.2 ∈ del) ∧
        List.Pairwise (fun e₁ e₂ => nComps (Ev.path e₂) ≤ nComps (Ev.path e₁)) b := by
  intro l
  induction l with
  | nil =>
    intro _ _ st st' h
    simp only [List.foldlM_nil, pure, Except.pure, Except.ok.injEq] at h
    subst h
    exact ⟨[], by simp, by simp, List.Pairwise.nil⟩
  | cons x l ih =>
    intro hsort hshape st st' h
    rw [List.foldlM_cons] at h
    obtain ⟨s₁, h₁, h₂⟩ := except_bind_ok _ _ _ h
    obtain ⟨hx, hl⟩ := List.pairwise_cons.mp hsort
    obtain ⟨b₁, hb₁, hmem₁, hpw₁⟩ :=
      ih hl (fun y hy => hshape y (List.mem_cons_of_mem _ hy)) s₁ st' h₂
    rcases replayStep_trace cfg del st x s₁ h₁ with ht | ⟨hnd, ht⟩
    · refine ⟨b₁, by rw [hb₁, ht], ?_, hpw₁⟩
      intro e he
      obtain ⟨y, hy, he', hynd⟩ := hmem₁ e he
      exact ⟨y, List.mem_cons_of_mem _ hy, he', hynd⟩
    · refine ⟨Ev.meta x.2 :: b₁, by rw [hb₁, ht]; simp, ?_, ?_⟩
      · intro e he
        rcases List.mem_cons.mp he with he | he
        · subst he
          exact ⟨x, List.mem_cons_self _ _, rfl, hnd⟩
        · obtain ⟨y, hy, he', hynd⟩ := hmem₁ e he
          exact ⟨y, List.mem_cons_of_mem _ hy, he', hynd⟩
      · refine List.Pairwise.cons ?_ hpw₁
        intro e he
        obtain ⟨y, hy, he', -⟩ := hmem₁ e he
        subst he'
        have h1 := fixLe_fst (hx y hy)
        have h2 := hshape x (List.mem_cons_self _ _)
        have h3 := hshape y (List.mem_cons_of_mem _ hy)
        show nComps (Ev.path (Ev.meta y.2)) ≤ nComps (Ev.path (Ev.meta x.2))
        simp only [Ev.path]
        omega

theorem delPass_trace (cfg : SyncCfg) (l : List String) :
    ∀ st st', l.foldlM (delStep cfg) st = .ok st' →
      ∃ b, st'.trace = st.trace ++ b ∧ ∀ e ∈ b, ∃ q, e = Ev.rm q :=
  fold_traceQ (delStep cfg) (fun b => ∀ e ∈ b, ∃ q, e = Ev.rm q)
    (by intro e he; cases he)
    (by
      intro b₁ b₂ q₁ q₂ e he
      rcases List.mem_append.mp he with h | h
      exacts [q₁ e h, q₂ e h])
    l
    (by
      intro st a st' _ h
      obtain ⟨-, ht⟩ := delStep_trace cfg st a st' h
      rcases ht with ht | ht
      · exact ⟨[], by simp [ht], by intro e he; cases he⟩
      · refine ⟨[Ev.rm a], ht, ?_⟩
        intro e he
        rw [List.mem_singleton.mp he]
        exact ⟨a, rfl⟩)

theorem mkdirPass_trace (cfg : SyncCfg) (l : List String) :
    ∀ st st', l.foldlM (mkdirStep cfg) st = .ok st' →
      ∃ b, st'.trace = st.trace ++ b ∧ ∀ e ∈ b, ∃ q, e = Ev.mkdir q :=
  fold_traceQ (mkdirStep cfg) (fun b => ∀ e ∈ b, ∃ q, e = Ev.mkdir q)
    (by intro e he; cases he)
    (by
      intro b₁ b₂ q₁ q₂ e he
      rcases List.mem_append.mp he with h | h
      exacts [q₁ e h, q₂ e h])
    l
    (by
      intro st a st' _ h
      obtain ⟨-, ht⟩ := mkdirStep_trace cfg st a st' h
      rcases ht with ht | ht
      · exact ⟨[], by simp [ht], by intro e he; cases he⟩
      · refine ⟨[Ev.mkdir a], ht, ?_⟩
        intro e he
        rw [List.mem_singleton.mp he]
        exact ⟨a, rfl⟩)

theorem addPass_trace (cfg : SyncCfg) (l : List String) :
    ∀ st st', l.foldlM (addFileStep cfg) st = .ok st' →
      ∃ b, st'.trace = st.trace ++ b ∧ FMChunks b :=
  fold_traceQ (addFileStep cfg) FMChunks FMChunks.nil FMChunks_append l
    (fun st a st' _ h => (addFileStep_trace cfg st a st' h).2)

theorem contentsPass_trace (cfg : SyncCfg) (reg : List String) (l : List String) :
    ∀ st st', l.foldlM (contentsStep cfg reg) st = .ok st' →
      ∃ b, st'.trace = st.trace ++ b ∧ FMChunks b :=
  fold_traceQ (contentsStep cfg reg) FMChunks FMChunks.nil FMChunks_append l
    (fun st a st' _ h => (contentsStep_trace cfg reg st a st' h).2)

theorem metaPass_trace (cfg : SyncCfg) (reg : List String) (l : List String) :
    ∀ st st', l.foldlM (metaStep cfg reg) st = .ok st' →
      ∃ b, st'.trace = st.trace ++ b ∧ ∀ e ∈ b, ∃ q, e = Ev.meta q :=
  fold_traceQ (metaStep cfg reg) (fun b => ∀ e ∈ b, ∃ q, e = Ev.meta q)
    (by intro e he; cases he)
    (by
      intro b₁ b₂ q₁ q₂ e he
      rcases List.mem_append.mp he with h | h
      exacts [q₁ e h, q₂ e h])
    l
    (by
      intro st a st' _ h
      obtain ⟨-, ht⟩ := metaStep_trace cfg reg st a st' h
      rcases ht with ht | ht
      · exact ⟨[], by simp [ht], by intro e he; cases he⟩
      · refine ⟨[Ev.meta a], ht, ?_⟩
        intro e he
        rw [List.mem_singleton.mp he]
        exact ⟨a, rfl⟩)

/-- The operation ordering `sync` guarantees: first deletions, then
directory creations, then the file-addition and content-change blocks
(each content transfer immediately followed by the same path's metadata
restore), then the metadata pass, and last the directory fixup replay —
`meta` events only, never for a deleted path, in non-increasing
component-depth (deepest-first) order. -/
def traceDecomp (del : List String) (t : List Ev) : Prop :=
  ∃ t₁ t₂ t₃ t₄ t₅,
    t = t₁ ++ t₂ ++ t₃ ++ t₄ ++ t₅ ∧
    (∀ e ∈ t₁, ∃ p, e = Ev.rm p) ∧
    (∀ e ∈ t₂, ∃ p, e = Ev.mkdir p) ∧
    FMChunks t₃ ∧
    (∀ e ∈ t₄, ∃ p, e = Ev.meta p) ∧
    (∀ e ∈ t₅, ∃ p, e = Ev.meta p ∧ ¬ p ∈ del) ∧
    List.Pairwise (fun e₁ e₂ => nComps (Ev.path e₂) ≤ nComps (Ev.path e₁)) t₅

/-- C6 (amended): a successful `sync` run orders its primitive
operations as: all deletions, then all directory creations, then the
file transfers — each content transfer immediately followed by that same
file's metadata restore (NOT all metadata after all contents, see the
counterexample), then the standalone metadata restores, and finally the
directory-metadata replay, which emits only metadata restores, skips
every deleted path, and proceeds in non-increasing directory depth
(deepest first; equal depths are ordered by path, not strictly by
depth). -/
theorem C6_order (cfg : SyncCfg) (st0 : SState) (d : Diff) (st' : SState)
    (htr : st0.trace = []) (hfx : st0.fixups = [])
    (hrun : Sync.sync cfg st0 = .ok (d, st')) :
    traceDecomp d.deleted st'.trace := by
  unfold Sync.sync at hrun
  obtain ⟨plan, hplan, hrun⟩ := except_bind_ok _ _ _ hrun
  obtain ⟨s₁, h₁, hrun⟩ := except_bind_ok _ _ _ hrun
  obtain ⟨s₂, h₂, hrun⟩ := except_bind_ok _ _ _ hrun
  obtain ⟨s₃, h₃, hrun⟩ := except_bind_ok _ _ _ hrun
  obtain ⟨s₄, h₄, hrun⟩ := except_bind_ok _ _ _ hrun
  obtain ⟨s₅, h₅, hrun⟩ := except_bind_ok _ _ _ hrun
  obtain ⟨s₆, h₆, hrun⟩ := except_bind_ok _ _ _ hrun
  simp only [Except.ok.injEq, Prod.mk.injEq] at hrun
  obtain ⟨hd, hst⟩ := hrun
  subst hd
  subst hst
  have hp0 : fixShape st0.fixups := by
    rw [hfx]
    exact fixShape_nil
  have hp1 : fixShape s₁.fixups :=
    fold_statePres (delStep cfg) (fun st => fixShape st.fixups) plan.deleted
      (fun st a st' _ h hp => by
        show fixShape st'.fixups
        rw [(delStep_trace cfg st a st' h).1]
        exact hp)
      st0 s₁ h₁ hp0
  have hp2 : fixShape s₂.fixups :=
    fold_statePres (mkdirStep cfg) (fun st => fixShape st.fixups) plan.added
      (fun st a st' _ h hp => by
        show fixShape st'.fixups
        rcases (mkdirStep_trace cfg st a st' h).1 with hf | hf
        · rw [hf]; exact hp
        · rw [hf]; exact fixShape_fxInsert _ _ hp rfl)
      s₁ s₂ h₂ hp1
  have hp3 : fixShape s₃.fixups :=
    fold_statePres (addFileStep cfg) (fun st => fixShape st.fixups) plan.added
      (fun st a st' _ h hp => by
        show fixShape st'.fixups
        rw [(addFileStep_trace cfg st a st' h).1]
        exact hp)
      s₂ s₃ h₃ hp2
  have hp4 : fixShape s₄.fixups :=
    fold_statePres (contentsStep cfg plan.regressed) (fun st => fixShape st.fixups)
      plan.contents
      (fun st a st' _ h hp => by
        show fixShape st'.fixups
        rw [(contentsStep_trace cfg plan.regressed st a st' h).1]
        exact hp)
      s₃ s₄ h₄ hp3
  have hp5 : fixShape s₅.fixups :=
    fold_statePres (metaStep cfg plan.regressed) (fun st => fixShape st.fixups)
      plan.metadata
      (fun st a st' _ h hp => by
        show fixShape st'.fixups
        rw [(metaStep_trace cfg plan.regressed st a st' h).1]
        exact hp)
      s₄ s₅ h₅ hp4
  have hp6 : fixShape (s₅.touched.foldl addAncestors s₅.fixups) :=
    fixShape_foldl_addAncestors _ _ hp5
  have hshape : ∀ x ∈ sortFixups (s₅.touched.foldl addAncestors s₅.fixups),
      x.1 = -(nComps x.2 : Int) :=
    fun x hx => hp6 x ((sortFixups_mem _ x).mp hx)
  obtain ⟨t₅, ht5, hmem5, hpw5⟩ :=
    replay_fold_trace cfg plan.deleted
      (sortFixups (s₅.touched.foldl addAncestors s₅.fixups))
      (sortFixups_sorted _) hshape _ s₆ h₆
  have ht5' : s₆.trace = s₅.trace ++ t₅ := ht5
  obtain ⟨t₁, ht1, hq1⟩ := delPass_trace cfg plan.deleted st0 s₁ h₁
  obtain ⟨t₂, ht2, hq2⟩ := mkdirPass_trace cfg plan.added s₁ s₂ h₂
  obtain ⟨ta, hta, hqa⟩ := addPass_trace cfg plan.added s₂ s₃ h₃
  obtain ⟨tb, htb, hqb⟩ := contentsPass_trace cfg plan.regressed plan.contents s₃ s₄ h₄
  obtain ⟨t₄, ht4, hq4⟩ := metaPass_trace cfg plan.regressed plan.metadata s₄ s₅ h₅
  refine ⟨t₁, t₂, ta ++ tb, t₄, t₅, ?_, hq1, hq2, FMChunks_append ta tb hqa hqb, hq4,
    ?_, hpw5⟩
  · rw [ht5', ht4, htb, hta, ht2, ht1, htr]
    simp [List.append_assoc]
  · intro e he
    obtain ⟨x, -, he', hnd⟩ := hmem5 e he
    exact ⟨x.2, he', hnd⟩

/-- Witness for C6: the ordering theorem applies to the concrete
two-file copy scenario (the run succeeds, its initial state has an empty
trace and no pending fixups). -/
theorem C6_witness :
    ∃ d st', Sync.sync cfgC6 (initSState cfgC6 fsC2dst 1000) = .ok (d, st') ∧
      traceDecomp d.deleted st'.trace := by
  cases hs : Sync.sync cfgC6 (initSState cfgC6 fsC2dst 1000) with
  | error e =>
    have hh : (Sync.sync cfgC6 (initSState cfgC6 fsC2dst 1000)).toOption.isSome = true := by
      decide
    rw [hs] at hh
    simp [Except.toOption] at hh
  | ok r =>
    obtain ⟨d0, s0⟩ := r
    exact ⟨d0, s0, rfl, C6_order cfgC6 (initSState cfgC6 fsC2dst 1000) d0 s0 rfl rfl hs⟩

/-! ### Sync convergence (C1)

The development below characterizes the destination tree a successful,
clean (`dirty = false`) run leaves behind.  `bump` is the mtime update
`touchParent` applies to a containing directory; `restore` is the
combined effect of the chown/chmod/utime sequence of
`_transfer_metadata`; `copyNode` is the node `_transfer_file` writes
before the per-file metadata restore and `fileNode` the node after it;
`matchNode` states that a destination node agrees with the source node
in every field `Entry.delta` compares. -/

def bump (n : Node) (t : Int) : Node := { n with mtime_ns := t }

def copyNode (nS : Node) (t : Int) : Node :=
  { is_dir := false, size := nS.size, mtime_ns := t, uid := procUid, gid := procGid,
    mode := nS.mode, atime_ns := t }

def fileNode (nS : Node) : Node :=
  { is_dir := false, size := nS.size, mtime_ns := nS.mtime_ns, uid := nS.uid, gid := nS.gid,
    mode := nS.mode, atime_ns := nS.atime_ns }

def restore (n nS : Node) : Node :=
  { n with uid := nS.uid, gid := nS.gid, mode := nS.mode, atime_ns := nS.atime_ns,
           mtime_ns := nS.mtime_ns }

def matchNode (nS n : Node) : Prop :=
  n.size = nS.size ∧ n.mtime_ns = nS.mtime_ns ∧ n.uid = nS.uid ∧ n.gid = nS.gid ∧
    n.mode = nS.mode

theorem bump_bump (n : Node) (t t' : Int) : bump (bump n t) t' = bump n t' := rfl

theorem restore_bump (n nS : Node) (t : Int) : restore (bump n t) nS = restore n nS := rfl

theorem restore_restore (n nS : Node) : restore (restore n nS) nS = restore n nS := rfl

theorem restore_copyNode (nS : Node) (t : Int) : restore (copyNode nS t) nS = fileNode nS := rfl

theorem restore_fileNode (nS : Node) : restore (fileNode nS) nS = fileNode nS := rfl

theorem matchNode_fileNode (nS : Node) : matchNode nS (fileNode nS) := by
  refine ⟨rfl, rfl, rfl, rfl, rfl⟩

theorem matchNode_restore (n nS : Node) (h : n.size = nS.size) :
    matchNode nS (restore n nS) := ⟨h, rfl, rfl, rfl, rfl⟩

theorem matchNode_of_restore_eq (n nS m : Node) (hsz : n.size = nS.size)
    (h : m = restore n nS) : matchNode nS m := h ▸ matchNode_restore n nS hsz

theorem bump_size (n : Node) (t : Int) : (bump n t).size = n.size := rfl

theorem bump_is_dir (n : Node) (t : Int) : (bump n t).is_dir = n.is_dir := rfl

theorem alookup_mem {A : Type} (l : List (String × A)) (p : String) (v : A)
    (h : alookup l p = some v) : (p, v) ∈ l := by
  induction l with
  | nil => simp at h
  | cons e t ih =>
    obtain ⟨k, w⟩ := e
    by_cases hk : p = k
    · subst hk
      rw [alookup_cons, if_pos rfl] at h
      injection h with h
      subst h
      exact List.mem_cons_self _ _
    · rw [alookup_cons, if_neg hk] at h
      exact List.mem_cons_of_mem _ (ih h)

theorem alookup_manifestOfFs (root : String) (fs : Fs) (p : String) :
    alookup (manifestOfFs root fs).entries p = (alookup fs p).map (entryOfNode root p) := by
  show alookup (fs.map (fun e => (e.1, entryOfNode root e.1 e.2))) p = _
  induction fs with
  | nil => rfl
  | cons e t ih =>
    obtain ⟨k, n⟩ := e
    by_cases hk : p = k
    · subst hk
      simp [alookup]
    · simp [alookup, hk, ih]

theorem akeys_manifestOfFs (root : String) (fs : Fs) :
    akeys (manifestOfFs root fs).entries = akeys fs := by
  show akeys (fs.map (fun e => (e.1, entryOfNode root e.1 e.2))) = akeys fs
  unfold akeys
  rw [List.map_map]
  rfl

/-- The entry delta between two scanned nodes always computes, and it is
clean exactly when the nodes agree on every compared field (local
entries: the mtime tolerance is zero). -/
theorem delta_entryOfNode (r r' p : String) (nS nD : Node) :
    ∃ fd, (entryOfNode r p nS).delta (entryOfNode r' p nD) = .ok fd ∧
      (fd.dirty = false ↔ matchNode nS nD) ∧
      fd.size = decide (nS.size ≠ nD.size) := by
  cases hfd : (entryOfNode r p nS).delta (entryOfNode r' p nD) with
  | error e =>
    exfalso
    unfold Entry.delta at hfd
    rw [if_neg (by simp [entryOfNode]), if_neg (by simp [entryOfNode]),
      if_neg (by simp)] at hfd
    simp at hfd
  | ok fd =>
    unfold Entry.delta at hfd
    rw [if_neg (by simp [entryOfNode]), if_neg (by simp [entryOfNode]),
      if_neg (by simp)] at hfd
    injection hfd with hfd
    subst hfd
    refine ⟨_, rfl, ?_, ?_⟩
    · constructor
      · intro h
        simp only [entryOfNode, Entry.timeThreshold, Bool.or_eq_false_iff,
          decide_eq_false_iff_not, Option.getD_none, not_lt] at h
        obtain ⟨⟨⟨⟨⟨⟨hsz, hmt⟩, -⟩, huid⟩, hgid⟩, hmode⟩, -⟩ := h
        refine ⟨?_, ?_, ?_, ?_, ?_⟩
        · exact (not_ne_iff.mp hsz).symm
        · have h0 : |nS.mtime_ns - nD.mtime_ns| = 0 := by
            have habs := abs_nonneg (nS.mtime_ns - nD.mtime_ns)
            omega
          have h1 := abs_eq_zero.mp h0
          omega
        · have := not_ne_iff.mp huid
          injection this.symm
        · have := not_ne_iff.mp hgid
          injection this.symm
        · have := not_ne_iff.mp hmode
          injection this.symm
      · intro h
        obtain ⟨hsz, hmt, huid, hgid, hmode⟩ := h
        simp [entryOfNode, Entry.timeThreshold, hsz, hmt, huid, hgid, hmode]
    · simp [entryOfNode]

/-- Well-formed tree: the root is a directory keyed ".", keys are
nonempty with sane dirname chains, directories have size zero (the
scanner convention the engine maintains), and every non-root key's
containing directory is itself a directory of the tree. -/
def WfFs (fs : Fs) : Prop :=
  ((alookup fs ".").map Node.is_dir = some true) ∧
  (∀ x ∈ fs, x.1 ≠ "" ∧ dirname x.1 ≠ "/") ∧
  (∀ x ∈ fs, x.2.is_dir = true → x.2.size = 0) ∧
  (∀ x ∈ fs, dirname x.1 ≠ "" → (alookup fs (dirname x.1)).map Node.is_dir = some true)

theorem wf_root (fs : Fs) (h : WfFs fs) :
    ∃ n, alookup fs "." = some n ∧ n.is_dir = true := by
  obtain ⟨h1, -, -, -⟩ := h
  cases hl : alookup fs "." with
  | none => rw [hl] at h1; simp at h1
  | some n =>
    rw [hl] at h1
    simp only [Option.map_some', Option.some.injEq] at h1
    exact ⟨n, rfl, h1⟩

theorem wf_key (fs : Fs) (h : WfFs fs) (p : String) (n : Node)
    (hp : alookup fs p = some n) : p ≠ "" ∧ dirname p ≠ "/" :=
  h.2.1 (p, n) (alookup_mem fs p n hp)

theorem wf_dir_size (fs : Fs) (h : WfFs fs) (p : String) (n : Node)
    (hp : alookup fs p = some n) (hd : n.is_dir = true) : n.size = 0 :=
  h.2.2.1 (p, n) (alookup_mem fs p n hp) hd

theorem wf_parent (fs : Fs) (h : WfFs fs) (p : String) (n : Node)
    (hp : alookup fs p = some n) (hd : dirname p ≠ "") :
    ∃ np, alookup fs (dirname p) = some np ∧ np.is_dir = true := by
  have h4 := h.2.2.2 (p, n) (alookup_mem fs p n hp) hd
  cases hl : alookup fs (dirname p) with
  | none => rw [hl] at h4; simp at h4
  | some np =>
    rw [hl] at h4
    simp only [Option.map_some', Option.some.injEq] at h4
    exact ⟨np, rfl, h4⟩

/-- The proper ancestors of a path (shallowest first): the `mkdirChain`
of its dirname. -/
def strictAnc (q : String) : List String :=
  if dirname q = "" then [] else mkdirChain (dirname q)

theorem mem_mkdirChain_self (p : String) : p ∈ mkdirChain p := by
  rw [mkdirChain_unfold]
  by_cases hd : dirname p = ""
  · rw [if_pos hd]
    exact List.mem_singleton.mpr rfl
  · rw [if_neg hd]
    exact List.mem_append.mpr (Or.inr (List.mem_singleton.mpr rfl))

theorem mkdirChain_eq (a : String) : mkdirChain a = strictAnc a ++ [a] := by
  rw [mkdirChain_unfold]
  unfold strictAnc
  by_cases hd : dirname a = ""
  · rw [if_pos hd, if_pos hd]
    rfl
  · rw [if_neg hd, if_neg hd]

theorem strictAnc_sub (a : String) (hd : dirname a ≠ "") (p : String)
    (hp : p ∈ strictAnc (dirname a)) : p ∈ strictAnc a := by
  unfold strictAnc at hp ⊢
  rw [if_neg hd, mkdirChain_eq]
  by_cases hd2 : dirname (dirname a) = ""
  · rw [if_pos hd2] at hp
    cases hp
  · rw [if_neg hd2] at hp
    exact List.mem_append.mpr (Or.inl (by unfold strictAnc; rw [if_neg hd2]; exact hp))

theorem dirname_mem_strictAnc (q : String) (hd : dirname q ≠ "") :
    dirname q ∈ strictAnc q := by
  unfold strictAnc
  rw [if_neg hd]
  exact mem_mkdirChain_self _

theorem parentKey_anc (q p : String) (h : parentKey q = p) :
    p = "." ∨ p ∈ strictAnc q := by
  unfold parentKey at h
  by_cases hd : dirname q = ""
  · rw [if_pos hd] at h
    exact Or.inl h.symm
  · rw [if_neg hd] at h
    subst h
    exact Or.inr (dirname_mem_strictAnc q hd)

theorem str_len_zero (a : String) (h : a.length = 0) : a = "" := by
  cases a with
  | mk l =>
    cases l with
    | nil => rfl
    | cons c t => simp [String.length] at h

theorem chain_parent_anc_aux (n : Nat) :
    ∀ a : String, a.length ≤ n → ∀ r ∈ mkdirChain a,
      parentKey r = "." ∨ parentKey r ∈ strictAnc a := by
  induction n with
  | zero =>
    intro a ha r hr
    have h0 : a = "" := str_len_zero a (by omega)
    subst h0
    rw [mkdirChain_unfold, if_pos dirname_empty] at hr
    rw [List.mem_singleton.mp hr]
    exact Or.inl rfl
  | succ n ih =>
    intro a ha r hr
    rw [mkdirChain_unfold] at hr
    by_cases hd : dirname a = ""
    · rw [if_pos hd] at hr
      rw [List.mem_singleton.mp hr]
      left
      unfold parentKey
      rw [if_pos hd]
    · rw [if_neg hd] at hr
      rcases List.mem_append.mp hr with hr | hr
      · have hane : a ≠ "" := by
          intro h0
          subst h0
          exact hd dirname_empty
        have hlt := dirname_length_lt a hane
        rcases ih (dirname a) (by omega) r hr with h | h
        · exact Or.inl h
        · exact Or.inr (strictAnc_sub a hd _ h)
      · rw [List.mem_singleton.mp hr]
        unfold parentKey
        rw [if_neg hd]
        exact Or.inr (dirname_mem_strictAnc a hd)

theorem chain_parent_anc (a r : String) (hr : r ∈ mkdirChain a) :
    parentKey r = "." ∨ parentKey r ∈ strictAnc a :=
  chain_parent_anc_aux a.length a (le_refl _) r hr

theorem anc_keys_aux (fs : Fs) (hwf : WfFs fs) (n : Nat) :
    ∀ q : String, q.length ≤ n → ∀ nn, alookup fs q = some nn →
      ∀ r ∈ strictAnc q, ∃ n', alookup fs r = some n' ∧ n'.is_dir = true := by
  induction n with
  | zero =>
    intro q hq nn hnn r hr
    have h0 : q = "" := str_len_zero q (by omega)
    subst h0
    exact absurd rfl (wf_key fs hwf "" nn hnn).1
  | succ n ih =>
    intro q hq nn hnn r hr
    unfold strictAnc at hr
    by_cases hd : dirname q = ""
    · rw [if_pos hd] at hr
      cases hr
    · rw [if_neg hd, mkdirChain_eq] at hr
      obtain ⟨np, hnp, hnpd⟩ := wf_parent fs hwf q nn hnn hd
      rcases List.mem_append.mp hr with hr | hr
      · have hqne : q ≠ "" := by
          intro h0
          subst h0
          exact hd dirname_empty
        have hlt := dirname_length_lt q hqne
        exact ih (dirname q) (by omega) np hnp r hr
      · rw [List.mem_singleton.mp hr]
        exact ⟨np, hnp, hnpd⟩

theorem anc_keys (fs : Fs) (hwf : WfFs fs) (q : String) (nn : Node)
    (hq : alookup fs q = some nn) :
    ∀ r ∈ strictAnc q, ∃ n', alookup fs r = some n' ∧ n'.is_dir = true :=
  anc_keys_aux fs hwf q.length q (le_refl _) nn hq

theorem chain_keys (fs : Fs) (hwf : WfFs fs) (q : String) (nn : Node)
    (hq : alookup fs q = some nn) :
    ∀ r ∈ mkdirChain q, ∃ n', alookup fs r = some n' := by
  intro r hr
  rw [mkdirChain_eq] at hr
  rcases List.mem_append.mp hr with hr | hr
  · obtain ⟨n', hn', -⟩ := anc_keys fs hwf q nn hq r hr
    exact ⟨n', hn'⟩
  · rw [List.mem_singleton.mp hr]
    exact ⟨nn, hq⟩

theorem mem_fxInsert_self (fx : List (Int × String)) (x : Int × String) :
    x ∈ fxInsert fx x := by
  unfold fxInsert
  split
  · assumption
  · exact List.mem_append.mpr (Or.inr (List.mem_singleton.mpr rfl))

theorem mem_fxInsert_of_mem (fx : List (Int × String)) (x y : Int × String)
    (h : y ∈ fx) : y ∈ fxInsert fx x := by
  unfold fxInsert
  split
  · exact h
  · exact List.mem_append.mpr (Or.inl h)

theorem mem_addAncestorsAux_of_mem (fuel : Nat) :
    ∀ fx p x, x ∈ fx → x ∈ addAncestorsAux fuel fx p := by
  induction fuel with
  | zero => intro fx p x hx; exact hx
  | succ f ih =>
    intro fx p x hx
    show x ∈ (if (dirname p = "" || dirname p = "/" : Bool) then fx
      else addAncestorsAux f (fxInsert fx (-(nComps (dirname p) : Int), dirname p)) (dirname p))
    split
    · exact hx
    · exact ih _ _ _ (mem_fxInsert_of_mem _ _ _ hx)

theorem mem_addAncestors_of_mem (fx : List (Int × String)) (p : String) (x : Int × String)
    (hx : x ∈ fx) : x ∈ addAncestors fx p :=
  mem_addAncestorsAux_of_mem _ _ _ _ hx

theorem strictAnc_mem_addAncestors_aux (fs : Fs) (hwf : WfFs fs) (n : Nat) :
    ∀ q : String, q.length ≤ n → ∀ nn, alookup fs q = some nn →
      ∀ p ∈ strictAnc q, ∀ fx, (-(nComps p : Int), p) ∈ addAncestors fx q := by
  induction n with
  | zero =>
    intro q hq nn hnn p hp fx
    have h0 : q = "" := str_len_zero q (by omega)
    subst h0
    exact absurd rfl (wf_key fs hwf "" nn hnn).1
  | succ n ih =>
    intro q hq nn hnn p hp fx
    unfold strictAnc at hp
    by_cases hd : dirname q = ""
    · rw [if_pos hd] at hp
      cases hp
    · rw [if_neg hd, mkdirChain_eq] at hp
      have hd2 : dirname q ≠ "/" := (wf_key fs hwf q nn hnn).2
      rw [addAncestors_unfold, if_neg (by simp [hd, hd2])]
      obtain ⟨np, hnp, -⟩ := wf_parent fs hwf q nn hnn hd
      have hqne : q ≠ "" := by
        intro h0
        subst h0
        exact hd dirname_empty
      have hlt := dirname_length_lt q hqne
      rcases List.mem_append.mp hp with hp | hp
      · exact ih (dirname q) (by omega) np hnp p hp _
      · rw [List.mem_singleton.mp hp]
        exact mem_addAncestors_of_mem _ _ _ (mem_fxInsert_self _ _)

theorem strictAnc_mem_addAncestors (fs : Fs) (hwf : WfFs fs) (q : String) (nn : Node)
    (hq : alookup fs q = some nn) (p : String) (hp : p ∈ strictAnc q)
    (fx : List (Int × String)) : (-(nComps p : Int), p) ∈ addAncestors fx q :=
  strictAnc_mem_addAncestors_aux fs hwf q.length q (le_refl _) nn hq p hp fx

theorem mem_foldl_addAncestors_of_mem (T : List String) :
    ∀ fx x, x ∈ fx → x ∈ T.foldl addAncestors fx := by
  induction T with
  | nil => intro fx x hx; exact hx
  | cons a T ih =>
    intro fx x hx
    exact ih _ _ (mem_addAncestors_of_mem _ _ _ hx)

theorem foldl_addAncestors_cover (T : List String) (x : Int × String) (q : String)
    (hq : q ∈ T) (hx : ∀ fx, x ∈ addAncestors fx q) :
    ∀ fx, x ∈ T.foldl addAncestors fx := by
  induction T with
  | nil => cases hq
  | cons a T ih =>
    intro fx
    rcases List.mem_cons.mp hq with h | h
    · subst h
      show x ∈ T.foldl addAncestors (addAncestors fx q)
      exact mem_foldl_addAncestors_of_mem _ _ _ (hx fx)
    · show x ∈ T.foldl addAncestors (addAncestors fx a)
      exact ih h _

/-! Success shapes of the consumed POSIX primitives. -/

theorem osUnlink_ok (fs : Fs) (p : String) (t : Int) (fs' : Fs)
    (h : osUnlink fs p t = .ok fs') : fs' = touchParent (aerase fs p) p t := by
  unfold osUnlink at h
  split at h
  · exact absurd h (by simp)
  · split at h
    · exact absurd h (by simp)
    · injection h with h
      exact h.symm

theorem osRmdir_ok (fs : Fs) (p : String) (t : Int) (fs' : Fs)
    (h : osRmdir fs p t = .ok fs') : fs' = touchParent (aerase fs p) p t := by
  unfold osRmdir at h
  split at h
  · exact absurd h (by simp)
  · split at h
    · exact absurd h (by simp)
    · split at h
      · exact absurd h (by simp)
      · injection h with h
        exact h.symm

theorem osChown_ok (fs : Fs) (p : String) (uid gid : Option Int) (fs' : Fs)
    (h : osChown fs p uid gid = .ok fs') :
    ∃ u g n, uid = some u ∧ gid = some g ∧ alookup fs p = some n ∧
      fs' = areplace fs p { n with uid := u, gid := g } := by
  unfold osChown at h
  split at h
  · rename_i u g
    split at h
    · exact absurd h (by simp)
    · rename_i n hn
      injection h with h
      exact ⟨u, g, n, rfl, rfl, hn, h.symm⟩
  · exact absurd h (by simp)

theorem osChmod_ok (fs : Fs) (p : String) (mode : Option Int) (fs' : Fs)
    (h : osChmod fs p mode = .ok fs') :
    ∃ m n, mode = some m ∧ alookup fs p = some n ∧
      fs' = areplace fs p { n with mode := m } := by
  unfold osChmod at h
  split at h
  · rename_i m
    split at h
    · exact absurd h (by simp)
    · rename_i n hn
      injection h with h
      exact ⟨m, n, rfl, hn, h.symm⟩
  · exact absurd h (by simp)

theorem osUtime_ok (fs : Fs) (p : String) (ut : Option Int × Int) (fs' : Fs)
    (h : osUtime fs p ut = .ok fs') :
    ∃ a n, ut.1 = some a ∧ alookup fs p = some n ∧
      fs' = areplace fs p { n with atime_ns := a, mtime_ns := ut.2 } := by
  unfold osUtime at h
  split at h
  · rename_i av hav
    split at h
    · exact absurd h (by simp)
    · rename_i n hn
      injection h with h
      exact ⟨av, n, hav, hn, h.symm⟩
  · exact absurd h (by simp)

theorem osCopyRename_ok (srcFs fs : Fs) (p : String) (t : Int) (fs' : Fs) (nS : Node)
    (hs : alookup srcFs p = some nS) (h : osCopyRename srcFs fs p t = .ok fs') :
    nS.is_dir = false ∧ fs' = touchParent (aset fs p (copyNode nS t)) p t := by
  unfold osCopyRename at h
  rw [hs] at h
  dsimp only at h
  split at h
  · exact absurd h (by simp)
  · rename_i hdir
    refine ⟨by revert hdir; cases nS.is_dir <;> simp, ?_⟩
    split at h
    · exact absurd h (by simp)
    · split at h
      · exact absurd h (by simp)
      · split at h
        · split at h
          · exact absurd h (by simp)
          · injection h with h
            exact h.symm
        · injection h with h
          exact h.symm

/-- Per-key effect and postcondition of the `os.makedirs` chain fold:
every key is untouched, parent-mtime-bumped (for the parent of a chain
component), or created as a fresh directory; afterwards every chain
component exists and is a directory. -/
theorem mkdirs_fold_perkey (l : List String) :
    ∀ fs c fs' c', l.foldlM mkdirsStep (fs, c) = .ok (fs', c') →
      (∀ r, alookup fs' r = alookup fs r
         ∨ (∃ n t, alookup fs r = some n ∧ alookup fs' r = some (bump n t) ∧
             ∃ q ∈ l, parentKey q = r)
         ∨ (alookup fs r = none ∧ r ∈ l ∧
             ∃ n, alookup fs' r = some n ∧ n.is_dir = true ∧ n.size = 0)) ∧
      (∀ q ∈ l, ∃ n, alookup fs' q = some n ∧ n.is_dir = true) := by
  induction l with
  | nil =>
    intro fs c fs' c' h
    simp only [List.foldlM_nil, pure, Except.pure, Except.ok.injEq, Prod.mk.injEq] at h
    obtain ⟨h1, -⟩ := h
    subst h1
    exact ⟨fun r => Or.inl rfl, by simp⟩
  | cons a l ih =>
    intro fs c fs' c' h
    rw [List.foldlM_cons] at h
    obtain ⟨s₁, h₁, h₂⟩ := except_bind_ok _ _ _ h
    obtain ⟨fs₁, c₁⟩ := s₁
    unfold mkdirsStep at h₁
    have key : (∀ r, alookup fs₁ r = alookup fs r
        ∨ (∃ n t, alookup fs r = some n ∧ alookup fs₁ r = some (bump n t) ∧ parentKey a = r)
        ∨ (alookup fs r = none ∧ r = a ∧
            ∃ n, alookup fs₁ r = some n ∧ n.is_dir = true ∧ n.size = 0)) ∧
        (∃ n, alookup fs₁ a = some n ∧ n.is_dir = true) := by
      split at h₁
      · rename_i n hn
        split at h₁
        · rename_i hdir
          injection h₁ with h₁
          injection h₁ with hf hc
          subst hf
          exact ⟨fun r => Or.inl rfl, ⟨n, hn, hdir⟩⟩
        · exact absurd h₁ (by simp)
      · rename_i hn
        injection h₁ with h₁
        injection h₁ with hf hc
        subst hf
        have hXa : alookup (aset fs a (freshDir c)) a = some (freshDir c) :=
          alookup_aset_self fs a (freshDir c)
        have hva : ∃ n, alookup (touchParent (aset fs a (freshDir c)) a c) a = some n ∧
            n.is_dir = true ∧ n.size = 0 := by
          unfold touchParent
          rw [alookup_aupd]
          by_cases hpa : a = parentKey a
          · rw [if_pos hpa, ← hpa, hXa]
            exact ⟨bump (freshDir c) c, rfl, rfl, rfl⟩
          · rw [if_neg hpa, hXa]
            exact ⟨freshDir c, rfl, rfl, rfl⟩
        constructor
        · intro r
          by_cases hra : r = a
          · subst hra
            exact Or.inr (Or.inr ⟨hn, rfl, hva⟩)
          · have hXr : alookup (aset fs a (freshDir c)) r = alookup fs r :=
              alookup_aset_ne fs a r _ hra
            by_cases hpk : r = parentKey a
            · have heq : alookup (touchParent (aset fs a (freshDir c)) a c) r =
                  (alookup fs r).map (fun n => bump n c) := by
                unfold touchParent
                rw [alookup_aupd, if_pos hpk, ← hpk, hXr]
                rfl
              cases hl : alookup fs r with
              | none =>
                left
                rw [heq, hl]
                rfl
              | some n =>
                refine Or.inr (Or.inl ⟨n, c, rfl, ?_, hpk.symm⟩)
                rw [heq, hl]
                rfl
            · have heq : alookup (touchParent (aset fs a (freshDir c)) a c) r =
                  alookup fs r := by
                unfold touchParent
                rw [alookup_aupd, if_neg hpk, hXr]
              exact Or.inl heq
        · obtain ⟨n, hv, hd, -⟩ := hva
          exact ⟨n, hv, hd⟩
    obtain ⟨hk1, hex1⟩ := key
    obtain ⟨ihk, ihex⟩ := ih fs₁ c₁ fs' c' h₂
    constructor
    · intro r
      rcases hk1 r with h1 | ⟨n₁, t₁, hn₁, hb₁, hpk₁⟩ | ⟨hn₁, hra, n₁, hv₁, hd₁, hs₁⟩
      · rcases ihk r with h2 | ⟨n₂, t₂, hn₂, hb₂, q₂, hq₂, hpk₂⟩ | ⟨hn₂, hr₂, n₂, hv₂, hd₂, hs₂⟩
        · exact Or.inl (h2.trans h1)
        · exact Or.inr (Or.inl ⟨n₂, t₂, h1 ▸ hn₂, hb₂, q₂, List.mem_cons_of_mem _ hq₂, hpk₂⟩)
        · exact Or.inr (Or.inr ⟨h1 ▸ hn₂, List.mem_cons_of_mem _ hr₂, n₂, hv₂, hd₂, hs₂⟩)
      · rcases ihk r with h2 | ⟨n₂, t₂, hn₂, hb₂, q₂, hq₂, hpk₂⟩ | ⟨hn₂, hr₂, n₂, hv₂, hd₂, hs₂⟩
        · exact Or.inr (Or.inl ⟨n₁, t₁, hn₁, h2.trans hb₁, a, List.mem_cons_self _ _, hpk₁⟩)
        · rw [hb₁] at hn₂
          injection hn₂ with hn₂
          subst hn₂
          refine Or.inr (Or.inl ⟨n₁, t₂, hn₁, ?_, a, List.mem_cons_self _ _, hpk₁⟩)
          rw [hb₂]
          rfl
        · rw [hb₁] at hn₂
          cases hn₂
      · rcases ihk r with h2 | ⟨n₂, t₂, hn₂, hb₂, q₂, hq₂, hpk₂⟩ | ⟨hn₂, hr₂, n₂, hv₂, hd₂, hs₂⟩
        · exact Or.inr (Or.inr ⟨hn₁, hra ▸ List.mem_cons_self a l, n₁, h2.trans hv₁, hd₁, hs₁⟩)
        · rw [hv₁] at hn₂
          injection hn₂ with hn₂
          subst hn₂
          exact Or.inr (Or.inr ⟨hn₁, hra ▸ List.mem_cons_self a l, bump n₁ t₂, hb₂, hd₁, hs₁⟩)
        · rw [hv₁] at hn₂
          cases hn₂
    · intro q hq
      rcases List.mem_cons.mp hq with hq | hq
      · subst hq
        obtain ⟨n₁, hv₁, hd₁⟩ := hex1
        rcases ihk q with h2 | ⟨n₂, t₂, hn₂, hb₂, -⟩ | ⟨hn₂, -, n₂, hv₂, hd₂, -⟩
        · exact ⟨n₁, h2.trans hv₁, hd₁⟩
        · rw [hv₁] at hn₂
          injection hn₂ with hn₂
          subst hn₂
          exact ⟨bump n₁ t₂, hb₂, hd₁⟩
        · rw [hv₁] at hn₂
          cases hn₂
      · exact ihex q hq

theorem osMakedirs_perkey (fs : Fs) (p : String) (c : Int) (fs' : Fs) (c' : Int)
    (h : osMakedirs fs p c = .ok (fs', c')) :
    (∀ r, alookup fs' r = alookup fs r
       ∨ (∃ n t, alookup fs r = some n ∧ alookup fs' r = some (bump n t) ∧
           ∃ q ∈ mkdirChain p, parentKey q = r)
       ∨ (alookup fs r = none ∧ r ∈ mkdirChain p ∧
           ∃ n, alookup fs' r = some n ∧ n.is_dir = true ∧ n.size = 0)) ∧
    (∀ q ∈ mkdirChain p, ∃ n, alookup fs' q = some n ∧ n.is_dir = true) :=
  mkdirs_fold_perkey (mkdirChain p) fs c fs' c' h

theorem rmFilePrim_ok (cfg : SyncCfg) (st : SState) (p : String) (fs₂ : Fs) (c₂ : Int)
    (h : rmFilePrim cfg st p = .ok (fs₂, c₂)) :
    fs₂ = touchParent (aerase st.fs p) p st.clock ∧ c₂ = st.clock + 1 := by
  unfold rmFilePrim at h
  split at h
  · exact absurd h (by simp)
  · split at h
    · cases hx : osRmdir st.fs p st.clock with
      | error e =>
        rw [hx] at h
        exact absurd h (by simp [Except.map])
      | ok fs' =>
        rw [hx] at h
        simp only [Except.map] at h
        injection h with h
        injection h with h1 h2
        exact ⟨h1 ▸ osRmdir_ok st.fs p st.clock fs' hx, h2.symm⟩
    · cases hx : osUnlink st.fs p st.clock with
      | error e =>
        rw [hx] at h
        exact absurd h (by simp [Except.map])
      | ok fs' =>
        rw [hx] at h
        simp only [Except.map] at h
        injection h with h
        injection h with h1 h2
        exact ⟨h1 ▸ osUnlink_ok st.fs p st.clock fs' hx, h2.symm⟩

/-- Success shape of `rm_file` with deletion enabled: the entry is
erased, the containing directory's mtime is touched, and the run's
bookkeeping (dirty flag, touched list, fixups) is unaffected. -/
theorem rm_file_okS (cfg : SyncCfg) (st : SState) (p : String) (st' : SState)
    (hed : cfg.enable_delete = true) (h : Sync.rm_file cfg st p = .ok st') :
    st'.fs = touchParent (aerase st.fs p) p st.clock ∧ st'.dirty = st.dirty ∧
    st'.touched = st.touched ∧ st'.fixups = st.fixups := by
  unfold Sync.rm_file at h
  rw [if_pos hed] at h
  dsimp only at h
  split at h
  · exact absurd h (by simp)
  · rename_i fs₂ c₂ hprim
    unfold markDeletedSt at h
    dsimp only at h
    split at h
    · injection h with h
      subst h
      obtain ⟨hf, -⟩ := rmFilePrim_ok cfg _ p fs₂ c₂ hprim
      exact ⟨hf, rfl, rfl, rfl⟩
    · exact absurd h (by simp)

theorem xferMetaPrim_ok (cfg : SyncCfg) (st : SState) (p : String) (fs₂ : Fs) (xf₂ : Manifest)
    (rs : String) (srcFs : Fs) (hms : cfg.manifest_src = manifestOfFs rs srcFs)
    (h : xferMetaPrim cfg st p = .ok (fs₂, xf₂)) :
    ∃ nS n₀, alookup srcFs p = some nS ∧ alookup st.fs p = some n₀ ∧
      (∀ r, r ≠ p → alookup fs₂ r = alookup st.fs r) ∧
      alookup fs₂ p = some (restore n₀ nS) := by
  unfold xferMetaPrim at h
  cases hS : alookup cfg.manifest_src.entries p with
  | none => rw [hS] at h; exact absurd h (by simp)
  | some e =>
    rw [hS] at h
    dsimp only at h
    split at h
    · exact absurd h (by simp)
    · rw [hms, alookup_manifestOfFs] at hS
      cases hsrc : alookup srcFs p with
      | none => rw [hsrc] at hS; simp at hS
      | some nS =>
        rw [hsrc] at hS
        simp only [Option.map_some', Option.some.injEq] at hS
        subst hS
        obtain ⟨fs_a, ha, h⟩ := except_bind_ok _ _ _ h
        obtain ⟨fs_b, hb, h⟩ := except_bind_ok _ _ _ h
        obtain ⟨fs_c, hc, h⟩ := except_bind_ok _ _ _ h
        injection h with h
        injection h with h1 h2
        subst h1
        obtain ⟨u, g, n₀, hu, hg, hn₀, hfa⟩ := osChown_ok _ _ _ _ _ ha
        have hu' : u = nS.uid := by
          simp only [entryOfNode] at hu
          injection hu with hu
          exact hu.symm
        have hg' : g = nS.gid := by
          simp only [entryOfNode] at hg
          injection hg with hg
          exact hg.symm
        subst hu'
        subst hg'
        subst hfa
        obtain ⟨m, n₁, hm, hn₁, hfb⟩ := osChmod_ok _ _ _ _ hb
        have hm' : m = nS.mode := by
          simp only [entryOfNode] at hm
          injection hm with hm
          exact hm.symm
        subst hm'
        rw [alookup_areplace, if_pos rfl, hn₀] at hn₁
        simp only [Option.map_some', Option.some.injEq] at hn₁
        subst hn₁
        subst hfb
        obtain ⟨av, n₂, hav, hn₂, hfc⟩ := osUtime_ok _ _ _ _ hc
        have hav' : av = nS.atime_ns := by
          simp only [entryOfNode, Entry.get_utime] at hav
          injection hav with hav
          exact hav.symm
        subst hav'
        rw [alookup_areplace, if_pos rfl, alookup_areplace, if_pos rfl, hn₀] at hn₂
        simp only [Option.map_some', Option.some.injEq] at hn₂
        subst hn₂
        subst hfc
        refine ⟨nS, n₀, rfl, hn₀, ?_, ?_⟩
        · intro r hr
          rw [alookup_areplace, if_neg hr, alookup_areplace, if_neg hr,
            alookup_areplace, if_neg hr]
        · rw [alookup_areplace, if_pos rfl, alookup_areplace, if_pos rfl,
            alookup_areplace, if_pos rfl, hn₀]
          rfl

/-- Success shape of `transfer_metadata` outside dry runs, given that no
failure was consumed: the entry's uid/gid/mode/atime/mtime are restored
from the source entry and nothing else changes. -/
theorem transfer_metadata_okS (cfg : SyncCfg) (st : SState) (p : String) (st' : SState)
    (rs : String) (srcFs : Fs) (hdry : cfg.dry_run = false)
    (hms : cfg.manifest_src = manifestOfFs rs srcFs)
    (h : Sync.transfer_metadata cfg st p = .ok st') (hd : st'.dirty = false) :
    st.dirty = false ∧
    ∃ nS n₀, alookup srcFs p = some nS ∧ alookup st.fs p = some n₀ ∧
      (∀ r, r ≠ p → alookup st'.fs r = alookup st.fs r) ∧
      alookup st'.fs p = some (restore n₀ nS) ∧
      st'.touched = st.touched ∧ st'.fixups = st.fixups := by
  unfold Sync.transfer_metadata at h
  rw [if_neg (by simp [hdry])] at h
  cases hS : alookup cfg.manifest_src.entries p with
  | none =>
    rw [hS] at h
    dsimp only at h
    split at h
    · injection h with h
      subst h
      simp at hd
    · exact absurd h (by simp)
  | some e =>
    rw [hS] at h
    dsimp only at h
    split at h
    · injection h with h
      subst h
      simp at hd
    · rename_i fs₂ xf₂ hprim
      injection h with h
      subst h
      obtain ⟨nS, n₀, hnS, hn₀, hperk, hp⟩ := xferMetaPrim_ok cfg _ p fs₂ xf₂ rs srcFs hms hprim
      exact ⟨hd, nS, n₀, hnS, hn₀, hperk, hp, rfl, rfl⟩

/-- Success shape of `transfer_file` outside dry runs, given that no
failure was consumed: directories are a manifest-only no-op; files are
copied into place with the source's size and mode, fresh timestamps and
the process identity, and the containing directory's mtime is
touched. -/
theorem transfer_file_okS (cfg : SyncCfg) (st : SState) (p : String) (st' : SState)
    (rs : String) (srcFs : Fs) (hdry : cfg.dry_run = false) (hsf : cfg.srcFs = srcFs)
    (hms : cfg.manifest_src = manifestOfFs rs srcFs)
    (h : Sync.transfer_file cfg st p = .ok st') (hd : st'.dirty = false) :
    st.dirty = false ∧
    ∃ nS, alookup srcFs p = some nS ∧
      ((nS.is_dir = true ∧ st'.fs = st.fs ∧ st'.touched = st.touched ∧
          st'.fixups = st.fixups) ∨
       (nS.is_dir = false ∧
          st'.fs = touchParent (aset st.fs p (copyNode nS st.clock)) p st.clock ∧
          st'.touched = st.touched ∧ st'.fixups = st.fixups)) := by
  unfold Sync.transfer_file at h
  cases hS : alookup cfg.manifest_src.entries p with
  | none => rw [hS] at h; exact absurd h (by simp)
  | some e =>
    rw [hS] at h
    dsimp only at h
    rw [hms, alookup_manifestOfFs] at hS
    cases hsrc : alookup srcFs p with
    | none => rw [hsrc] at hS; simp at hS
    | some nS =>
      rw [hsrc] at hS
      simp only [Option.map_some', Option.some.injEq] at hS
      subst hS
      by_cases hdir : nS.is_dir = true
      · rw [if_neg (by simp [entryOfNode, hdir])] at h
        injection h with h
        subst h
        exact ⟨hd, nS, rfl, Or.inl ⟨hdir, rfl, rfl, rfl⟩⟩
      · have hdir' : nS.is_dir = false := by
          revert hdir
          cases nS.is_dir <;> simp
        rw [if_pos (by simp [entryOfNode, hdir', hdry])] at h
        split at h
        · injection h with h
          subst h
          simp at hd
        · rename_i fs₁ hcp
          injection h with h
          subst h
          rw [hsf] at hcp
          obtain ⟨-, hshape⟩ := osCopyRename_ok srcFs st.fs p st.clock fs₁ nS hsrc hcp
          exact ⟨hd, nS, rfl, Or.inr ⟨hdir', hshape, rfl, rfl⟩⟩

/-- Success shape of `mkdir` outside dry runs, given that no failure was
consumed: exposes the underlying `os.makedirs` call. -/
theorem mkdir_okS (cfg : SyncCfg) (st : SState) (p : String) (st' : SState)
    (hdry : cfg.dry_run = false) (h : Sync.mkdir cfg st p = .ok st')
    (hd : st'.dirty = false) :
    st.dirty = false ∧ ∃ fs₂ c₂, osMakedirs st.fs p st.clock = .ok (fs₂, c₂) ∧
      st'.fs = fs₂ ∧ st'.touched = st.touched ∧ st'.fixups = st.fixups := by
  unfold Sync.mkdir at h
  rw [if_neg (by simp [hdry])] at h
  cases hS : alookup cfg.manifest_src.entries p with
  | none =>
    rw [hS] at h
    dsimp only at h
    split at h
    · injection h with h
      subst h
      simp at hd
    · exact absurd h (by simp)
  | some e =>
    rw [hS] at h
    dsimp only at h
    split at h
    · injection h with h
      subst h
      simp at hd
    · rename_i fs₂ c₂ hmk
      injection h with h
      subst h
      exact ⟨hd, fs₂, c₂, hmk, rfl, rfl, rfl⟩

/-- One deletes-loop iteration, success shape. -/
theorem delStep_okS (cfg : SyncCfg) (st : SState) (p : String) (st' : SState)
    (hed : cfg.enable_delete = true) (h : delStep cfg st p = .ok st') :
    st'.fs = touchParent (aerase st.fs p) p st.clock ∧ st'.dirty = st.dirty ∧
    st'.touched = st.touched ++ [p] ∧ st'.fixups = st.fixups := by
  unfold delStep at h
  obtain ⟨s₁, h₁, h₂⟩ := except_bind_ok _ _ _ h
  simp only [pure, Except.pure, Except.ok.injEq] at h₂
  subst h₂
  obtain ⟨hf, hdty, htc, hfx⟩ := rm_file_okS cfg st p s₁ hed h₁
  exact ⟨hf, hdty, by rw [htc], hfx⟩

/-- One directory-creation iteration, success shape. -/
theorem mkdirStep_okS (cfg : SyncCfg) (st : SState) (p : String) (st' : SState)
    (rs : String) (srcFs : Fs) (hdry : cfg.dry_run = false)
    (hms : cfg.manifest_src = manifestOfFs rs srcFs)
    (h : mkdirStep cfg st p = .ok st') (hd : st'.dirty = false) :
    st.dirty = false ∧
    ((∃ nS, alookup srcFs p = some nS ∧ nS.is_dir = false ∧ st' = st) ∨
     (∃ nS, alookup srcFs p = some nS ∧ nS.is_dir = true ∧
       ∃ fs₂ c₂, osMakedirs st.fs p st.clock = .ok (fs₂, c₂) ∧ st'.fs = fs₂ ∧
         st'.touched = st.touched ++ [p] ∧
         st'.fixups = fxInsert st.fixups (-(nComps p : Int), p))) := by
  unfold mkdirStep at h
  cases hS : alookup cfg.manifest_src.entries p with
  | none => rw [hS] at h; exact absurd h (by simp)
  | some e =>
    rw [hS] at h
    dsimp only at h
    rw [hms, alookup_manifestOfFs] at hS
    cases hsrc : alookup srcFs p with
    | none => rw [hsrc] at hS; simp at hS
    | some nS =>
      rw [hsrc] at hS
      simp only [Option.map_some', Option.some.injEq] at hS
      subst hS
      by_cases hdir : nS.is_dir = true
      · rw [if_neg (by simp [entryOfNode, hdir])] at h
        obtain ⟨s₁, h₁, h₂⟩ := except_bind_ok _ _ _ h
        simp only [pure, Except.pure, Except.ok.injEq] at h₂
        subst h₂
        obtain ⟨hd0, fs₂, c₂, hmk, hfs, htc, hfx⟩ :=
          mkdir_okS cfg st p s₁ hdry h₁ hd
        exact ⟨hd0, Or.inr ⟨nS, rfl, hdir, fs₂, c₂, hmk, hfs, by rw [htc], by rw [hfx]⟩⟩
      · have hdir' : nS.is_dir = false := by
          revert hdir
          cases nS.is_dir <;> simp
        rw [if_pos (by simp [entryOfNode, hdir'])] at h
        simp only [pure, Except.pure, Except.ok.injEq] at h
        subst h
        exact ⟨hd, Or.inl ⟨nS, rfl, hdir', rfl⟩⟩

/-- One file-additions iteration, success shape: directories are passed
over; a file ends up as an exact copy of the source node (content
transfer immediately followed by the per-file metadata restore), with
only the containing directory's mtime additionally bumped. -/
theorem addFileStep_okS (cfg : SyncCfg) (st : SState) (p : String) (st' : SState)
    (rs : String) (srcFs : Fs) (hdry : cfg.dry_run = false) (hsf : cfg.srcFs = srcFs)
    (hms : cfg.manifest_src = manifestOfFs rs srcFs)
    (h : addFileStep cfg st p = .ok st') (hd : st'.dirty = false) :
    st.dirty = false ∧
    ((∃ nS, alookup srcFs p = some nS ∧ nS.is_dir = true ∧ st' = st) ∨
     (∃ nS, alookup srcFs p = some nS ∧ nS.is_dir = false ∧
       alookup st'.fs p = some (fileNode nS) ∧
       (∀ r, r ≠ p → r ≠ parentKey p → alookup st'.fs r = alookup st.fs r) ∧
       (∀ r, r ≠ p → r = parentKey p →
          alookup st'.fs r = (alookup st.fs r).map (fun n => bump n st.clock)) ∧
       st'.touched = st.touched ++ [p] ∧ st'.fixups = st.fixups)) := by
  unfold addFileStep at h
  cases hS : alookup cfg.manifest_src.entries p with
  | none => rw [hS] at h; exact absurd h (by simp)
  | some e =>
    rw [hS] at h
    dsimp only at h
    rw [hms, alookup_manifestOfFs] at hS
    cases hsrc : alookup srcFs p with
    | none => rw [hsrc] at hS; simp at hS
    | some nS =>
      rw [hsrc] at hS
      simp only [Option.map_some', Option.some.injEq] at hS
      subst hS
      by_cases hdir : nS.is_dir = true
      · rw [if_pos (by simp [entryOfNode, hdir])] at h
        simp only [pure, Except.pure, Except.ok.injEq] at h
        subst h
        exact ⟨hd, Or.inl ⟨nS, rfl, hdir, rfl⟩⟩
      · have hdir' : nS.is_dir = false := by
          revert hdir
          cases nS.is_dir <;> simp
        rw [if_neg (by simp [entryOfNode, hdir'])] at h
        obtain ⟨s₁, h₁, h₂⟩ := except_bind_ok _ _ _ h
        obtain ⟨s₂, h₃, h₄⟩ := except_bind_ok _ _ _ h₂
        simp only [pure, Except.pure, Except.ok.injEq] at h₄
        subst h₄
        have hd₂ : s₂.dirty = false := hd
        obtain ⟨hd₁, nSm, n₁, hnSm, hn₁, hperk, hpv, htc₂, hfx₂⟩ :=
          transfer_metadata_okS cfg s₁ p s₂ rs srcFs hdry hms h₃ hd₂
        obtain ⟨hd0, nSf, hnSf, hcase⟩ :=
          transfer_file_okS cfg st p s₁ rs srcFs hdry hsf hms h₁ hd₁
        rw [hsrc] at hnSf hnSm
        injection hnSf with hnSf
        injection hnSm with hnSm
        subst hnSf
        subst hnSm
        rcases hcase with ⟨hdd, -⟩ | ⟨-, hfs₁, htc₁, hfx₁⟩
        · rw [hdd] at hdir'
          cases hdir'
        · have hres : restore n₁ nS = fileNode nS := by
            rw [hfs₁] at hn₁
            unfold touchParent at hn₁
            rw [alookup_aupd] at hn₁
            by_cases hpp : p = parentKey p
            · rw [if_pos hpp, ← hpp, alookup_aset_self] at hn₁
              injection hn₁ with hn₁
              subst hn₁
              rfl
            · rw [if_neg hpp, alookup_aset_self] at hn₁
              injection hn₁ with hn₁
              subst hn₁
              rfl
          refine ⟨hd0, Or.inr ⟨nS, rfl, hdir', by rw [hpv, hres], ?_, ?_,
            by rw [htc₂, htc₁], by rw [hfx₂, hfx₁]⟩⟩
          · intro r hrp hrpk
            rw [hperk r hrp, hfs₁]
            unfold touchParent
            rw [alookup_aupd, if_neg hrpk, alookup_aset_ne st.fs p r _ hrp]
          · intro r hrp hrpk
            rw [hperk r hrp, hfs₁]
            unfold touchParent
            rw [alookup_aupd, if_pos hrpk, ← hrpk,
              alookup_aset_ne st.fs p r _ hrp]
            rfl

/-- One content-changes iteration, success shape (the regression guard
is assumed not to fire). -/
theorem contentsStep_okS (cfg : SyncCfg) (reg : List String) (st : SState) (p : String)
    (st' : SState) (rs : String) (srcFs : Fs) (hdry : cfg.dry_run = false)
    (hsf : cfg.srcFs = srcFs) (hms : cfg.manifest_src = manifestOfFs rs srcFs)
    (hg : ¬(p ∈ reg ∧ ¬cfg.overwrite_regressed = true))
    (h : contentsStep cfg reg st p = .ok st') (hd : st'.dirty = false) :
    st.dirty = false ∧
    ((∃ nS n₀, alookup srcFs p = some nS ∧ nS.is_dir = true ∧
       alookup st.fs p = some n₀ ∧ alookup st'.fs p = some (restore n₀ nS) ∧
       (∀ r, r ≠ p → alookup st'.fs r = alookup st.fs r) ∧
       st'.touched = st.touched ++ [p] ∧ st'.fixups = st.fixups) ∨
     (∃ nS, alookup srcFs p = some nS ∧ nS.is_dir = false ∧
       alookup st'.fs p = some (fileNode nS) ∧
       (∀ r, r ≠ p → r ≠ parentKey p → alookup st'.fs r = alookup st.fs r) ∧
       (∀ r, r ≠ p → r = parentKey p →
          alookup st'.fs r = (alookup st.fs r).map (fun n => bump n st.clock)) ∧
       st'.touched = st.touched ++ [p] ∧ st'.fixups = st.fixups)) := by
  unfold contentsStep at h
  rw [if_neg hg] at h
  obtain ⟨s₁, h₁, h₂⟩ := except_bind_ok _ _ _ h
  obtain ⟨s₂, h₃, h₄⟩ := except_bind_ok _ _ _ h₂
  simp only [pure, Except.pure, Except.ok.injEq] at h₄
  subst h₄
  have hd₂ : s₂.dirty = false := hd
  obtain ⟨hd₁, nSm, n₁, hnSm, hn₁, hperk, hpv, htc₂, hfx₂⟩ :=
    transfer_metadata_okS cfg s₁ p s₂ rs srcFs hdry hms h₃ hd₂
  obtain ⟨hd0, nSf, hnSf, hcase⟩ :=
    transfer_file_okS cfg st p s₁ rs srcFs hdry hsf hms h₁ hd₁
  rw [hnSf] at hnSm
  injection hnSm with hnSm
  subst hnSm
  rcases hcase with ⟨hdd, hfs₁, htc₁, hfx₁⟩ | ⟨hdd, hfs₁, htc₁, hfx₁⟩
  · refine ⟨hd0, Or.inl ⟨nSf, n₁, hnSf, hdd, by rw [← hfs₁]; exact hn₁,
      by rw [hpv], ?_, by rw [htc₂, htc₁], by rw [hfx₂, hfx₁]⟩⟩
    intro r hrp
    rw [hperk r hrp, hfs₁]
  · have hres : restore n₁ nSf = fileNode nSf := by
      rw [hfs₁] at hn₁
      unfold touchParent at hn₁
      rw [alookup_aupd] at hn₁
      by_cases hpp : p = parentKey p
      · rw [if_pos hpp, ← hpp, alookup_aset_self] at hn₁
        injection hn₁ with hn₁
        subst hn₁
        rfl
      · rw [if_neg hpp, alookup_aset_self] at hn₁
        injection hn₁ with hn₁
        subst hn₁
        rfl
    refine ⟨hd0, Or.inr ⟨nSf, hnSf, hdd, by rw [hpv, hres], ?_, ?_,
      by rw [htc₂, htc₁], by rw [hfx₂, hfx₁]⟩⟩
    · intro r hrp hrpk
      rw [hperk r hrp, hfs₁]
      unfold touchParent
      rw [alookup_aupd, if_neg hrpk, alookup_aset_ne st.fs p r _ hrp]
    · intro r hrp hrpk
      rw [hperk r hrp, hfs₁]
      unfold touchParent
      rw [alookup_aupd, if_pos hrpk, ← hrpk, alookup_aset_ne st.fs p r _ hrp]
      rfl

/-- One metadata-changes iteration, success shape (guard assumed not to
fire): a pure metadata restore of the path. -/
theorem metaStep_okS (cfg : SyncCfg) (reg : List String) (st : SState) (p : String)
    (st' : SState) (rs : String) (srcFs : Fs) (hdry : cfg.dry_run = false)
    (hms : cfg.manifest_src = manifestOfFs rs srcFs)
    (hg : ¬(p ≠ "" ∧ p ∈ reg ∧ ¬cfg.overwrite_regressed = true))
    (h : metaStep cfg reg st p = .ok st') (hd : st'.dirty = false) :
    st.dirty = false ∧
    ∃ nS n₀, alookup srcFs p = some nS ∧ alookup st.fs p = some n₀ ∧
      (∀ r, r ≠ p → alookup st'.fs r = alookup st.fs r) ∧
      alookup st'.fs p = some (restore n₀ nS) ∧
      st'.touched = st.touched ++ [p] ∧ st'.fixups = st.fixups := by
  unfold metaStep at h
  rw [if_neg hg] at h
  obtain ⟨s₁, h₁, h₂⟩ := except_bind_ok _ _ _ h
  simp only [pure, Except.pure, Except.ok.injEq] at h₂
  subst h₂
  have hd₁ : s₁.dirty = false := hd
  obtain ⟨hd0, nS, n₀, hnS, hn₀, hperk, hpv, htc₁, hfx₁⟩ :=
    transfer_metadata_okS cfg st p s₁ rs srcFs hdry hms h₁ hd₁
  exact ⟨hd0, nS, n₀, hnS, hn₀, hperk, hpv, by rw [htc₁], hfx₁⟩

/-- One directory-fixup replay iteration, success shape. -/
theorem replayStep_okS (cfg : SyncCfg) (del : List String) (st : SState)
    (x : Int × String) (st' : SState) (rs : String) (srcFs : Fs)
    (hdry : cfg.dry_run = false) (hms : cfg.manifest_src = manifestOfFs rs srcFs)
    (h : replayStep cfg del st x = .ok st') (hd : st'.dirty = false) :
    st.dirty = false ∧
    ((x.2 ∈ del ∧ st' = st) ∨
     (¬x.2 ∈ del ∧ ∃ nS n₀, alookup srcFs x.2 = some nS ∧ alookup st.fs x.2 = some n₀ ∧
        (∀ r, r ≠ x.2 → alookup st'.fs r = alookup st.fs r) ∧
        alookup st'.fs x.2 = some (restore n₀ nS) ∧
        st'.touched = st.touched ∧ st'.fixups = st.fixups)) := by
  unfold replayStep at h
  by_cases hmem : x.2 ∈ del
  · rw [if_pos hmem] at h
    simp only [pure, Except.pure, Except.ok.injEq] at h
    subst h
    exact ⟨hd, Or.inl ⟨hmem, rfl⟩⟩
  · rw [if_neg hmem] at h
    obtain ⟨hd0, nS, n₀, hnS, hn₀, hperk, hpv, htc, hfx⟩ :=
      transfer_metadata_okS cfg st x.2 st' rs srcFs hdry hms h hd
    exact ⟨hd0, Or.inr ⟨hmem, nS, n₀, hnS, hn₀, hperk, hpv, htc, hfx⟩⟩

/-- A path whose mtime a pass may disturb: the root, or a proper
ancestor of one of the paths the pass touched. -/
def ancIn (l : List String) (p : String) : Prop :=
  p = "." ∨ ∃ q ∈ l, p ∈ strictAnc q

theorem ancIn_mono (l l' : List String) (p : String) (hsub : ∀ q ∈ l, q ∈ l')
    (h : ancIn l p) : ancIn l' p := by
  rcases h with h | ⟨q, hq, hp⟩
  · exact Or.inl h
  · exact Or.inr ⟨q, hsub q hq, hp⟩

/-- Per-key effect of the whole deletes pass: deleted paths are gone;
every other path is untouched or has only its mtime bumped (as the
parent of a deleted path). -/
theorem delPass_okS (cfg : SyncCfg) (hed : cfg.enable_delete = true) (l : List String) :
    ∀ st st', l.foldlM (delStep cfg) st = .ok st' →
      st'.dirty = st.dirty ∧
      (∀ q ∈ st.touched, q ∈ st'.touched) ∧
      (∀ q ∈ st'.touched, q ∈ st.touched ∨ q ∈ l) ∧
      (∀ q ∈ l, q ∈ st'.touched) ∧
      st'.fixups = st.fixups ∧
      (∀ p, (p ∈ l → alookup st'.fs p = none) ∧
            (p ∉ l → alookup st'.fs p = alookup st.fs p ∨
              ∃ n t, alookup st.fs p = some n ∧ alookup st'.fs p = some (bump n t) ∧
                ancIn l p)) := by
  induction l with
  | nil =>
    intro st st' h
    simp only [List.foldlM_nil, pure, Except.pure, Except.ok.injEq] at h
    subst h
    exact ⟨rfl, fun q hq => hq, fun q hq => Or.inl hq, by simp, rfl,
      fun p => ⟨by simp, fun _ => Or.inl rfl⟩⟩
  | cons a l ih =>
    intro st st' h
    rw [List.foldlM_cons] at h
    obtain ⟨s₁, h₁, h₂⟩ := except_bind_ok _ _ _ h
    obtain ⟨hfs₁, hdty₁, htc₁, hfx₁⟩ := delStep_okS cfg st a s₁ hed h₁
    obtain ⟨ihd, ihtm, ihtp, ihtl, ihfx, ihk⟩ := ih s₁ st' h₂
    have headk : ∀ p, (p = a → alookup s₁.fs p = none) ∧
        (p ≠ a → alookup s₁.fs p = alookup st.fs p ∨
          ∃ n, alookup st.fs p = some n ∧ alookup s₁.fs p = some (bump n st.clock) ∧
            ancIn (a :: l) p) := by
      intro p
      constructor
      · intro hpa
        subst hpa
        rw [hfs₁]
        unfold touchParent
        rw [alookup_aupd]
        by_cases hpk : p = parentKey p
        · rw [if_pos hpk, ← hpk, alookup_aerase, if_pos rfl]
          rfl
        · rw [if_neg hpk, alookup_aerase, if_pos rfl]
      · intro hpa
        rw [hfs₁]
        unfold touchParent
        rw [alookup_aupd]
        by_cases hpk : p = parentKey a
        · rw [if_pos hpk, ← hpk, alookup_aerase, if_neg hpa]
          cases hl : alookup st.fs p with
          | none => exact Or.inl rfl
          | some n =>
            refine Or.inr ⟨n, rfl, rfl, ?_⟩
            rcases parentKey_anc a p hpk.symm with h | h
            · exact Or.inl h
            · exact Or.inr ⟨a, List.mem_cons_self _ _, h⟩
        · rw [if_neg hpk, alookup_aerase, if_neg hpa]
          exact Or.inl rfl
    refine ⟨ihd.trans hdty₁, ?_, ?_, ?_, ihfx.trans hfx₁, ?_⟩
    · intro q hq
      exact ihtm q (by rw [htc₁]; exact List.mem_append.mpr (Or.inl hq))
    · intro q hq
      rcases ihtp q hq with hq | hq
      · rw [htc₁] at hq
        rcases List.mem_append.mp hq with hq | hq
        · exact Or.inl hq
        · exact Or.inr (by rw [List.mem_singleton.mp hq]; exact List.mem_cons_self _ _)
      · exact Or.inr (List.mem_cons_of_mem _ hq)
    · intro q hq
      rcases List.mem_cons.mp hq with hq | hq
      · subst hq
        exact ihtm q (by rw [htc₁]; exact List.mem_append.mpr (Or.inr (by simp)))
      · exact ihtl q hq
    · intro p
      constructor
      · intro hp
        rcases List.mem_cons.mp hp with hp | hp
        · subst hp
          by_cases hpl : p ∈ l
          · exact (ihk p).1 hpl
          · rcases (ihk p).2 hpl with h2 | ⟨n₂, t₂, hn₂, -, -⟩
            · rw [h2]
              exact (headk p).1 rfl
            · rw [(headk p).1 rfl] at hn₂
              cases hn₂
        · exact (ihk p).1 hp
      · intro hp
        have hpa : p ≠ a := fun he => hp (he ▸ List.mem_cons_self _ _)
        have hpl : p ∉ l := fun he => hp (List.mem_cons_of_mem _ he)
        rcases (ihk p).2 hpl with h2 | ⟨n₂, t₂, hn₂, hb₂, hanc₂⟩
        · rcases (headk p).2 hpa with h1 | ⟨n₁, hn₁, hb₁, hanc₁⟩
          · exact Or.inl (h2.trans h1)
          · exact Or.inr ⟨n₁, st.clock, hn₁, h2.trans hb₁, hanc₁⟩
        · rcases (headk p).2 hpa with h1 | ⟨n₁, hn₁, hb₁, hanc₁⟩
          · exact Or.inr ⟨n₂, t₂, h1 ▸ hn₂, hb₂,
              ancIn_mono l (a :: l) p (fun q hq => List.mem_cons_of_mem _ hq) hanc₂⟩
          · rw [hb₁] at hn₂
            injection hn₂ with hn₂
            subst hn₂
            exact Or.inr ⟨n₁, t₂, hn₁, by rw [hb₂]; rfl,
              ancIn_mono l (a :: l) p (fun q hq => List.mem_cons_of_mem _ hq) hanc₂⟩

/-- Per-key effect of a transfer pass (both the file-additions loop and
the content-changes loop): abstract in the step, which must either leave
the state alone (a directory passed over) or install the source file
node (bumping only the containing directory's mtime) or restore the
path's metadata from the source entry. -/
theorem xferPass_okS (step : SState → String → Except String SState) (srcFs : Fs)
    (l : List String)
    (hstep : ∀ st q st', q ∈ l → step st q = .ok st' → st'.dirty = false →
      st.dirty = false ∧
      ((st' = st) ∨
       (∃ nS, alookup srcFs q = some nS ∧ nS.is_dir = false ∧
         alookup st'.fs q = some (fileNode nS) ∧
         (∀ r, r ≠ q → r ≠ parentKey q → alookup st'.fs r = alookup st.fs r) ∧
         (∀ r, r ≠ q → r = parentKey q →
            alookup st'.fs r = (alookup st.fs r).map (fun n => bump n st.clock)) ∧
         st'.touched = st.touched ++ [q] ∧ st'.fixups = st.fixups) ∨
       (∃ nS n₀, alookup srcFs q = some nS ∧ alookup st.fs q = some n₀ ∧
         alookup st'.fs q = some (restore n₀ nS) ∧
         (∀ r, r ≠ q → alookup st'.fs r = alookup st.fs r) ∧
         st'.touched = st.touched ++ [q] ∧ st'.fixups = st.fixups))) :
    ∀ st st', l.foldlM step st = .ok st' → st'.dirty = false →
      st.dirty = false ∧
      (∀ q ∈ st.touched, q ∈ st'.touched) ∧
      (∀ q ∈ st'.touched, q ∈ st.touched ∨ q ∈ l) ∧
      st'.fixups = st.fixups ∧
      (∀ p, alookup st'.fs p = alookup st.fs p
        ∨ (∃ n t, alookup st.fs p = some n ∧ alookup st'.fs p = some (bump n t) ∧
            ancIn l p)
        ∨ (∃ nS, alookup srcFs p = some nS ∧ nS.is_dir = false ∧
            (alookup st'.fs p = some (fileNode nS) ∨
             (∃ t, alookup st'.fs p = some (bump (fileNode nS) t) ∧ ancIn l p)))
        ∨ (∃ nS n₀, alookup srcFs p = some nS ∧ alookup st.fs p = some n₀ ∧
            (alookup st'.fs p = some (restore n₀ nS) ∨
             (∃ t, alookup st'.fs p = some (bump (restore n₀ nS) t) ∧ ancIn l p)))) := by
  induction l with
  | nil =>
    intro st st' h hd
    simp only [List.foldlM_nil, pure, Except.pure, Except.ok.injEq] at h
    subst h
    exact ⟨hd, fun q hq => hq, fun q hq => Or.inl hq, rfl, fun p => Or.inl rfl⟩
  | cons a l ih =>
    intro st st' h hd
    rw [List.foldlM_cons] at h
    obtain ⟨s₁, h₁, h₂⟩ := except_bind_ok _ _ _ h
    obtain ⟨ihd, ihtm, ihtp, ihfx, ihk⟩ :=
      ih (fun st q st' hq => hstep st q st' (List.mem_cons_of_mem _ hq)) s₁ st' h₂ hd
    obtain ⟨hd0, hc⟩ := hstep st a s₁ (List.mem_cons_self _ _) h₁ ihd
    have hsub : ∀ q ∈ l, q ∈ a :: l := fun q hq => List.mem_cons_of_mem _ hq
    have liftk : ∀ p, (alookup st'.fs p = alookup s₁.fs p
        ∨ (∃ n t, alookup s₁.fs p = some n ∧ alookup st'.fs p = some (bump n t) ∧
            ancIn (a :: l) p)
        ∨ (∃ nS, alookup srcFs p = some nS ∧ nS.is_dir = false ∧
            (alookup st'.fs p = some (fileNode nS) ∨
             (∃ t, alookup st'.fs p = some (bump (fileNode nS) t) ∧ ancIn (a :: l) p)))
        ∨ (∃ nS n₀, alookup srcFs p = some nS ∧ alookup s₁.fs p = some n₀ ∧
            (alookup st'.fs p = some (restore n₀ nS) ∨
             (∃ t, alookup st'.fs p = some (bump (restore n₀ nS) t) ∧
               ancIn (a :: l) p)))) := by
      intro p
      rcases ihk p with h2 | ⟨n, t, ha2, hb2, hc2⟩ |
        ⟨nS2, ha2, hb2, hc2 | ⟨t, hc2, hcc⟩⟩ | ⟨nS2, n₀2, ha2, hb2, hc2 | ⟨t, hc2, hcc⟩⟩
      · exact Or.inl h2
      · exact Or.inr (Or.inl ⟨n, t, ha2, hb2, ancIn_mono l _ p hsub hc2⟩)
      · exact Or.inr (Or.inr (Or.inl ⟨nS2, ha2, hb2, Or.inl hc2⟩))
      · exact Or.inr (Or.inr (Or.inl ⟨nS2, ha2, hb2,
          Or.inr ⟨t, hc2, ancIn_mono l _ p hsub hcc⟩⟩))
      · exact Or.inr (Or.inr (Or.inr ⟨nS2, n₀2, ha2, hb2, Or.inl hc2⟩))
      · exact Or.inr (Or.inr (Or.inr ⟨nS2, n₀2, ha2, hb2,
          Or.inr ⟨t, hc2, ancIn_mono l _ p hsub hcc⟩⟩))
    rcases hc with rfl | ⟨nS, hnS, hdir, hpa, hk1, hk2, htc₁, hfx₁⟩ |
      ⟨nS, n₀, hnS, hn₀, hpa, hk1, htc₁, hfx₁⟩
    · refine ⟨hd0, ihtm, fun q hq => ?_, ihfx, fun p => liftk p⟩
      rcases ihtp q hq with hq | hq
      · exact Or.inl hq
      · exact Or.inr (hsub q hq)
    · -- file install at a
      have hanc : ∀ r, r ≠ a → r = parentKey a → ancIn (a :: l) r := by
        intro r hr hpk
        rcases parentKey_anc a r hpk.symm with h | h
        · exact Or.inl h
        · exact Or.inr ⟨a, List.mem_cons_self _ _, h⟩
      refine ⟨hd0, ?_, ?_, ihfx.trans hfx₁, ?_⟩
      · intro q hq
        exact ihtm q (by rw [htc₁]; exact List.mem_append.mpr (Or.inl hq))
      · intro q hq
        rcases ihtp q hq with hq | hq
        · rw [htc₁] at hq
          rcases List.mem_append.mp hq with hq | hq
          · exact Or.inl hq
          · exact Or.inr (by rw [List.mem_singleton.mp hq]; exact List.mem_cons_self _ _)
        · exact Or.inr (hsub q hq)
      · intro p
        by_cases hpA : p = a
        · subst hpA
          rcases liftk p with h2 | ⟨n, t, ha2, hb2, hc2⟩ |
            ⟨nS2, ha2, hb2, hc2 | ⟨t, hc2, hcc⟩⟩ | ⟨nS2, n₀2, ha2, hb2, hc2 | ⟨t, hc2, hcc⟩⟩
          · exact Or.inr (Or.inr (Or.inl ⟨nS, hnS, hdir, Or.inl (h2.trans hpa)⟩))
          · rw [hpa] at ha2
            injection ha2 with ha2
            subst ha2
            exact Or.inr (Or.inr (Or.inl ⟨nS, hnS, hdir, Or.inr ⟨t, hb2, hc2⟩⟩))
          · exact Or.inr (Or.inr (Or.inl ⟨nS2, ha2, hb2, Or.inl hc2⟩))
          · exact Or.inr (Or.inr (Or.inl ⟨nS2, ha2, hb2, Or.inr ⟨t, hc2, hcc⟩⟩))
          · rw [hpa] at hb2
            injection hb2 with hb2
            subst hb2
            rw [hnS] at ha2
            injection ha2 with ha2
            subst ha2
            exact Or.inr (Or.inr (Or.inl ⟨nS, hnS, hdir, Or.inl (by rw [hc2]; rfl)⟩))
          · rw [hpa] at hb2
            injection hb2 with hb2
            subst hb2
            rw [hnS] at ha2
            injection ha2 with ha2
            subst ha2
            exact Or.inr (Or.inr (Or.inl ⟨nS, hnS, hdir, Or.inr ⟨t, by rw [hc2]; rfl, hcc⟩⟩))
        · by_cases hpk : p = parentKey a
          · have hb1 := hk2 p hpA hpk
            rcases liftk p with h2 | ⟨n, t, ha2, hb2, hc2⟩ |
              ⟨nS2, ha2, hb2, hc2 | ⟨t, hc2, hcc⟩⟩ | ⟨nS2, n₀2, ha2, hb2, hc2 | ⟨t, hc2, hcc⟩⟩
            · rw [h2, hb1]
              cases hl : alookup st.fs p with
              | none => exact Or.inl rfl
              | some n =>
                exact Or.inr (Or.inl ⟨n, st.clock, rfl, rfl, hanc p hpA hpk⟩)
            · rw [hb1] at ha2
              cases hl : alookup st.fs p with
              | none =>
                rw [hl] at ha2
                cases ha2
              | some n =>
                rw [hl] at ha2
                injection ha2 with ha2
                subst ha2
                exact Or.inr (Or.inl ⟨n, t, rfl, by rw [hb2]; rfl, hanc p hpA hpk⟩)
            · exact Or.inr (Or.inr (Or.inl ⟨nS2, ha2, hb2, Or.inl hc2⟩))
            · exact Or.inr (Or.inr (Or.inl ⟨nS2, ha2, hb2, Or.inr ⟨t, hc2, hcc⟩⟩))
            · rw [hb1] at hb2
              cases hl : alookup st.fs p with
              | none =>
                rw [hl] at hb2
                cases hb2
              | some n =>
                rw [hl] at hb2
                injection hb2 with hb2
                subst hb2
                exact Or.inr (Or.inr (Or.inr ⟨nS2, n, ha2, rfl, Or.inl (by rw [hc2]; rfl)⟩))
            · rw [hb1] at hb2
              cases hl : alookup st.fs p with
              | none =>
                rw [hl] at hb2
                cases hb2
              | some n =>
                rw [hl] at hb2
                injection hb2 with hb2
                subst hb2
                exact Or.inr (Or.inr (Or.inr ⟨nS2, n, ha2, rfl,
                  Or.inr ⟨t, by rw [hc2]; rfl, hcc⟩⟩))
          · have hb1 := hk1 p hpA hpk
            rcases liftk p with h2 | ⟨n, t, ha2, hb2, hc2⟩ |
              ⟨nS2, ha2, hb2, hc2 | ⟨t, hc2, hcc⟩⟩ | ⟨nS2, n₀2, ha2, hb2, hc2 | ⟨t, hc2, hcc⟩⟩
            · exact Or.inl (h2.trans hb1)
            · exact Or.inr (Or.inl ⟨n, t, hb1 ▸ ha2, hb2, hc2⟩)
            · exact Or.inr (Or.inr (Or.inl ⟨nS2, ha2, hb2, Or.inl hc2⟩))
            · exact Or.inr (Or.inr (Or.inl ⟨nS2, ha2, hb2, Or.inr ⟨t, hc2, hcc⟩⟩))
            · exact Or.inr (Or.inr (Or.inr ⟨nS2, n₀2, ha2, hb1 ▸ hb2, Or.inl hc2⟩))
            · exact Or.inr (Or.inr (Or.inr ⟨nS2, n₀2, ha2, hb1 ▸ hb2,
                Or.inr ⟨t, hc2, hcc⟩⟩))
    · -- metadata restore at a (directory entry in the contents loop)
      refine ⟨hd0, ?_, ?_, ihfx.trans hfx₁, ?_⟩
      · intro q hq
        exact ihtm q (by rw [htc₁]; exact List.mem_append.mpr (Or.inl hq))
      · intro q hq
        rcases ihtp q hq with hq | hq
        · rw [htc₁] at hq
          rcases List.mem_append.mp hq with hq | hq
          · exact Or.inl hq
          · exact Or.inr (by rw [List.mem_singleton.mp hq]; exact List.mem_cons_self _ _)
        · exact Or.inr (hsub q hq)
      · intro p
        by_cases hpA : p = a
        · subst hpA
          rcases liftk p with h2 | ⟨n, t, ha2, hb2, hc2⟩ |
            ⟨nS2, ha2, hb2, hc2 | ⟨t, hc2, hcc⟩⟩ | ⟨nS2, n₀2, ha2, hb2, hc2 | ⟨t, hc2, hcc⟩⟩
          · exact Or.inr (Or.inr (Or.inr ⟨nS, n₀, hnS, hn₀, Or.inl (h2.trans hpa)⟩))
          · rw [hpa] at ha2
            injection ha2 with ha2
            subst ha2
            exact Or.inr (Or.inr (Or.inr ⟨nS, n₀, hnS, hn₀, Or.inr ⟨t, hb2, hc2⟩⟩))
          · exact Or.inr (Or.inr (Or.inl ⟨nS2, ha2, hb2, Or.inl hc2⟩))
          · exact Or.inr (Or.inr (Or.inl ⟨nS2, ha2, hb2, Or.inr ⟨t, hc2, hcc⟩⟩))
          · rw [hpa] at hb2
            injection hb2 with hb2
            subst hb2
            rw [hnS] at ha2
            injection ha2 with ha2
            subst ha2
            exact Or.inr (Or.inr (Or.inr ⟨nS, n₀, hnS, hn₀, Or.inl (by rw [hc2]; rfl)⟩))
          · rw [hpa] at hb2
            injection hb2 with hb2
            subst hb2
            rw [hnS] at ha2
            injection ha2 with ha2
            subst ha2
            exact Or.inr (Or.inr (Or.inr ⟨nS, n₀, hnS, hn₀,
              Or.inr ⟨t, by rw [hc2]; rfl, hcc⟩⟩))
        · have hb1 := hk1 p hpA
          rcases liftk p with h2 | ⟨n, t, ha2, hb2, hc2⟩ |
            ⟨nS2, ha2, hb2, hc2 | ⟨t, hc2, hcc⟩⟩ | ⟨nS2, n₀2, ha2, hb2, hc2 | ⟨t, hc2, hcc⟩⟩
          · exact Or.inl (h2.trans hb1)
          · exact Or.inr (Or.inl ⟨n, t, hb1 ▸ ha2, hb2, hc2⟩)
          · exact Or.inr (Or.inr (Or.inl ⟨nS2, ha2, hb2, Or.inl hc2⟩))
          · exact Or.inr (Or.inr (Or.inl ⟨nS2, ha2, hb2, Or.inr ⟨t, hc2, hcc⟩⟩))
          · exact Or.inr (Or.inr (Or.inr ⟨nS2, n₀2, ha2, hb1 ▸ hb2, Or.inl hc2⟩))
          · exact Or.inr (Or.inr (Or.inr ⟨nS2, n₀2, ha2, hb1 ▸ hb2, Or.inr ⟨t, hc2, hcc⟩⟩))

/-- Per-key effect of the directory-creation pass: file entries are
passed over; each source directory of the list exists afterwards, is
recorded in `paths_touched` and in the fixup set; every key is
untouched, mtime-bumped (ancestors of created directories), or created
as a fresh directory at a source-directory path. -/
theorem mkdirPass_okS (cfg : SyncCfg) (rs : String) (srcFs : Fs)
    (hdry : cfg.dry_run = false) (hms : cfg.manifest_src = manifestOfFs rs srcFs)
    (hwfS : WfFs srcFs) (l : List String) :
    ∀ st st', l.foldlM (mkdirStep cfg) st = .ok st' → st'.dirty = false →
      st.dirty = false ∧
      (∀ q ∈ st.touched, q ∈ st'.touched) ∧
      (∀ q ∈ st'.touched, q ∈ st.touched ∨ q ∈ l) ∧
      (∀ x ∈ st.fixups, x ∈ st'.fixups) ∧
      (∀ q ∈ l, ∀ nS, alookup srcFs q = some nS → nS.is_dir = true →
        (-(nComps q : Int), q) ∈ st'.fixups ∧ q ∈ st'.touched ∧
        ∃ n, alookup st'.fs q = some n ∧ n.is_dir = true) ∧
      (∀ p, alookup st'.fs p = alookup st.fs p
         ∨ (∃ n t, alookup st.fs p = some n ∧ alookup st'.fs p = some (bump n t) ∧
             ancIn l p)
         ∨ (alookup st.fs p = none ∧
             (∃ nS, alookup srcFs p = some nS ∧ nS.is_dir = true) ∧
             (∃ n, alookup st'.fs p = some n ∧ n.is_dir = true ∧ n.size = 0))) := by
  induction l with
  | nil =>
    intro st st' h hd
    simp only [List.foldlM_nil, pure, Except.pure, Except.ok.injEq] at h
    subst h
    exact ⟨hd, fun q hq => hq, fun q hq => Or.inl hq, fun x hx => hx, by simp,
      fun p => Or.inl rfl⟩
  | cons a l ih =>
    intro st st' h hd
    rw [List.foldlM_cons] at h
    obtain ⟨s₁, h₁, h₂⟩ := except_bind_ok _ _ _ h
    obtain ⟨ihd, ihtm, ihtp, ihfm, ihgl, ihk⟩ := ih s₁ st' h₂ hd
    obtain ⟨hd0, hc⟩ := mkdirStep_okS cfg st a s₁ rs srcFs hdry hms h₁ ihd
    have hsub : ∀ q ∈ l, q ∈ a :: l := fun q hq => List.mem_cons_of_mem _ hq
    rcases hc with ⟨nS, hnS, hdir, rfl⟩ | ⟨nS, hnS, hdir, fs₂, c₂, hmk, hfs₁, htc₁, hfx₁⟩
    · -- file entry: no-op step
      refine ⟨hd0, ihtm, fun q hq => ?_, ihfm, ?_, fun p => ?_⟩
      · rcases ihtp q hq with hq | hq
        · exact Or.inl hq
        · exact Or.inr (hsub q hq)
      · intro q hq nS' hnS' hdir'
        rcases List.mem_cons.mp hq with hq | hq
        · subst hq
          rw [hnS] at hnS'
          injection hnS' with hnS'
          subst hnS'
          rw [hdir'] at hdir
          cases hdir
        · exact ihgl q hq nS' hnS' hdir'
      · rcases ihk p with h2 | ⟨n, t, ha2, hb2, hc2⟩ | ⟨hn2, hsrc2, hex2⟩
        · exact Or.inl h2
        · exact Or.inr (Or.inl ⟨n, t, ha2, hb2, ancIn_mono l _ p hsub hc2⟩)
        · exact Or.inr (Or.inr ⟨hn2, hsrc2, hex2⟩)
    · -- directory entry: makedirs ran
      obtain ⟨mkk, mkex⟩ := osMakedirs_perkey st.fs a st.clock fs₂ c₂ hmk
      have hchainSrc : ∀ r ∈ mkdirChain a, ∃ n', alookup srcFs r = some n' ∧
          n'.is_dir = true := by
        intro r hr
        rw [mkdirChain_eq] at hr
        rcases List.mem_append.mp hr with hr | hr
        · exact anc_keys srcFs hwfS a nS hnS r hr
        · rw [List.mem_singleton.mp hr]
          exact ⟨nS, hnS, hdir⟩
      have headk : ∀ p, alookup s₁.fs p = alookup st.fs p
          ∨ (∃ n t, alookup st.fs p = some n ∧ alookup s₁.fs p = some (bump n t) ∧
              ancIn (a :: l) p)
          ∨ (alookup st.fs p = none ∧
              (∃ nS', alookup srcFs p = some nS' ∧ nS'.is_dir = true) ∧
              (∃ n, alookup s₁.fs p = some n ∧ n.is_dir = true ∧ n.size = 0)) := by
        intro p
        rw [hfs₁]
        rcases mkk p with h1 | ⟨n, t, hn, hb, r, hr, hpk⟩ | ⟨hn, hp, hex⟩
        · exact Or.inl h1
        · refine Or.inr (Or.inl ⟨n, t, hn, hb, ?_⟩)
          rcases chain_parent_anc a r hr with h | h
          · exact Or.inl (hpk ▸ h)
          · exact Or.inr ⟨a, List.mem_cons_self _ _, hpk ▸ h⟩
        · exact Or.inr (Or.inr ⟨hn, hchainSrc p hp, hex⟩)
      refine ⟨hd0, ?_, ?_, ?_, ?_, ?_⟩
      · intro q hq
        exact ihtm q (by rw [htc₁]; exact List.mem_append.mpr (Or.inl hq))
      · intro q hq
        rcases ihtp q hq with hq | hq
        · rw [htc₁] at hq
          rcases List.mem_append.mp hq with hq | hq
          · exact Or.inl hq
          · exact Or.inr (by rw [List.mem_singleton.mp hq]; exact List.mem_cons_self _ _)
        · exact Or.inr (hsub q hq)
      · intro x hx
        exact ihfm x (by rw [hfx₁]; exact mem_fxInsert_of_mem _ _ _ hx)
      · intro q hq nS' hnS' hdir'
        rcases List.mem_cons.mp hq with hq | hq
        · subst hq
          refine ⟨ihfm _ (by rw [hfx₁]; exact mem_fxInsert_self _ _), ?_, ?_⟩
          · exact ihtm q (by rw [htc₁]; exact List.mem_append.mpr (Or.inr (by simp)))
          · have hex1 : ∃ n, alookup s₁.fs q = some n ∧ n.is_dir = true := by
              rw [hfs₁]
              exact mkex q (mem_mkdirChain_self q)
            obtain ⟨n₁, hv₁, hd₁⟩ := hex1
            rcases ihk q with h2 | ⟨n₂, t₂, hn₂, hb₂, -⟩ | ⟨hn₂, -, hex₂⟩
            · exact ⟨n₁, h2.trans hv₁, hd₁⟩
            · rw [hv₁] at hn₂
              injection hn₂ with hn₂
              subst hn₂
              exact ⟨bump n₁ t₂, hb₂, hd₁⟩
            · rw [hv₁] at hn₂
              cases hn₂
        · exact ihgl q hq nS' hnS' hdir'
      · intro p
        rcases headk p with h1 | ⟨n₁, t₁, hn₁, hb₁, hanc₁⟩ | ⟨hn₁, hsrc₁, n₁, hv₁, hd₁, hs₁⟩
        · rcases ihk p with h2 | ⟨n₂, t₂, hn₂, hb₂, hc₂⟩ | ⟨hn₂, hsrc₂, hex₂⟩
          · exact Or.inl (h2.trans h1)
          · exact Or.inr (Or.inl ⟨n₂, t₂, h1 ▸ hn₂, hb₂, ancIn_mono l _ p hsub hc₂⟩)
          · exact Or.inr (Or.inr ⟨h1 ▸ hn₂, hsrc₂, hex₂⟩)
        · rcases ihk p with h2 | ⟨n₂, t₂, hn₂, hb₂, hc₂⟩ | ⟨hn₂, hsrc₂, hex₂⟩
          · exact Or.inr (Or.inl ⟨n₁, t₁, hn₁, h2.trans hb₁, hanc₁⟩)
          · rw [hb₁] at hn₂
            injection hn₂ with hn₂
            subst hn₂
            exact Or.inr (Or.inl ⟨n₁, t₂, hn₁, by rw [hb₂]; rfl, hanc₁⟩)
          · rw [hb₁] at hn₂
            cases hn₂
        · rcases ihk p with h2 | ⟨n₂, t₂, hn₂, hb₂, hc₂⟩ | ⟨hn₂, hsrc₂, hex₂⟩
          · exact Or.inr (Or.inr ⟨hn₁, hsrc₁, n₁, h2.trans hv₁, hd₁, hs₁⟩)
          · rw [hv₁] at hn₂
            injection hn₂ with hn₂
            subst hn₂
            exact Or.inr (Or.inr ⟨hn₁, hsrc₁, bump n₁ t₂, hb₂, hd₁, hs₁⟩)
          · rw [hv₁] at hn₂
            cases hn₂

/-- Per-key effect of the metadata-changes pass: every listed path is
restored from the source entry (metadata and both timestamps); nothing
else changes. -/
theorem metaPass_okS (cfg : SyncCfg) (reg : List String) (rs : String) (srcFs : Fs)
    (hdry : cfg.dry_run = false) (hms : cfg.manifest_src = manifestOfFs rs srcFs)
    (l : List String)
    (hg : ∀ q ∈ l, ¬(q ≠ "" ∧ q ∈ reg ∧ ¬cfg.overwrite_regressed = true)) :
    ∀ st st', l.foldlM (metaStep cfg reg) st = .ok st' → st'.dirty = false →
      st.dirty = false ∧
      (∀ q ∈ st.touched, q ∈ st'.touched) ∧
      (∀ q ∈ st'.touched, q ∈ st.touched ∨ q ∈ l) ∧
      st'.fixups = st.fixups ∧
      (∀ q ∈ l, ∃ nS n₀, alookup srcFs q = some nS ∧ alookup st.fs q = some n₀ ∧
        alookup st'.fs q = some (restore n₀ nS)) ∧
      (∀ p, alookup st'.fs p = alookup st.fs p ∨
        (∃ nS n₀, alookup srcFs p = some nS ∧ alookup st.fs p = some n₀ ∧
          alookup st'.fs p = some (restore n₀ nS))) := by
  induction l with
  | nil =>
    intro st st' h hd
    simp only [List.foldlM_nil, pure, Except.pure, Except.ok.injEq] at h
    subst h
    exact ⟨hd, fun q hq => hq, fun q hq => Or.inl hq, rfl, by simp, fun p => Or.inl rfl⟩
  | cons a l ih =>
    intro st st' h hd
    rw [List.foldlM_cons] at h
    obtain ⟨s₁, h₁, h₂⟩ := except_bind_ok _ _ _ h
    obtain ⟨ihd, ihtm, ihtp, ihfx, ihgl, ihk⟩ :=
      ih (fun q hq => hg q (List.mem_cons_of_mem _ hq)) s₁ st' h₂ hd
    obtain ⟨hd0, nS, n₀, hnS, hn₀, hperk, hpv, htc₁, hfx₁⟩ :=
      metaStep_okS cfg reg st a s₁ rs srcFs hdry hms
        (hg a (List.mem_cons_self _ _)) h₁ ihd
    have hsub : ∀ q ∈ l, q ∈ a :: l := fun q hq => List.mem_cons_of_mem _ hq
    have hkey : ∀ p, alookup st'.fs p = alookup st.fs p ∨
        (∃ nS' n₀', alookup srcFs p = some nS' ∧ alookup st.fs p = some n₀' ∧
          alookup st'.fs p = some (restore n₀' nS')) := by
      intro p
      by_cases hpA : p = a
      · subst hpA
        rcases ihk p with h2 | ⟨nS₂, n₀₂, ha₂, hb₂, hc₂⟩
        · exact Or.inr ⟨nS, n₀, hnS, hn₀, h2.trans hpv⟩
        · rw [hpv] at hb₂
          injection hb₂ with hb₂
          subst hb₂
          rw [hnS] at ha₂
          injection ha₂ with ha₂
          subst ha₂
          exact Or.inr ⟨nS, n₀, hnS, hn₀, by rw [hc₂]; rfl⟩
      · have hb1 := hperk p hpA
        rcases ihk p with h2 | ⟨nS₂, n₀₂, ha₂, hb₂, hc₂⟩
        · exact Or.inl (h2.trans hb1)
        · exact Or.inr ⟨nS₂, n₀₂, ha₂, hb1 ▸ hb₂, hc₂⟩
    refine ⟨hd0, ?_, ?_, ihfx.trans hfx₁, ?_, hkey⟩
    · intro q hq
      exact ihtm q (by rw [htc₁]; exact List.mem_append.mpr (Or.inl hq))
    · intro q hq
      rcases ihtp q hq with hq | hq
      · rw [htc₁] at hq
        rcases List.mem_append.mp hq with hq | hq
        · exact Or.inl hq
        · exact Or.inr (by rw [List.mem_singleton.mp hq]; exact List.mem_cons_self _ _)
      · exact Or.inr (hsub q hq)
    · intro q hq
      rcases List.mem_cons.mp hq with hq | hq
      · subst hq
        rcases ihk q with h2 | ⟨nS₂, n₀₂, ha₂, hb₂, hc₂⟩
        · exact ⟨nS, n₀, hnS, hn₀, h2.trans hpv⟩
        · rw [hpv] at hb₂
          injection hb₂ with hb₂
          subst hb₂
          rw [hnS] at ha₂
          injection ha₂ with ha₂
          subst ha₂
          exact ⟨nS, n₀, hnS, hn₀, by rw [hc₂]; rfl⟩
      · obtain ⟨nS₂, n₀₂, ha₂, hb₂, hc₂⟩ := ihgl q hq
        by_cases hqa : q = a
        · subst hqa
          rw [hpv] at hb₂
          injection hb₂ with hb₂
          subst hb₂
          rw [hnS] at ha₂
          injection ha₂ with ha₂
          subst ha₂
          exact ⟨nS, n₀, hnS, hn₀, by rw [hc₂]; rfl⟩
        · exact ⟨nS₂, n₀₂, ha₂, by rw [← hperk q hqa]; exact hb₂, hc₂⟩

/-- Per-key effect of the directory-fixup replay pass: every non-skipped
fixup path is restored from the source entry; nothing else changes. -/
theorem replayPass_okS (cfg : SyncCfg) (del : List String) (rs : String) (srcFs : Fs)
    (hdry : cfg.dry_run = false) (hms : cfg.manifest_src = manifestOfFs rs srcFs)
    (lfx : List (Int × String)) :
    ∀ st st', lfx.foldlM (replayStep cfg del) st = .ok st' → st'.dirty = false →
      st.dirty = false ∧
      (∀ x ∈ lfx, ¬x.2 ∈ del → ∃ nS n₀, alookup srcFs x.2 = some nS ∧
        alookup st.fs x.2 = some n₀ ∧ alookup st'.fs x.2 = some (restore n₀ nS)) ∧
      (∀ p, alookup st'.fs p = alookup st.fs p ∨
        (∃ nS n₀, alookup srcFs p = some nS ∧ alookup st.fs p = some n₀ ∧
          alookup st'.fs p = some (restore n₀ nS))) := by
  induction lfx with
  | nil =>
    intro st st' h hd
    simp only [List.foldlM_nil, pure, Except.pure, Except.ok.injEq] at h
    subst h
    exact ⟨hd, by simp, fun p => Or.inl rfl⟩
  | cons x lfx ih =>
    intro st st' h hd
    rw [List.foldlM_cons] at h
    obtain ⟨s₁, h₁, h₂⟩ := except_bind_ok _ _ _ h
    obtain ⟨ihd, ihgl, ihk⟩ := ih s₁ st' h₂ hd
    obtain ⟨hd0, hc⟩ := replayStep_okS cfg del st x s₁ rs srcFs hdry hms h₁ ihd
    rcases hc with ⟨hmem, rfl⟩ | ⟨hmem, nS, n₀, hnS, hn₀, hperk, hpv, -, -⟩
    · refine ⟨hd0, ?_, ihk⟩
      intro y hy hynd
      rcases List.mem_cons.mp hy with hy | hy
      · subst hy
        exact absurd hmem hynd
      · exact ihgl y hy hynd
    · have hkey : ∀ p, alookup st'.fs p = alookup st.fs p ∨
          (∃ nS' n₀', alookup srcFs p = some nS' ∧ alookup st.fs p = some n₀' ∧
            alookup st'.fs p = some (restore n₀' nS')) := by
        intro p
        by_cases hpA : p = x.2
        · rw [hpA]
          rcases ihk x.2 with h2 | ⟨nS₂, n₀₂, ha₂, hb₂, hc₂⟩
          · exact Or.inr ⟨nS, n₀, hnS, hn₀, h2.trans hpv⟩
          · rw [hpv] at hb₂
            injection hb₂ with hb₂
            subst hb₂
            rw [hnS] at ha₂
            injection ha₂ with ha₂
            subst ha₂
            exact Or.inr ⟨nS, n₀, hnS, hn₀, by rw [hc₂]; rfl⟩
        · have hb1 := hperk p hpA
          rcases ihk p with h2 | ⟨nS₂, n₀₂, ha₂, hb₂, hc₂⟩
          · exact Or.inl (h2.trans hb1)
          · exact Or.inr ⟨nS₂, n₀₂, ha₂, hb1 ▸ hb₂, hc₂⟩
      refine ⟨hd0, ?_, hkey⟩
      intro y hy hynd
      rcases List.mem_cons.mp hy with hy | hy
      · subst hy
        rcases ihk y.2 with h2 | ⟨nS₂, n₀₂, ha₂, hb₂, hc₂⟩
        · exact ⟨nS, n₀, hnS, hn₀, h2.trans hpv⟩
        · rw [hpv] at hb₂
          injection hb₂ with hb₂
          subst hb₂
          rw [hnS] at ha₂
          injection ha₂ with ha₂
          subst ha₂
          exact ⟨nS, n₀, hnS, hn₀, by rw [hc₂]; rfl⟩
      · obtain ⟨nS₂, n₀₂, ha₂, hb₂, hc₂⟩ := ihgl y hy hynd
        by_cases hqa : y.2 = x.2
        · rw [hqa] at ha₂ hb₂ hc₂ ⊢
          rw [hpv] at hb₂
          injection hb₂ with hb₂
          subst hb₂
          rw [hnS] at ha₂
          injection ha₂ with ha₂
          subst ha₂
          exact ⟨nS, n₀, hnS, hn₀, by rw [hc₂]; rfl⟩
        · exact ⟨nS₂, n₀₂, ha₂, by rw [← hperk y.2 hqa]; exact hb₂, hc₂⟩

/-- In every delta `Entry.delta` actually returns, the `_dirty` aggregate
is exactly the disjunction of the size/mtime/cksum set and the
uid/gid/mode flags (the atime flag is always false). -/
theorem delta_dirty_flags (self old : Entry) (cc : Bool) (fd : EntryDelta)
    (h : Entry.delta self old cc = .ok fd) :
    fd.dirty = (changedSetFlag fd || fd.uid || fd.gid || fd.mode) := by
  unfold Entry.delta at h
  split at h
  · cases h
  · split at h
    · cases h
    · split at h
      · cases h
      · injection h with h
        subst h
        simp [changedSetFlag]

/-- Guarantee clause of a transfer pass: every listed path is either a
source directory (passed over by the additions loop, metadata-restored by
the contents loop) or ends the pass carrying the source file node,
possibly with a later mtime bump from a sibling transfer into it. -/
theorem xferPass_guar (step : SState → String → Except String SState) (srcFs : Fs)
    (l : List String)
    (hstep : ∀ st q st', q ∈ l → step st q = .ok st' → st'.dirty = false →
      st.dirty = false ∧
      ((st' = st ∧ ∃ nS, alookup srcFs q = some nS ∧ nS.is_dir = true) ∨
       (∃ nS, alookup srcFs q = some nS ∧ nS.is_dir = false ∧
         alookup st'.fs q = some (fileNode nS) ∧
         (∀ r, r ≠ q → r ≠ parentKey q → alookup st'.fs r = alookup st.fs r) ∧
         (∀ r, r ≠ q → r = parentKey q →
            alookup st'.fs r = (alookup st.fs r).map (fun n => bump n st.clock)) ∧
         st'.touched = st.touched ++ [q] ∧ st'.fixups = st.fixups) ∨
       (∃ nS n₀, alookup srcFs q = some nS ∧ nS.is_dir = true ∧
         alookup st.fs q = some n₀ ∧
         alookup st'.fs q = some (restore n₀ nS) ∧
         (∀ r, r ≠ q → alookup st'.fs r = alookup st.fs r) ∧
         st'.touched = st.touched ++ [q] ∧ st'.fixups = st.fixups))) :
    ∀ st st', l.foldlM step st = .ok st' → st'.dirty = false →
      ∀ q ∈ l, (∃ nS, alookup srcFs q = some nS ∧ nS.is_dir = true) ∨
        (∃ nS, alookup srcFs q = some nS ∧ nS.is_dir = false ∧ q ∈ st'.touched ∧
          (alookup st'.fs q = some (fileNode nS) ∨
           ∃ t, alookup st'.fs q = some (bump (fileNode nS) t) ∧ ancIn l q)) := by
  induction l with
  | nil =>
    intro st st' h hd q hq
    cases hq
  | cons a l ih =>
    intro st st' h hd q hq
    rw [List.foldlM_cons] at h
    obtain ⟨s₁, h₁, h₂⟩ := except_bind_ok _ _ _ h
    have hstepT : ∀ st q st', q ∈ l → step st q = .ok st' → st'.dirty = false →
        st.dirty = false ∧
        ((st' = st ∧ ∃ nS, alookup srcFs q = some nS ∧ nS.is_dir = true) ∨
         (∃ nS, alookup srcFs q = some nS ∧ nS.is_dir = false ∧
           alookup st'.fs q = some (fileNode nS) ∧
           (∀ r, r ≠ q → r ≠ parentKey q → alookup st'.fs r = alookup st.fs r) ∧
           (∀ r, r ≠ q → r = parentKey q →
              alookup st'.fs r = (alookup st.fs r).map (fun n => bump n st.clock)) ∧
           st'.touched = st.touched ++ [q] ∧ st'.fixups = st.fixups) ∨
         (∃ nS n₀, alookup srcFs q = some nS ∧ nS.is_dir = true ∧
           alookup st.fs q = some n₀ ∧
           alookup st'.fs q = some (restore n₀ nS) ∧
           (∀ r, r ≠ q → alookup st'.fs r = alookup st.fs r) ∧
           st'.touched = st.touched ++ [q] ∧ st'.fixups = st.fixups)) :=
      fun st q st' hq => hstep st q st' (List.mem_cons_of_mem _ hq)
    have hweakT : ∀ st q st', q ∈ l → step st q = .ok st' → st'.dirty = false →
        st.dirty = false ∧
        ((st' = st) ∨
         (∃ nS, alookup srcFs q = some nS ∧ nS.is_dir = false ∧
           alookup st'.fs q = some (fileNode nS) ∧
           (∀ r, r ≠ q → r ≠ parentKey q → alookup st'.fs r = alookup st.fs r) ∧
           (∀ r, r ≠ q → r = parentKey q →
              alookup st'.fs r = (alookup st.fs r).map (fun n => bump n st.clock)) ∧
           st'.touched = st.touched ++ [q] ∧ st'.fixups = st.fixups) ∨
         (∃ nS n₀, alookup srcFs q = some nS ∧ alookup st.fs q = some n₀ ∧
           alookup st'.fs q = some (restore n₀ nS) ∧
           (∀ r, r ≠ q → alookup st'.fs r = alookup st.fs r) ∧
           st'.touched = st.touched ++ [q] ∧ st'.fixups = st.fixups)) := by
      intro st q st' hq hs hdd
      obtain ⟨h0, hc⟩ := hstepT st q st' hq hs hdd
      refine ⟨h0, ?_⟩
      rcases hc with ⟨he, -⟩ | h2 | ⟨nS, n₀, ha, -, hb, hc2, hd2, he2, hf2⟩
      · exact Or.inl he
      · exact Or.inr (Or.inl h2)
      · exact Or.inr (Or.inr ⟨nS, n₀, ha, hb, hc2, hd2, he2, hf2⟩)
    obtain ⟨hd₁, hTm, -, -, hK⟩ := xferPass_okS step srcFs l hweakT s₁ st' h₂ hd
    have hsub : ∀ r ∈ l, r ∈ a :: l := fun r hr => List.mem_cons_of_mem _ hr
    rcases List.mem_cons.mp hq with hqa | hql
    · subst hqa
      obtain ⟨-, hc⟩ := hstep st q s₁ (List.mem_cons_self _ _) h₁ hd₁
      rcases hc with ⟨-, nS, hnS, hdir⟩ | ⟨nS, hnS, hdir, hval, -, -, htc, -⟩ |
        ⟨nS, n₀, hnS, hdir, -, -, -, -, -⟩
      · exact Or.inl ⟨nS, hnS, hdir⟩
      · have hqt : q ∈ st'.touched :=
          hTm q (by rw [htc]; exact List.mem_append.mpr (Or.inr (List.mem_singleton.mpr rfl)))
        refine Or.inr ⟨nS, hnS, hdir, hqt, ?_⟩
        rcases hK q with h2 | ⟨n, t, hn, hb, hanc⟩ |
          ⟨nS2, hnS2, -, hval2⟩ | ⟨nS2, n₀2, hnS2, hn₀2, hval2⟩
        · exact Or.inl (h2.trans hval)
        · rw [hval] at hn
          injection hn with hn
          subst hn
          exact Or.inr ⟨t, hb, ancIn_mono l _ q hsub hanc⟩
        · rw [hnS] at hnS2
          injection hnS2 with hnS2
          subst hnS2
          rcases hval2 with hval2 | ⟨t, hb, hanc⟩
          · exact Or.inl hval2
          · exact Or.inr ⟨t, hb, ancIn_mono l _ q hsub hanc⟩
        · rw [hnS] at hnS2
          injection hnS2 with hnS2
          subst hnS2
          rw [hval] at hn₀2
          injection hn₀2 with hn₀2
          subst hn₀2
          rw [restore_fileNode] at hval2
          rcases hval2 with hval2 | ⟨t, hb, hanc⟩
          · exact Or.inl hval2
          · exact Or.inr ⟨t, hb, ancIn_mono l _ q hsub hanc⟩
      · exact Or.inl ⟨nS, hnS, hdir⟩
    · rcases ih hstepT s₁ st' h₂ hd q hql with h2 | ⟨nS, hnS, hdir, hqt, hval⟩
      · exact Or.inl h2
      · refine Or.inr ⟨nS, hnS, hdir, hqt, ?_⟩
        rcases hval with h2 | ⟨t, hb, hanc⟩
        · exact Or.inl h2
        · exact Or.inr ⟨t, hb, ancIn_mono l _ q hsub hanc⟩

/-- What the plan computed between two scanned trees says about the trees:
`added`/`deleted` are exactly the one-sided keys; a common path is in
`contents` only for source files; every common path is planned as a
content change, a metadata change, or already matches; a common path kept
out of `contents` has equal sizes when the source node is a file; a common
path out of both lists already matches. -/
theorem scanned_diff_facts (rs rd : String) (srcFs dstFs : Fs) (d : Diff)
    (hdf : (manifestOfFs rs srcFs).diff_from (manifestOfFs rd dstFs) = .ok d) :
    (∀ p, p ∈ d.added ↔ (alookup srcFs p).isSome = true ∧ alookup dstFs p = none) ∧
    (∀ p, p ∈ d.deleted ↔ (alookup dstFs p).isSome = true ∧ alookup srcFs p = none) ∧
    (∀ p, p ∈ d.contents ∨ p ∈ d.metadata →
      (alookup srcFs p).isSome = true ∧ (alookup dstFs p).isSome = true) ∧
    (∀ p nS nD, alookup srcFs p = some nS → alookup dstFs p = some nD →
      (p ∈ d.contents → nS.is_dir = false) ∧
      (p ∈ d.contents ∨ p ∈ d.metadata ∨ matchNode nS nD) ∧
      (p ∉ d.contents → nS.is_dir = false → nS.size = nD.size) ∧
      (p ∉ d.contents → p ∉ d.metadata → matchNode nS nD)) := by
  obtain ⟨hA, hD, -, hC, hM, -, -, -, -⟩ := diff_from_lists _ _ d hdf
  have hkeysS := akeys_manifestOfFs rs srcFs
  have hkeysD := akeys_manifestOfFs rd dstFs
  have hcomm : ∀ p, p ∈ commonKeys (manifestOfFs rs srcFs) (manifestOfFs rd dstFs) ↔
      (alookup srcFs p).isSome = true ∧ (alookup dstFs p).isSome = true := by
    intro p
    unfold commonKeys
    rw [List.mem_filter, hkeysS, hkeysD]
    simp [alookup_isSome_iff_mem_akeys]
  refine ⟨?_, ?_, ?_, ?_⟩
  · intro p
    rw [hA, List.mem_filter, hkeysS, hkeysD]
    simp only [decide_eq_true_eq]
    rw [← alookup_isSome_iff_mem_akeys]
    constructor
    · rintro ⟨h1, h2⟩
      exact ⟨h1, (alookup_eq_none_iff_not_mem_akeys _ _).mpr h2⟩
    · rintro ⟨h1, h2⟩
      exact ⟨h1, (alookup_eq_none_iff_not_mem_akeys _ _).mp h2⟩
  · intro p
    rw [hD, List.mem_filter, hkeysS, hkeysD]
    simp only [decide_eq_true_eq]
    rw [← alookup_isSome_iff_mem_akeys]
    constructor
    · rintro ⟨h1, h2⟩
      exact ⟨h1, (alookup_eq_none_iff_not_mem_akeys _ _).mpr h2⟩
    · rintro ⟨h1, h2⟩
      exact ⟨h1, (alookup_eq_none_iff_not_mem_akeys _ _).mp h2⟩
  · intro p hp
    rcases hp with hp | hp
    · exact (hcomm p).mp ((hC p).mp hp).1
    · exact (hcomm p).mp ((hM p).mp hp).1
  · intro p nS nD hpS hpD
    obtain ⟨fd, hfd, hiff, hsz⟩ := delta_entryOfNode rs rd p nS nD
    have hsi : stepInfo (manifestOfFs rs srcFs) (manifestOfFs rd dstFs) p =
        some (entryOfNode rs p nS, entryOfNode rd p nD, fd) := by
      unfold stepInfo
      rw [alookup_manifestOfFs, alookup_manifestOfFs, hpS, hpD]
      dsimp only [Option.map_some']
      rw [hfd]
    have hcm : p ∈ commonKeys (manifestOfFs rs srcFs) (manifestOfFs rd dstFs) :=
      (hcomm p).mpr ⟨by simp [hpS], by simp [hpD]⟩
    have hdisp : fd.dirty = (changedSetFlag fd || fd.uid || fd.gid || fd.mode) :=
      delta_dirty_flags _ _ _ fd hfd
    have hCiff : p ∈ d.contents ↔
        (fd.dirty && (!nS.is_dir && changedSetFlag fd)) = true := by
      rw [hC p]
      simp [hcm, classC, hsi, entryOfNode]
    have hMiff : p ∈ d.metadata ↔
        (fd.dirty && ((nS.is_dir && changedSetFlag fd) || fd.uid || fd.gid || fd.mode))
          = true := by
      rw [hM p]
      simp [hcm, classM, hsi, entryOfNode]
    have hsplit : fd.dirty = true → p ∈ d.contents ∨ p ∈ d.metadata := by
      intro hdirty
      by_cases hcs : changedSetFlag fd = true
      · by_cases hdir : nS.is_dir = true
        · exact Or.inr (hMiff.mpr (by simp [hdirty, hcs, hdir]))
        · have hdir2 : nS.is_dir = false := by
            revert hdir
            cases nS.is_dir <;> simp
          exact Or.inl (hCiff.mpr (by simp [hdirty, hcs, hdir2]))
      · have hcs2 : changedSetFlag fd = false := by
          revert hcs
          cases changedSetFlag fd <;> simp
        have hflags : (fd.uid || fd.gid || fd.mode) = true := by
          have h2 := hdisp
          rw [hdirty, hcs2] at h2
          simpa using h2.symm
        refine Or.inr (hMiff.mpr ?_)
        simp only [Bool.or_eq_true, Bool.and_eq_true] at hflags ⊢
        tauto
    refine ⟨?_, ?_, ?_, ?_⟩
    · intro hp
      have h2 := hCiff.mp hp
      simp only [Bool.and_eq_true, Bool.not_eq_true'] at h2
      exact h2.2.1
    · by_cases hdirty : fd.dirty = true
      · rcases hsplit hdirty with h2 | h2
        · exact Or.inl h2
        · exact Or.inr (Or.inl h2)
      · have hfd0 : fd.dirty = false := by
          revert hdirty
          cases fd.dirty <;> simp
        exact Or.inr (Or.inr (hiff.mp hfd0))
    · intro hnc hdirF
      by_cases hdirty : fd.dirty = true
      · have hcs : changedSetFlag fd = false := by
          by_contra hcs
          have hcs2 : changedSetFlag fd = true := by
            revert hcs
            cases changedSetFlag fd <;> simp
          exact hnc (hCiff.mpr (by simp [hdirty, hcs2, hdirF]))
        have hszf : fd.size = false := by
          revert hcs
          unfold changedSetFlag
          cases hfs : fd.size <;> simp
        rw [hsz] at hszf
        simpa using hszf
      · have hfd0 : fd.dirty = false := by
          revert hdirty
          cases fd.dirty <;> simp
        exact (hiff.mp hfd0).1.symm
    · intro hnc hnm
      by_cases hdirty : fd.dirty = true
      · rcases hsplit hdirty with h2 | h2
        · exact absurd h2 hnc
        · exact absurd h2 hnm
      · have hfd0 : fd.dirty = false := by
          revert hdirty
          cases fd.dirty <;> simp
        exact hiff.mp hfd0

/-- Final-tree characterization of a successful, clean, delete-enabled
run between well-formed, type-compatible trees: every source-absent path
is gone from the destination, and every source path is present with a
node matching the source node in every compared attribute (the root
directory excepted, whose mtime the engine never restores). -/
theorem sync_final_fs (rs rd : String) (srcFs dstFs : Fs) (ow : Bool)
    (cfg : SyncCfg) (c0 : Int) (d : Diff) (st' : SState)
    (hsf : cfg.srcFs = srcFs)
    (hms : cfg.manifest_src = manifestOfFs rs srcFs)
    (hmd : cfg.manifest_dst = manifestOfFs rd dstFs)
    (hed : cfg.enable_delete = true)
    (hdry : cfg.dry_run = false)
    (how : cfg.overwrite_regressed = ow)
    (hwfS : WfFs srcFs) (hwfD : WfFs dstFs)
    (hcompat : ∀ x ∈ srcFs, ∀ y ∈ dstFs, x.1 = y.1 → x.2.is_dir = y.2.is_dir)
    (hrun : Sync.sync cfg (initSState cfg dstFs c0) = .ok (d, st'))
    (hclean : st'.dirty = false)
    (hreg : ow = true ∨ d.regressed = []) :
    (∀ p, alookup srcFs p = none → alookup st'.fs p = none) ∧
    (∀ p nS, alookup srcFs p = some nS →
      ∃ n, alookup st'.fs p = some n ∧ (p ≠ "." → matchNode nS n)) := by
  unfold Sync.sync at hrun
  obtain ⟨d0, hdf, hrun⟩ := except_bind_ok _ _ _ hrun
  obtain ⟨s₁, h₁, hrun⟩ := except_bind_ok _ _ _ hrun
  obtain ⟨s₂, h₂, hrun⟩ := except_bind_ok _ _ _ hrun
  obtain ⟨s₃, h₃, hrun⟩ := except_bind_ok _ _ _ hrun
  obtain ⟨s₄, h₄, hrun⟩ := except_bind_ok _ _ _ hrun
  obtain ⟨s₅, h₅, hrun⟩ := except_bind_ok _ _ _ hrun
  obtain ⟨s₆, h₆, hrun⟩ := except_bind_ok _ _ _ hrun
  simp only [Except.ok.injEq, Prod.mk.injEq] at hrun
  obtain ⟨hdd0, hstt⟩ := hrun
  subst hdd0
  subst hstt
  rw [hms, hmd] at hdf
  obtain ⟨hAdd, hDel, hCM, hCommonFacts⟩ := scanned_diff_facts rs rd srcFs dstFs d0 hdf
  obtain ⟨hd₆, Grepl, Krepl⟩ :=
    replayPass_okS cfg d0.deleted rs srcFs hdry hms
      (sortFixups (s₅.touched.foldl addAncestors s₅.fixups)) _ s₆ h₆ hclean
  have hd₅ : s₅.dirty = false := hd₆
  have Krepl5 : ∀ p, alookup s₆.fs p = alookup s₅.fs p ∨
      (∃ nS n₀, alookup srcFs p = some nS ∧ alookup s₅.fs p = some n₀ ∧
        alookup s₆.fs p = some (restore n₀ nS)) := Krepl
  have Grepl5 : ∀ x ∈ sortFixups (s₅.touched.foldl addAncestors s₅.fixups),
      ¬x.2 ∈ d0.deleted → ∃ nS n₀, alookup srcFs x.2 = some nS ∧
        alookup s₅.fs x.2 = some n₀ ∧ alookup s₆.fs x.2 = some (restore n₀ nS) := Grepl
  have hgM : ∀ q ∈ d0.metadata,
      ¬(q ≠ "" ∧ q ∈ d0.regressed ∧ ¬cfg.overwrite_regressed = true) := by
    rintro q hq ⟨-, hqr, hno⟩
    rcases hreg with h | h
    · exact hno (how.trans h)
    · rw [h] at hqr
      cases hqr
  obtain ⟨hd₄, TmonoM, -, FxeqM, Gmeta, Kmeta⟩ :=
    metaPass_okS cfg d0.regressed rs srcFs hdry hms d0.metadata hgM s₄ s₅ h₅ hd₅
  have hgC : ∀ q, ¬(q ∈ d0.regressed ∧ ¬cfg.overwrite_regressed = true) := by
    rintro q ⟨hqr, hno⟩
    rcases hreg with h | h
    · exact hno (how.trans h)
    · rw [h] at hqr
      cases hqr
  have hstepC : ∀ st q st2, q ∈ d0.contents →
      contentsStep cfg d0.regressed st q = .ok st2 → st2.dirty = false →
      st.dirty = false ∧
      ((st2 = st ∧ ∃ nS, alookup srcFs q = some nS ∧ nS.is_dir = true) ∨
       (∃ nS, alookup srcFs q = some nS ∧ nS.is_dir = false ∧
         alookup st2.fs q = some (fileNode nS) ∧
         (∀ r, r ≠ q → r ≠ parentKey q → alookup st2.fs r = alookup st.fs r) ∧
         (∀ r, r ≠ q → r = parentKey q →
            alookup st2.fs r = (alookup st.fs r).map (fun n => bump n st.clock)) ∧
         st2.touched = st.touched ++ [q] ∧ st2.fixups = st.fixups) ∨
       (∃ nS n₀, alookup srcFs q = some nS ∧ nS.is_dir = true ∧
         alookup st.fs q = some n₀ ∧
         alookup st2.fs q = some (restore n₀ nS) ∧
         (∀ r, r ≠ q → alookup st2.fs r = alookup st.fs r) ∧
         st2.touched = st.touched ++ [q] ∧ st2.fixups = st.fixups)) := by
    intro st q st2 hq hs hdd
    obtain ⟨hq0, hc⟩ :=
      contentsStep_okS cfg d0.regressed st q st2 rs srcFs hdry hsf hms (hgC q) hs hdd
    refine ⟨hq0, ?_⟩
    rcases hc with ⟨nS, n₀, ha, hb, hc2, hd2, he2, hf2, hg2⟩ |
      ⟨nS, ha, hb, hc2, hd2, he2, hf2, hg2⟩
    · exact Or.inr (Or.inr ⟨nS, n₀, ha, hb, hc2, hd2, he2, hf2, hg2⟩)
    · exact Or.inr (Or.inl ⟨nS, ha, hb, hc2, hd2, he2, hf2, hg2⟩)
  have hstepCw : ∀ st q st2, q ∈ d0.contents →
      contentsStep cfg d0.regressed st q = .ok st2 → st2.dirty = false →
      st.dirty = false ∧
      ((st2 = st) ∨
       (∃ nS, alookup srcFs q = some nS ∧ nS.is_dir = false ∧
         alookup st2.fs q = some (fileNode nS) ∧
         (∀ r, r ≠ q → r ≠ parentKey q → alookup st2.fs r = alookup st.fs r) ∧
         (∀ r, r ≠ q → r = parentKey q →
            alookup st2.fs r = (alookup st.fs r).map (fun n => bump n st.clock)) ∧
         st2.touched = st.touched ++ [q] ∧ st2.fixups = st.fixups) ∨
       (∃ nS n₀, alookup srcFs q = some nS ∧ alookup st.fs q = some n₀ ∧
         alookup st2.fs q = some (restore n₀ nS) ∧
         (∀ r, r ≠ q → alookup st2.fs r = alookup st.fs r) ∧
         st2.touched = st.touched ++ [q] ∧ st2.fixups = st.fixups)) := by
    intro st q st2 hq hs hdd
    obtain ⟨hq0, hc⟩ := hstepC st q st2 hq hs hdd
    refine ⟨hq0, ?_⟩
    rcases hc with ⟨he, -⟩ | h2 | ⟨nS, n₀, ha, -, hb, hc2, hd2, he2, hf2⟩
    · exact Or.inl he
    · exact Or.inr (Or.inl h2)
    · exact Or.inr (Or.inr ⟨nS, n₀, ha, hb, hc2, hd2, he2, hf2⟩)
  obtain ⟨hd₃, TmonoC, -, FxeqC, Kcont⟩ :=
    xferPass_okS (contentsStep cfg d0.regressed) srcFs d0.contents hstepCw s₃ s₄ h₄ hd₄
  have Gcont :=
    xferPass_guar (contentsStep cfg d0.regressed) srcFs d0.contents hstepC s₃ s₄ h₄ hd₄
  have hstepA : ∀ st q st2, q ∈ d0.added →
      addFileStep cfg st q = .ok st2 → st2.dirty = false →
      st.dirty = false ∧
      ((st2 = st ∧ ∃ nS, alookup srcFs q = some nS ∧ nS.is_dir = true) ∨
       (∃ nS, alookup srcFs q = some nS ∧ nS.is_dir = false ∧
         alookup st2.fs q = some (fileNode nS) ∧
         (∀ r, r ≠ q → r ≠ parentKey q → alookup st2.fs r = alookup st.fs r) ∧
         (∀ r, r ≠ q → r = parentKey q →
            alookup st2.fs r = (alookup st.fs r).map (fun n => bump n st.clock)) ∧
         st2.touched = st.touched ++ [q] ∧ st2.fixups = st.fixups) ∨
       (∃ nS n₀, alookup srcFs q = some nS ∧ nS.is_dir = true ∧
         alookup st.fs q = some n₀ ∧
         alookup st2.fs q = some (restore n₀ nS) ∧
         (∀ r, r ≠ q → alookup st2.fs r = alookup st.fs r) ∧
         st2.touched = st.touched ++ [q] ∧ st2.fixups = st.fixups)) := by
    intro st q st2 hq hs hdd
    obtain ⟨hq0, hc⟩ := addFileStep_okS cfg st q st2 rs srcFs hdry hsf hms hs hdd
    refine ⟨hq0, ?_⟩
    rcases hc with ⟨nS, ha, hb, he⟩ | ⟨nS, ha, hb, hc2, hd2, he2, hf2, hg2⟩
    · exact Or.inl ⟨he, nS, ha, hb⟩
    · exact Or.inr (Or.inl ⟨nS, ha, hb, hc2, hd2, he2, hf2, hg2⟩)
  have hstepAw : ∀ st q st2, q ∈ d0.added →
      addFileStep cfg st q = .ok st2 → st2.dirty = false →
      st.dirty = false ∧
      ((st2 = st) ∨
       (∃ nS, alookup srcFs q = some nS ∧ nS.is_dir = false ∧
         alookup st2.fs q = some (fileNode nS) ∧
         (∀ r, r ≠ q → r ≠ parentKey q → alookup st2.fs r = alookup st.fs r) ∧
         (∀ r, r ≠ q → r = parentKey q →
            alookup st2.fs r = (alookup st.fs r).map (fun n => bump n st.clock)) ∧
         st2.touched = st.touched ++ [q] ∧ st2.fixups = st.fixups) ∨
       (∃ nS n₀, alookup srcFs q = some nS ∧ alookup st.fs q = some n₀ ∧
         alookup st2.fs q = some (restore n₀ nS) ∧
         (∀ r, r ≠ q → alookup st2.fs r = alookup st.fs r) ∧
         st2.touched = st.touched ++ [q] ∧ st2.fixups = st.fixups)) := by
    intro st q st2 hq hs hdd
    obtain ⟨hq0, hc⟩ := hstepA st q st2 hq hs hdd
    refine ⟨hq0, ?_⟩
    rcases hc with ⟨he, -⟩ | h2 | ⟨nS, n₀, ha, -, hb, hc2, hd2, he2, hf2⟩
    · exact Or.inl he
    · exact Or.inr (Or.inl h2)
    · exact Or.inr (Or.inr ⟨nS, n₀, ha, hb, hc2, hd2, he2, hf2⟩)
  obtain ⟨hd₂, TmonoA, -, FxeqA, Kadd⟩ :=
    xferPass_okS (addFileStep cfg) srcFs d0.added hstepAw s₂ s₃ h₃ hd₃
  have Gadd := xferPass_guar (addFileStep cfg) srcFs d0.added hstepA s₂ s₃ h₃ hd₃
  obtain ⟨-, TmonoMk, -, -, Gmk, Kmk⟩ :=
    mkdirPass_okS cfg rs srcFs hdry hms hwfS d0.added s₁ s₂ h₂ hd₂
  obtain ⟨-, -, -, TallD, -, Kdel⟩ :=
    delPass_okS cfg hed d0.deleted (initSState cfg dstFs c0) s₁ h₁
  have Kdel0 : ∀ p, (p ∈ d0.deleted → alookup s₁.fs p = none) ∧
      (p ∉ d0.deleted → alookup s₁.fs p = alookup dstFs p ∨
        ∃ n t, alookup dstFs p = some n ∧ alookup s₁.fs p = some (bump n t) ∧
          ancIn d0.deleted p) := Kdel
  have Tmono15 : ∀ q, q ∈ s₁.touched → q ∈ s₅.touched :=
    fun q hq => TmonoM q (TmonoC q (TmonoA q (TmonoMk q hq)))
  have Tmono25 : ∀ q, q ∈ s₂.touched → q ∈ s₅.touched :=
    fun q hq => TmonoM q (TmonoC q (TmonoA q hq))
  have Tmono35 : ∀ q, q ∈ s₃.touched → q ∈ s₅.touched :=
    fun q hq => TmonoM q (TmonoC q hq)
  have Tmono45 : ∀ q, q ∈ s₄.touched → q ∈ s₅.touched := TmonoM
  have Fx25 : s₅.fixups = s₂.fixups := FxeqM.trans (FxeqC.trans FxeqA)
  have hOptNone : ∀ (o : Option Node), ¬o.isSome = true → o = none := by
    intro o h
    cases o with
    | none => rfl
    | some v => exact absurd rfl h
  have hfixmem : ∀ p q, q ∈ s₅.touched →
      (∀ fx, (-(nComps p : Int), p) ∈ addAncestors fx q) →
      (-(nComps p : Int), p) ∈
        sortFixups (s₅.touched.foldl addAncestors s₅.fixups) := by
    intro p q hqT hx
    rw [sortFixups_mem]
    exact foldl_addAncestors_cover s₅.touched _ q hqT hx s₅.fixups
  have hfixmem2 : ∀ x, x ∈ s₂.fixups →
      x ∈ sortFixups (s₅.touched.foldl addAncestors s₅.fixups) := by
    intro x hx
    rw [sortFixups_mem]
    have hx5 : x ∈ s₅.fixups := by
      rw [Fx25]
      exact hx
    exact mem_foldl_addAncestors_of_mem _ _ _ hx5
  have hTdel : ∀ q ∈ d0.deleted, q ∈ s₅.touched := fun q hq => Tmono15 q (TallD q hq)
  have hTadd : ∀ q ∈ d0.added, q ∈ s₅.touched := by
    intro q hq
    rcases Gadd q hq with ⟨nS, hnS, hdir⟩ | ⟨nS, hnS, hdir, hqt, -⟩
    · obtain ⟨-, hqt, -⟩ := Gmk q hq nS hnS hdir
      exact Tmono25 q hqt
    · exact Tmono35 q hqt
  have hTcont : ∀ q ∈ d0.contents, q ∈ s₅.touched := by
    intro q hq
    rcases Gcont q hq with ⟨nS, hnS, hdir⟩ | ⟨nS, hnS, hdir, hqt, -⟩
    · obtain ⟨hs1, hs2⟩ := hCM q (Or.inl hq)
      obtain ⟨nD, hnD⟩ := Option.isSome_iff_exists.mp hs2
      obtain ⟨h1, -, -, -⟩ := hCommonFacts q nS nD hnS hnD
      rw [h1 hq] at hdir
      cases hdir
    · exact Tmono45 q hqt
  have hancFacts : ∀ p, p ≠ "." →
      (ancIn d0.deleted p ∨ ancIn d0.added p ∨ ancIn d0.contents p) →
      ∀ nS, alookup srcFs p = some nS →
        nS.is_dir = true ∧
        (-(nComps p : Int), p) ∈
          sortFixups (s₅.touched.foldl addAncestors s₅.fixups) := by
    intro p hne hB nS hpS
    have hget : ∃ q nq fsq, (fsq = srcFs ∨ fsq = dstFs) ∧ WfFs fsq ∧
        alookup fsq q = some nq ∧ p ∈ strictAnc q ∧ q ∈ s₅.touched := by
      rcases hB with h | h | h
      · rcases h with h | ⟨q, hq, hp⟩
        · exact absurd h hne
        · obtain ⟨hs2, -⟩ := (hDel q).mp hq
          obtain ⟨nq, hnq⟩ := Option.isSome_iff_exists.mp hs2
          exact ⟨q, nq, dstFs, Or.inr rfl, hwfD, hnq, hp, hTdel q hq⟩
      · rcases h with h | ⟨q, hq, hp⟩
        · exact absurd h hne
        · obtain ⟨hs1, -⟩ := (hAdd q).mp hq
          obtain ⟨nq, hnq⟩ := Option.isSome_iff_exists.mp hs1
          exact ⟨q, nq, srcFs, Or.inl rfl, hwfS, hnq, hp, hTadd q hq⟩
      · rcases h with h | ⟨q, hq, hp⟩
        · exact absurd h hne
        · obtain ⟨hs1, -⟩ := hCM q (Or.inl hq)
          obtain ⟨nq, hnq⟩ := Option.isSome_iff_exists.mp hs1
          exact ⟨q, nq, srcFs, Or.inl rfl, hwfS, hnq, hp, hTcont q hq⟩
    obtain ⟨q, nq, fsq, hfsq, hwfq, hnq, hp, hqT⟩ := hget
    obtain ⟨np, hnp, hnpd⟩ := anc_keys fsq hwfq q nq hnq p hp
    have hdirS : nS.is_dir = true := by
      rcases hfsq with rfl | rfl
      · rw [hpS] at hnp
        injection hnp with hnp
        subst hnp
        exact hnpd
      · have h2 := hcompat (p, nS) (alookup_mem _ _ _ hpS) (p, np)
          (alookup_mem _ _ _ hnp) rfl
        rw [h2]
        exact hnpd
    refine ⟨hdirS, hfixmem p q hqT ?_⟩
    intro fx
    exact strictAnc_mem_addAncestors fsq hwfq q nq hnq p hp fx
  have hNone : ∀ p, alookup srcFs p = none → alookup s₁.fs p = none →
      alookup s₆.fs p = none := by
    intro p hpS hv1
    have hv2 : alookup s₂.fs p = none := by
      rcases Kmk p with h | ⟨n, t, hn, -, -⟩ | ⟨-, ⟨nSx, hnSx, -⟩, -⟩
      · rw [h]
        exact hv1
      · rw [hv1] at hn
        cases hn
      · rw [hpS] at hnSx
        cases hnSx
    have hv3 : alookup s₃.fs p = none := by
      rcases Kadd p with h | ⟨n, t, hn, -, -⟩ | ⟨nSx, hnSx, -, -⟩ | ⟨nSx, n₀x, hnSx, -, -⟩
      · rw [h]
        exact hv2
      · rw [hv2] at hn
        cases hn
      · rw [hpS] at hnSx
        cases hnSx
      · rw [hpS] at hnSx
        cases hnSx
    have hv4 : alookup s₄.fs p = none := by
      rcases Kcont p with h | ⟨n, t, hn, -, -⟩ | ⟨nSx, hnSx, -, -⟩ | ⟨nSx, n₀x, hnSx, -, -⟩
      · rw [h]
        exact hv3
      · rw [hv3] at hn
        cases hn
      · rw [hpS] at hnSx
        cases hnSx
      · rw [hpS] at hnSx
        cases hnSx
    have hv5 : alookup s₅.fs p = none := by
      rcases Kmeta p with h | ⟨nSx, n₀x, hnSx, -, -⟩
      · rw [h]
        exact hv4
      · rw [hpS] at hnSx
        cases hnSx
    rcases Krepl5 p with h | ⟨nSx, n₀x, hnSx, -, -⟩
    · rw [h]
      exact hv5
    · rw [hpS] at hnSx
      cases hnSx
  refine ⟨?_, ?_⟩
  · intro p hpS
    by_cases hdst : (alookup dstFs p).isSome = true
    · exact hNone p hpS ((Kdel0 p).1 ((hDel p).mpr ⟨hdst, hpS⟩))
    · have hdn : alookup dstFs p = none := hOptNone _ hdst
      have hpdel : p ∉ d0.deleted := by
        intro hm
        obtain ⟨h1, -⟩ := (hDel p).mp hm
        rw [hdn] at h1
        cases h1
      have hv1 : alookup s₁.fs p = none := by
        rcases (Kdel0 p).2 hpdel with h | ⟨n, t, hn, -, -⟩
        · rw [h]
          exact hdn
        · rw [hdn] at hn
          cases hn
      exact hNone p hpS hv1
  · intro p nS hpS
    by_cases hroot : p = "."
    · subst hroot
      have hpdel : "." ∉ d0.deleted := by
        intro hm
        obtain ⟨-, h2⟩ := (hDel ".").mp hm
        rw [hpS] at h2
        cases h2
      obtain ⟨nD, hnD, -⟩ := wf_root dstFs hwfD
      have h1e : ∃ n, alookup s₁.fs "." = some n := by
        rcases (Kdel0 ".").2 hpdel with h | ⟨n, t, -, hb, -⟩
        · exact ⟨nD, by rw [h]; exact hnD⟩
        · exact ⟨bump n t, hb⟩
      obtain ⟨n1, hn1⟩ := h1e
      have h2e : ∃ n, alookup s₂.fs "." = some n := by
        rcases Kmk "." with h | ⟨n, t, -, hb, -⟩ | ⟨-, -, n, hb, -, -⟩
        · exact ⟨n1, by rw [h]; exact hn1⟩
        · exact ⟨bump n t, hb⟩
        · exact ⟨n, hb⟩
      obtain ⟨n2, hn2⟩ := h2e
      have h3e : ∃ n, alookup s₃.fs "." = some n := by
        rcases Kadd "." with h | ⟨n, t, -, hb, -⟩ | ⟨nSx, -, -, hval⟩ |
          ⟨nSx, n₀x, -, -, hval⟩
        · exact ⟨n2, by rw [h]; exact hn2⟩
        · exact ⟨bump n t, hb⟩
        · rcases hval with hv | ⟨t, hv, -⟩
          · exact ⟨fileNode nSx, hv⟩
          · exact ⟨bump (fileNode nSx) t, hv⟩
        · rcases hval with hv | ⟨t, hv, -⟩
          · exact ⟨restore n₀x nSx, hv⟩
          · exact ⟨bump (restore n₀x nSx) t, hv⟩
      obtain ⟨n3, hn3⟩ := h3e
      have h4e : ∃ n, alookup s₄.fs "." = some n := by
        rcases Kcont "." with h | ⟨n, t, -, hb, -⟩ | ⟨nSx, -, -, hval⟩ |
          ⟨nSx, n₀x, -, -, hval⟩
        · exact ⟨n3, by rw [h]; exact hn3⟩
        · exact ⟨bump n t, hb⟩
        · rcases hval with hv | ⟨t, hv, -⟩
          · exact ⟨fileNode nSx, hv⟩
          · exact ⟨bump (fileNode nSx) t, hv⟩
        · rcases hval with hv | ⟨t, hv, -⟩
          · exact ⟨restore n₀x nSx, hv⟩
          · exact ⟨bump (restore n₀x nSx) t, hv⟩
      obtain ⟨n4, hn4⟩ := h4e
      have h5e : ∃ n, alookup s₅.fs "." = some n := by
        rcases Kmeta "." with h | ⟨nSx, n₀x, -, -, hv⟩
        · exact ⟨n4, by rw [h]; exact hn4⟩
        · exact ⟨restore n₀x nSx, hv⟩
      obtain ⟨n5, hn5⟩ := h5e
      have h6e : ∃ n, alookup s₆.fs "." = some n := by
        rcases Krepl5 "." with h | ⟨nSx, n₀x, -, -, hv⟩
        · exact ⟨n5, by rw [h]; exact hn5⟩
        · exact ⟨restore n₀x nSx, hv⟩
      obtain ⟨n6, hn6⟩ := h6e
      exact ⟨n6, hn6, fun hne => absurd rfl hne⟩
    · have hpdel : p ∉ d0.deleted := by
        intro hm
        obtain ⟨-, h2⟩ := (hDel p).mp hm
        rw [hpS] at h2
        cases h2
      by_cases hdir : nS.is_dir = true
      · -- source directory
        have hszS : nS.size = 0 := wf_dir_size srcFs hwfS p nS hpS hdir
        have hchain2 : ∃ n, alookup s₂.fs p = some n ∧ n.size = 0 := by
          by_cases hdst : (alookup dstFs p).isSome = true
          · obtain ⟨nD, hnD⟩ := Option.isSome_iff_exists.mp hdst
            have hdD : nD.is_dir = true := by
              have h2 := hcompat (p, nS) (alookup_mem _ _ _ hpS) (p, nD)
                (alookup_mem _ _ _ hnD) rfl
              rw [← h2]
              exact hdir
            have hszD : nD.size = 0 := wf_dir_size dstFs hwfD p nD hnD hdD
            have h1e : ∃ n, alookup s₁.fs p = some n ∧ n.size = 0 := by
              rcases (Kdel0 p).2 hpdel with h | ⟨n, t, hn, hb, -⟩
              · exact ⟨nD, by rw [h]; exact hnD, hszD⟩
              · rw [hnD] at hn
                injection hn with hn
                subst hn
                exact ⟨bump nD t, hb, hszD⟩
            obtain ⟨n1, hn1, hs1⟩ := h1e
            rcases Kmk p with h | ⟨n, t, hn, hb, -⟩ | ⟨hnone, -, -⟩
            · exact ⟨n1, by rw [h]; exact hn1, hs1⟩
            · rw [hn1] at hn
              injection hn with hn
              subst hn
              exact ⟨bump n1 t, hb, hs1⟩
            · rw [hn1] at hnone
              cases hnone
          · have hdn : alookup dstFs p = none := hOptNone _ hdst
            have hpadd : p ∈ d0.added := (hAdd p).mpr ⟨by rw [hpS]; rfl, hdn⟩
            have hv1 : alookup s₁.fs p = none := by
              rcases (Kdel0 p).2 hpdel with h | ⟨n, t, hn, -, -⟩
              · rw [h]
                exact hdn
              · rw [hdn] at hn
                cases hn
            rcases Kmk p with h | ⟨n, t, hn, -, -⟩ | ⟨-, -, n, hb, -, hsz0⟩
            · obtain ⟨-, -, n2, hv2, -⟩ := Gmk p hpadd nS hpS hdir
              rw [h, hv1] at hv2
              cases hv2
            · rw [hv1] at hn
              cases hn
            · exact ⟨n, hb, hsz0⟩
        obtain ⟨n2, hn2, hsz2⟩ := hchain2
        have hchain3 : ∃ n, alookup s₃.fs p = some n ∧ n.size = 0 := by
          rcases Kadd p with h | ⟨n, t, hn, hb, -⟩ | ⟨nSx, hnSx, hdx, -⟩ |
            ⟨nSx, n₀x, hnSx, hn₀x, hval⟩
          · exact ⟨n2, by rw [h]; exact hn2, hsz2⟩
          · rw [hn2] at hn
            injection hn with hn
            subst hn
            exact ⟨bump n2 t, hb, hsz2⟩
          · rw [hpS] at hnSx
            injection hnSx with hnSx
            subst hnSx
            rw [hdir] at hdx
            cases hdx
          · rw [hpS] at hnSx
            injection hnSx with hnSx
            subst hnSx
            rw [hn2] at hn₀x
            injection hn₀x with hn₀x
            subst hn₀x
            rcases hval with hv | ⟨t, hv, -⟩
            · exact ⟨restore n2 nS, hv, hsz2⟩
            · exact ⟨bump (restore n2 nS) t, hv, hsz2⟩
        obtain ⟨n3, hn3, hsz3⟩ := hchain3
        have hchain4 : ∃ n, alookup s₄.fs p = some n ∧ n.size = 0 := by
          rcases Kcont p with h | ⟨n, t, hn, hb, -⟩ | ⟨nSx, hnSx, hdx, -⟩ |
            ⟨nSx, n₀x, hnSx, hn₀x, hval⟩
          · exact ⟨n3, by rw [h]; exact hn3, hsz3⟩
          · rw [hn3] at hn
            injection hn with hn
            subst hn
            exact ⟨bump n3 t, hb, hsz3⟩
          · rw [hpS] at hnSx
            injection hnSx with hnSx
            subst hnSx
            rw [hdir] at hdx
            cases hdx
          · rw [hpS] at hnSx
            injection hnSx with hnSx
            subst hnSx
            rw [hn3] at hn₀x
            injection hn₀x with hn₀x
            subst hn₀x
            rcases hval with hv | ⟨t, hv, -⟩
            · exact ⟨restore n3 nS, hv, hsz3⟩
            · exact ⟨bump (restore n3 nS) t, hv, hsz3⟩
        obtain ⟨n4, hn4, hsz4⟩ := hchain4
        have hchain5 : ∃ n, alookup s₅.fs p = some n ∧ n.size = 0 := by
          rcases Kmeta p with h | ⟨nSx, n₀x, hnSx, hn₀x, hv⟩
          · exact ⟨n4, by rw [h]; exact hn4, hsz4⟩
          · rw [hpS] at hnSx
            injection hnSx with hnSx
            subst hnSx
            rw [hn4] at hn₀x
            injection hn₀x with hn₀x
            subst hn₀x
            exact ⟨restore n4 nS, hv, hsz4⟩
        obtain ⟨n5, hn5, hsz5⟩ := hchain5
        have hendR : (-(nComps p : Int), p) ∈
            sortFixups (s₅.touched.foldl addAncestors s₅.fixups) →
            ∃ n, alookup s₆.fs p = some n ∧ (p ≠ "." → matchNode nS n) := by
          intro hfix
          obtain ⟨nSx, n₀x, hnSx, hn₀x, hv⟩ := Grepl5 (-(nComps p : Int), p) hfix hpdel
          rw [hpS] at hnSx
          injection hnSx with hnSx
          subst hnSx
          rw [hn5] at hn₀x
          injection hn₀x with hn₀x
          subst hn₀x
          exact ⟨restore n5 nS, hv, fun h2 => matchNode_restore n5 nS (hsz5.trans hszS.symm)⟩
        by_cases hpadd : p ∈ d0.added
        · obtain ⟨hfx2, -, -⟩ := Gmk p hpadd nS hpS hdir
          exact hendR (hfixmem2 _ hfx2)
        by_cases hBp : ancIn d0.deleted p ∨ ancIn d0.added p ∨ ancIn d0.contents p
        · exact hendR (hancFacts p hroot hBp nS hpS).2
        · have hnb1 : ¬ancIn d0.deleted p := fun h2 => hBp (Or.inl h2)
          have hnb2 : ¬ancIn d0.added p := fun h2 => hBp (Or.inr (Or.inl h2))
          have hnb3 : ¬ancIn d0.contents p := fun h2 => hBp (Or.inr (Or.inr h2))
          have hdste : ∃ nD, alookup dstFs p = some nD := by
            cases hl : alookup dstFs p with
            | some nD => exact ⟨nD, rfl⟩
            | none => exact absurd ((hAdd p).mpr ⟨by rw [hpS]; rfl, hl⟩) hpadd
          obtain ⟨nD, hnD⟩ := hdste
          have hdD : nD.is_dir = true := by
            have h2 := hcompat (p, nS) (alookup_mem _ _ _ hpS) (p, nD)
              (alookup_mem _ _ _ hnD) rfl
            rw [← h2]
            exact hdir
          have hszD : nD.size = 0 := wf_dir_size dstFs hwfD p nD hnD hdD
          have hmR : matchNode nS (restore nD nS) :=
            matchNode_restore nD nS (hszD.trans hszS.symm)
          have hv1 : alookup s₁.fs p = some nD := by
            rcases (Kdel0 p).2 hpdel with h | ⟨n, t, -, -, hanc⟩
            · rw [h]
              exact hnD
            · exact absurd hanc hnb1
          have hv2 : alookup s₂.fs p = some nD := by
            rcases Kmk p with h | ⟨n, t, -, -, hanc⟩ | ⟨hnone, -, -⟩
            · rw [h]
              exact hv1
            · exact absurd hanc hnb2
            · rw [hv1] at hnone
              cases hnone
          have hv3 : alookup s₃.fs p = some nD ∨ alookup s₃.fs p = some (restore nD nS) := by
            rcases Kadd p with h | ⟨n, t, -, -, hanc⟩ | ⟨nSx, hnSx, hdx, -⟩ |
              ⟨nSx, n₀x, hnSx, hn₀x, hval⟩
            · exact Or.inl (by rw [h]; exact hv2)
            · exact absurd hanc hnb2
            · rw [hpS] at hnSx
              injection hnSx with hnSx
              subst hnSx
              rw [hdir] at hdx
              cases hdx
            · rw [hpS] at hnSx
              injection hnSx with hnSx
              subst hnSx
              rw [hv2] at hn₀x
              injection hn₀x with hn₀x
              subst hn₀x
              rcases hval with hv | ⟨t, -, hanc⟩
              · exact Or.inr hv
              · exact absurd hanc hnb2
          have hv4 : alookup s₄.fs p = some nD ∨ alookup s₄.fs p = some (restore nD nS) := by
            rcases Kcont p with h | ⟨n, t, -, -, hanc⟩ | ⟨nSx, hnSx, hdx, -⟩ |
              ⟨nSx, n₀x, hnSx, hn₀x, hval⟩
            · rcases hv3 with hv | hv
              · exact Or.inl (by rw [h]; exact hv)
              · exact Or.inr (by rw [h]; exact hv)
            · exact absurd hanc hnb3
            · rw [hpS] at hnSx
              injection hnSx with hnSx
              subst hnSx
              rw [hdir] at hdx
              cases hdx
            · rw [hpS] at hnSx
              injection hnSx with hnSx
              subst hnSx
              rcases hval with hv | ⟨t, -, hanc⟩
              · rcases hv3 with h3 | h3
                · rw [h3] at hn₀x
                  injection hn₀x with hn₀x
                  subst hn₀x
                  exact Or.inr hv
                · rw [h3] at hn₀x
                  injection hn₀x with hn₀x
                  subst hn₀x
                  rw [restore_restore] at hv
                  exact Or.inr hv
              · exact absurd hanc hnb3
          by_cases hpm : p ∈ d0.metadata
          · obtain ⟨nSx, n₀x, hnSx, hn₀x, hv5⟩ := Gmeta p hpm
            rw [hpS] at hnSx
            injection hnSx with hnSx
            subst hnSx
            have hv5e : alookup s₅.fs p = some (restore nD nS) := by
              rcases hv4 with h4 | h4
              · rw [h4] at hn₀x
                injection hn₀x with hn₀x
                subst hn₀x
                exact hv5
              · rw [h4] at hn₀x
                injection hn₀x with hn₀x
                subst hn₀x
                rw [restore_restore] at hv5
                exact hv5
            rcases Krepl5 p with h | ⟨nSy, n₀y, hnSy, hn₀y, hv6⟩
            · exact ⟨restore nD nS, by rw [h]; exact hv5e, fun h2 => hmR⟩
            · rw [hpS] at hnSy
              injection hnSy with hnSy
              subst hnSy
              rw [hv5e] at hn₀y
              injection hn₀y with hn₀y
              subst hn₀y
              rw [restore_restore] at hv6
              exact ⟨restore nD nS, hv6, fun h2 => hmR⟩
          · have hpc : p ∉ d0.contents := by
              intro hm
              obtain ⟨h1, -, -, -⟩ := hCommonFacts p nS nD hpS hnD
              rw [h1 hm] at hdir
              cases hdir
            obtain ⟨-, -, -, h4f⟩ := hCommonFacts p nS nD hpS hnD
            have hmD : matchNode nS nD := h4f hpc hpm
            have hv5 : alookup s₅.fs p = some nD ∨
                alookup s₅.fs p = some (restore nD nS) := by
              rcases Kmeta p with h | ⟨nSx, n₀x, hnSx, hn₀x, hv⟩
              · rcases hv4 with h4 | h4
                · exact Or.inl (by rw [h]; exact h4)
                · exact Or.inr (by rw [h]; exact h4)
              · rw [hpS] at hnSx
                injection hnSx with hnSx
                subst hnSx
                rcases hv4 with h4 | h4
                · rw [h4] at hn₀x
                  injection hn₀x with hn₀x
                  subst hn₀x
                  exact Or.inr hv
                · rw [h4] at hn₀x
                  injection hn₀x with hn₀x
                  subst hn₀x
                  rw [restore_restore] at hv
                  exact Or.inr hv
            rcases Krepl5 p with h | ⟨nSx, n₀x, hnSx, hn₀x, hv⟩
            · rcases hv5 with h5 | h5
              · exact ⟨nD, by rw [h]; exact h5, fun h2 => hmD⟩
              · exact ⟨restore nD nS, by rw [h]; exact h5, fun h2 => hmR⟩
            · rw [hpS] at hnSx
              injection hnSx with hnSx
              subst hnSx
              rcases hv5 with h5 | h5
              · rw [h5] at hn₀x
                injection hn₀x with hn₀x
                subst hn₀x
                exact ⟨restore nD nS, hv, fun h2 => hmR⟩
              · rw [h5] at hn₀x
                injection hn₀x with hn₀x
                subst hn₀x
                rw [restore_restore] at hv
                exact ⟨restore nD nS, hv, fun h2 => hmR⟩
      · -- source file
        have hdirF : nS.is_dir = false := by
          revert hdir
          cases nS.is_dir <;> simp
        have hnB : ¬(ancIn d0.deleted p ∨ ancIn d0.added p ∨ ancIn d0.contents p) := by
          intro hB
          obtain ⟨hd2, -⟩ := hancFacts p hroot hB nS hpS
          rw [hdirF] at hd2
          cases hd2
        have hnb1 : ¬ancIn d0.deleted p := fun h2 => hnB (Or.inl h2)
        have hnb2 : ¬ancIn d0.added p := fun h2 => hnB (Or.inr (Or.inl h2))
        have hnb3 : ¬ancIn d0.contents p := fun h2 => hnB (Or.inr (Or.inr h2))
        by_cases hdst : (alookup dstFs p).isSome = true
        · obtain ⟨nD, hnD⟩ := Option.isSome_iff_exists.mp hdst
          have hpadd : p ∉ d0.added := by
            intro hm
            obtain ⟨-, h2⟩ := (hAdd p).mp hm
            rw [hnD] at h2
            cases h2
          have hv1 : alookup s₁.fs p = some nD := by
            rcases (Kdel0 p).2 hpdel with h | ⟨n, t, -, -, hanc⟩
            · rw [h]
              exact hnD
            · exact absurd hanc hnb1
          have hv2 : alookup s₂.fs p = some nD := by
            rcases Kmk p with h | ⟨n, t, -, -, hanc⟩ | ⟨hnone, -, -⟩
            · rw [h]
              exact hv1
            · exact absurd hanc hnb2
            · rw [hv1] at hnone
              cases hnone
          by_cases hpc : p ∈ d0.contents
          · have hv4 : alookup s₄.fs p = some (fileNode nS) := by
              rcases Gcont p hpc with ⟨nSx, hnSx, hdx⟩ | ⟨nSx, hnSx, -, -, hval⟩
              · rw [hpS] at hnSx
                injection hnSx with hnSx
                subst hnSx
                rw [hdx] at hdirF
                cases hdirF
              · rw [hpS] at hnSx
                injection hnSx with hnSx
                subst hnSx
                rcases hval with hv | ⟨t, -, hanc⟩
                · exact hv
                · exact absurd hanc hnb3
            have hv5 : alookup s₅.fs p = some (fileNode nS) := by
              rcases Kmeta p with h | ⟨nSx, n₀x, hnSx, hn₀x, hv⟩
              · rw [h]
                exact hv4
              · rw [hpS] at hnSx
                injection hnSx with hnSx
                subst hnSx
                rw [hv4] at hn₀x
                injection hn₀x with hn₀x
                subst hn₀x
                rw [restore_fileNode] at hv
                exact hv
            rcases Krepl5 p with h | ⟨nSx, n₀x, hnSx, hn₀x, hv⟩
            · exact ⟨fileNode nS, by rw [h]; exact hv5, fun h2 => matchNode_fileNode nS⟩
            · rw [hpS] at hnSx
              injection hnSx with hnSx
              subst hnSx
              rw [hv5] at hn₀x
              injection hn₀x with hn₀x
              subst hn₀x
              rw [restore_fileNode] at hv
              exact ⟨fileNode nS, hv, fun h2 => matchNode_fileNode nS⟩
          · obtain ⟨-, -, h3f, h4f⟩ := hCommonFacts p nS nD hpS hnD
            have hszEq : nS.size = nD.size := h3f hpc hdirF
            have hmR : matchNode nS (restore nD nS) := matchNode_restore nD nS hszEq.symm
            have hv3 : alookup s₃.fs p = some nD ∨
                alookup s₃.fs p = some (fileNode nS) ∨
                alookup s₃.fs p = some (restore nD nS) := by
              rcases Kadd p with h | ⟨n, t, -, -, hanc⟩ | ⟨nSx, hnSx, -, hval⟩ |
                ⟨nSx, n₀x, hnSx, hn₀x, hval⟩
              · exact Or.inl (by rw [h]; exact hv2)
              · exact absurd hanc hnb2
              · rw [hpS] at hnSx
                injection hnSx with hnSx
                subst hnSx
                rcases hval with hv | ⟨t, -, hanc⟩
                · exact Or.inr (Or.inl hv)
                · exact absurd hanc hnb2
              · rw [hpS] at hnSx
                injection hnSx with hnSx
                subst hnSx
                rw [hv2] at hn₀x
                injection hn₀x with hn₀x
                subst hn₀x
                rcases hval with hv | ⟨t, -, hanc⟩
                · exact Or.inr (Or.inr hv)
                · exact absurd hanc hnb2
            have hv4 : alookup s₄.fs p = some nD ∨
                alookup s₄.fs p = some (fileNode nS) ∨
                alookup s₄.fs p = some (restore nD nS) := by
              rcases Kcont p with h | ⟨n, t, -, -, hanc⟩ | ⟨nSx, hnSx, -, hval⟩ |
                ⟨nSx, n₀x, hnSx, hn₀x, hval⟩
              · rcases hv3 with h3 | h3 | h3
                · exact Or.inl (by rw [h]; exact h3)
                · exact Or.inr (Or.inl (by rw [h]; exact h3))
                · exact Or.inr (Or.inr (by rw [h]; exact h3))
              · exact absurd hanc hnb3
              · rw [hpS] at hnSx
                injection hnSx with hnSx
                subst hnSx
                rcases hval with hv | ⟨t, -, hanc⟩
                · exact Or.inr (Or.inl hv)
                · exact absurd hanc hnb3
              · rw [hpS] at hnSx
                injection hnSx with hnSx
                subst hnSx
                rcases hval with hv | ⟨t, -, hanc⟩
                · rcases hv3 with h3 | h3 | h3
                  · rw [h3] at hn₀x
                    injection hn₀x with hn₀x
                    subst hn₀x
                    exact Or.inr (Or.inr hv)
                  · rw [h3] at hn₀x
                    injection hn₀x with hn₀x
                    subst hn₀x
                    rw [restore_fileNode] at hv
                    exact Or.inr (Or.inl hv)
                  · rw [h3] at hn₀x
                    injection hn₀x with hn₀x
                    subst hn₀x
                    rw [restore_restore] at hv
                    exact Or.inr (Or.inr hv)
                · exact absurd hanc hnb3
            by_cases hpm : p ∈ d0.metadata
            · obtain ⟨nSx, n₀x, hnSx, hn₀x, hv5⟩ := Gmeta p hpm
              rw [hpS] at hnSx
              injection hnSx with hnSx
              subst hnSx
              have hv5e : alookup s₅.fs p = some (fileNode nS) ∨
                  alookup s₅.fs p = some (restore nD nS) := by
                rcases hv4 with h4 | h4 | h4
                · rw [h4] at hn₀x
                  injection hn₀x with hn₀x
                  subst hn₀x
                  exact Or.inr hv5
                · rw [h4] at hn₀x
                  injection hn₀x with hn₀x
                  subst hn₀x
                  rw [restore_fileNode] at hv5
                  exact Or.inl hv5
                · rw [h4] at hn₀x
                  injection hn₀x with hn₀x
                  subst hn₀x
                  rw [restore_restore] at hv5
                  exact Or.inr hv5
              rcases Krepl5 p with h | ⟨nSy, n₀y, hnSy, hn₀y, hv⟩
              · rcases hv5e with h5 | h5
                · exact ⟨fileNode nS, by rw [h]; exact h5, fun h2 => matchNode_fileNode nS⟩
                · exact ⟨restore nD nS, by rw [h]; exact h5, fun h2 => hmR⟩
              · rw [hpS] at hnSy
                injection hnSy with hnSy
                subst hnSy
                rcases hv5e with h5 | h5
                · rw [h5] at hn₀y
                  injection hn₀y with hn₀y
                  subst hn₀y
                  rw [restore_fileNode] at hv
                  exact ⟨fileNode nS, hv, fun h2 => matchNode_fileNode nS⟩
                · rw [h5] at hn₀y
                  injection hn₀y with hn₀y
                  subst hn₀y
                  rw [restore_restore] at hv
                  exact ⟨restore nD nS, hv, fun h2 => hmR⟩
            · have hmD : matchNode nS nD := h4f hpc hpm
              have hv5 : alookup s₅.fs p = some nD ∨
                  alookup s₅.fs p = some (fileNode nS) ∨
                  alookup s₅.fs p = some (restore nD nS) := by
                rcases Kmeta p with h | ⟨nSx, n₀x, hnSx, hn₀x, hv⟩
                · rcases hv4 with h4 | h4 | h4
                  · exact Or.inl (by rw [h]; exact h4)
                  · exact Or.inr (Or.inl (by rw [h]; exact h4))
                  · exact Or.inr (Or.inr (by rw [h]; exact h4))
                · rw [hpS] at hnSx
                  injection hnSx with hnSx
                  subst hnSx
                  rcases hv4 with h4 | h4 | h4
                  · rw [h4] at hn₀x
                    injection hn₀x with hn₀x
                    subst hn₀x
                    exact Or.inr (Or.inr hv)
                  · rw [h4] at hn₀x
                    injection hn₀x with hn₀x
                    subst hn₀x
                    rw [restore_fileNode] at hv
                    exact Or.inr (Or.inl hv)
                  · rw [h4] at hn₀x
                    injection hn₀x with hn₀x
                    subst hn₀x
                    rw [restore_restore] at hv
                    exact Or.inr (Or.inr hv)
              rcases Krepl5 p with h | ⟨nSx, n₀x, hnSx, hn₀x, hv⟩
              · rcases hv5 with h5 | h5 | h5
                · exact ⟨nD, by rw [h]; exact h5, fun h2 => hmD⟩
                · exact ⟨fileNode nS, by rw [h]; exact h5, fun h2 => matchNode_fileNode nS⟩
                · exact ⟨restore nD nS, by rw [h]; exact h5, fun h2 => hmR⟩
              · rw [hpS] at hnSx
                injection hnSx with hnSx
                subst hnSx
                rcases hv5 with h5 | h5 | h5
                · rw [h5] at hn₀x
                  injection hn₀x with hn₀x
                  subst hn₀x
                  exact ⟨restore nD nS, hv, fun h2 => hmR⟩
                · rw [h5] at hn₀x
                  injection hn₀x with hn₀x
                  subst hn₀x
                  rw [restore_fileNode] at hv
                  exact ⟨fileNode nS, hv, fun h2 => matchNode_fileNode nS⟩
                · rw [h5] at hn₀x
                  injection hn₀x with hn₀x
                  subst hn₀x
                  rw [restore_restore] at hv
                  exact ⟨restore nD nS, hv, fun h2 => hmR⟩
        · have hdn : alookup dstFs p = none := hOptNone _ hdst
          have hpadd : p ∈ d0.added := (hAdd p).mpr ⟨by rw [hpS]; rfl, hdn⟩
          have hv1 : alookup s₁.fs p = none := by
            rcases (Kdel0 p).2 hpdel with h | ⟨n, t, hn, -, -⟩
            · rw [h]
              exact hdn
            · rw [hdn] at hn
              cases hn
          have hv2 : alookup s₂.fs p = none := by
            rcases Kmk p with h | ⟨n, t, hn, -, -⟩ | ⟨-, ⟨nSx, hnSx, hdx⟩, -⟩
            · rw [h]
              exact hv1
            · rw [hv1] at hn
              cases hn
            · rw [hpS] at hnSx
              injection hnSx with hnSx
              subst hnSx
              rw [hdx] at hdirF
              cases hdirF
          have hv3 : alookup s₃.fs p = some (fileNode nS) := by
            rcases Gadd p hpadd with ⟨nSx, hnSx, hdx⟩ | ⟨nSx, hnSx, -, -, hval⟩
            · rw [hpS] at hnSx
              injection hnSx with hnSx
              subst hnSx
              rw [hdx] at hdirF
              cases hdirF
            · rw [hpS] at hnSx
              injection hnSx with hnSx
              subst hnSx
              rcases hval with hv | ⟨t, -, hanc⟩
              · exact hv
              · exact absurd hanc hnb2
          have hv4 : alookup s₄.fs p = some (fileNode nS) := by
            rcases Kcont p with h | ⟨n, t, -, -, hanc⟩ | ⟨nSx, hnSx, -, hval⟩ |
              ⟨nSx, n₀x, hnSx, hn₀x, hval⟩
            · rw [h]
              exact hv3
            · exact absurd hanc hnb3
            · rw [hpS] at hnSx
              injection hnSx with hnSx
              subst hnSx
              rcases hval with hv | ⟨t, -, hanc⟩
              · exact hv
              · exact absurd hanc hnb3
            · rw [hpS] at hnSx
              injection hnSx with hnSx
              subst hnSx
              rw [hv3] at hn₀x
              injection hn₀x with hn₀x
              subst hn₀x
              rw [restore_fileNode] at hval
              rcases hval with hv | ⟨t, -, hanc⟩
              · exact hv
              · exact absurd hanc hnb3
          have hv5 : alookup s₅.fs p = some (fileNode nS) := by
            rcases Kmeta p with h | ⟨nSx, n₀x, hnSx, hn₀x, hv⟩
            · rw [h]
              exact hv4
            · rw [hpS] at hnSx
              injection hnSx with hnSx
              subst hnSx
              rw [hv4] at hn₀x
              injection hn₀x with hn₀x
              subst hn₀x
              rw [restore_fileNode] at hv
              exact hv
          rcases Krepl5 p with h | ⟨nSx, n₀x, hnSx, hn₀x, hv⟩
          · exact ⟨fileNode nS, by rw [h]; exact hv5, fun h2 => matchNode_fileNode nS⟩
          · rw [hpS] at hnSx
            injection hnSx with hnSx
            subst hnSx
            rw [hv5] at hn₀x
            injection hn₀x with hn₀x
            subst hn₀x
            rw [restore_fileNode] at hv
            exact ⟨fileNode nS, hv, fun h2 => matchNode_fileNode nS⟩

/-- C1 (amended): for well-formed source and destination trees with no
directory/file type conflict on shared paths, a `sync` run with deletes
enabled that reports success — no per-operation error was consumed
(`dirty` stays false) and no delete raised (the `rm_file` handler is
broken, so a failing delete escapes as a NameError) — and in which the
regression guard fired on nothing (`overwrite_regressed` set, or an
empty `regressed` plan) produces a destination tree whose rescan diffs
clean against the source: empty `added`, `deleted` and `contents`, and
`metadata` naming at most the root directory "." (whose mtime the engine
never restores); every other directory's and file's attributes,
directory mtimes included, match the source. -/
theorem C1_convergence (rs rd rq : String) (srcFs dstFs : Fs) (ow : Bool)
    (cfg : SyncCfg) (c0 : Int) (d : Diff) (st' : SState)
    (hsf : cfg.srcFs = srcFs)
    (hms : cfg.manifest_src = manifestOfFs rs srcFs)
    (hmd : cfg.manifest_dst = manifestOfFs rd dstFs)
    (hed : cfg.enable_delete = true)
    (hdry : cfg.dry_run = false)
    (how : cfg.overwrite_regressed = ow)
    (hwfS : WfFs srcFs) (hwfD : WfFs dstFs)
    (hcompat : ∀ x ∈ srcFs, ∀ y ∈ dstFs, x.1 = y.1 → x.2.is_dir = y.2.is_dir)
    (hrun : Sync.sync cfg (initSState cfg dstFs c0) = .ok (d, st'))
    (hclean : st'.dirty = false)
    (hreg : ow = true ∨ d.regressed = []) :
    ∃ d2, (manifestOfFs rs srcFs).diff_from (manifestOfFs rq st'.fs) = .ok d2 ∧
      d2.added = [] ∧ d2.deleted = [] ∧ d2.contents = [] ∧
      ∀ p ∈ d2.metadata, p = "." := by
  obtain ⟨K2, K1⟩ := sync_final_fs rs rd srcFs dstFs ow cfg c0 d st' hsf hms hmd
    hed hdry how hwfS hwfD hcompat hrun hclean hreg
  have hinfo : ∀ p ∈ commonKeys (manifestOfFs rs srcFs) (manifestOfFs rq st'.fs),
      (stepInfo (manifestOfFs rs srcFs) (manifestOfFs rq st'.fs) p).isSome = true := by
    intro p hp
    unfold commonKeys at hp
    rw [List.mem_filter] at hp
    obtain ⟨h1, h2⟩ := hp
    simp only [akeys_manifestOfFs, decide_eq_true_eq] at h1 h2
    obtain ⟨nS, hnS⟩ :=
      Option.isSome_iff_exists.mp ((alookup_isSome_iff_mem_akeys _ _).mpr h1)
    obtain ⟨n, hn⟩ :=
      Option.isSome_iff_exists.mp ((alookup_isSome_iff_mem_akeys _ _).mpr h2)
    obtain ⟨fd, hfd, -, -⟩ := delta_entryOfNode rs rq p nS n
    unfold stepInfo
    rw [alookup_manifestOfFs, alookup_manifestOfFs, hnS, hn]
    dsimp only [Option.map_some']
    rw [hfd]
    rfl
  obtain ⟨d2, hd2⟩ := diff_from_ok_of_info _ _ hinfo
  obtain ⟨hA2, hD2, -, hC2, hM2, -, -, -, -⟩ := diff_from_lists _ _ d2 hd2
  have hAe : d2.added = [] := by
    rw [List.eq_nil_iff_forall_not_mem]
    intro a ha
    rw [hA2, List.mem_filter] at ha
    obtain ⟨h1, h2⟩ := ha
    simp only [akeys_manifestOfFs, decide_eq_true_eq] at h1 h2
    obtain ⟨nS, hnS⟩ :=
      Option.isSome_iff_exists.mp ((alookup_isSome_iff_mem_akeys _ _).mpr h1)
    obtain ⟨n, hn, -⟩ := K1 a nS hnS
    exact h2 ((alookup_isSome_iff_mem_akeys _ _).mp (by rw [hn]; rfl))
  have hDe : d2.deleted = [] := by
    rw [List.eq_nil_iff_forall_not_mem]
    intro a ha
    rw [hD2, List.mem_filter] at ha
    obtain ⟨h1, h2⟩ := ha
    simp only [akeys_manifestOfFs, decide_eq_true_eq] at h1 h2
    have hnone : alookup srcFs a = none := (alookup_eq_none_iff_not_mem_akeys _ _).mpr h2
    have h3 := (alookup_isSome_iff_mem_akeys st'.fs a).mpr h1
    rw [K2 a hnone] at h3
    simp at h3
  have hCont : d2.contents = [] := by
    rw [List.eq_nil_iff_forall_not_mem]
    intro p hp
    obtain ⟨hcm1, hclsC⟩ := (hC2 p).mp hp
    unfold commonKeys at hcm1
    rw [List.mem_filter] at hcm1
    obtain ⟨hk1, hk2⟩ := hcm1
    simp only [akeys_manifestOfFs, decide_eq_true_eq] at hk1 hk2
    obtain ⟨nS, hnS⟩ :=
      Option.isSome_iff_exists.mp ((alookup_isSome_iff_mem_akeys _ _).mpr hk1)
    obtain ⟨n, hn, hmatch⟩ := K1 p nS hnS
    obtain ⟨fd, hfd, hiff, -⟩ := delta_entryOfNode rs rq p nS n
    have hsi : stepInfo (manifestOfFs rs srcFs) (manifestOfFs rq st'.fs) p =
        some (entryOfNode rs p nS, entryOfNode rq p n, fd) := by
      unfold stepInfo
      rw [alookup_manifestOfFs, alookup_manifestOfFs, hnS, hn]
      dsimp only [Option.map_some']
      rw [hfd]
    have hclsC2 : (fd.dirty &&
        (!(entryOfNode rs p nS).is_dir && changedSetFlag fd)) = true := by
      unfold classC at hclsC
      rw [hsi] at hclsC
      exact hclsC
    by_cases hroot : p = "."
    · subst hroot
      obtain ⟨nr, hnr, hdirr⟩ := wf_root srcFs hwfS
      rw [hnS] at hnr
      injection hnr with hnr
      subst hnr
      simp [entryOfNode, hdirr] at hclsC2
    · have hfd0 : fd.dirty = false := hiff.mpr (hmatch hroot)
      simp [hfd0] at hclsC2
  have hMet : ∀ p ∈ d2.metadata, p = "." := by
    intro p hp
    by_contra hroot
    obtain ⟨hcm1, hclsM⟩ := (hM2 p).mp hp
    unfold commonKeys at hcm1
    rw [List.mem_filter] at hcm1
    obtain ⟨hk1, hk2⟩ := hcm1
    simp only [akeys_manifestOfFs, decide_eq_true_eq] at hk1 hk2
    obtain ⟨nS, hnS⟩ :=
      Option.isSome_iff_exists.mp ((alookup_isSome_iff_mem_akeys _ _).mpr hk1)
    obtain ⟨n, hn, hmatch⟩ := K1 p nS hnS
    obtain ⟨fd, hfd, hiff, -⟩ := delta_entryOfNode rs rq p nS n
    have hsi : stepInfo (manifestOfFs rs srcFs) (manifestOfFs rq st'.fs) p =
        some (entryOfNode rs p nS, entryOfNode rq p n, fd) := by
      unfold stepInfo
      rw [alookup_manifestOfFs, alookup_manifestOfFs, hnS, hn]
      dsimp only [Option.map_some']
      rw [hfd]
    have hclsM2 : (fd.dirty && (((entryOfNode rs p nS).is_dir && changedSetFlag fd) ||
        fd.uid || fd.gid || fd.mode)) = true := by
      unfold classM at hclsM
      rw [hsi] at hclsM
      exact hclsM
    have hfd0 : fd.dirty = false := hiff.mpr (hmatch hroot)
    simp [hfd0] at hclsM2
  exact ⟨d2, hd2, hAe, hDe, hCont, hMet⟩

/-- Concrete configuration for the C1 witness: copy two files into a
destination holding one stale file, deletes enabled, not a dry run. -/
def cfgC1w : SyncCfg :=
  mkSyncCfg fsC2src (manifestOfFs "/s" fsC2src) (manifestOfFs "/d" fsC2dst) true false false

/-- Witness for C1: the amended convergence theorem applies to the
concrete two-file copy-with-delete scenario; all hypotheses hold by
computation, and the rescan of the final tree diffs clean. -/
theorem C1_witness :
    WfFs fsC2src ∧ WfFs fsC2dst ∧
    (∀ x ∈ fsC2src, ∀ y ∈ fsC2dst, x.1 = y.1 → x.2.is_dir = y.2.is_dir) ∧
    ∃ d st2 d2, Sync.sync cfgC1w (initSState cfgC1w fsC2dst 1000) = .ok (d, st2) ∧
      st2.dirty = false ∧ d.regressed = [] ∧
      (manifestOfFs "/s" fsC2src).diff_from (manifestOfFs "/s" st2.fs) = .ok d2 ∧
      d2.added = [] ∧ d2.deleted = [] ∧ d2.contents = [] ∧
      ∀ p ∈ d2.metadata, p = "." := by
  refine ⟨by unfold WfFs; decide, by unfold WfFs; decide, by decide, ?_⟩
  cases hs : Sync.sync cfgC1w (initSState cfgC1w fsC2dst 1000) with
  | error e =>
    have hh : (Sync.sync cfgC1w (initSState cfgC1w fsC2dst 1000)).toOption.isSome
        = true := by decide
    rw [hs] at hh
    simp [Except.toOption] at hh
  | ok r =>
    obtain ⟨d1, st2⟩ := r
    have hdty : st2.dirty = false := by
      have hh : (Sync.sync cfgC1w (initSState cfgC1w fsC2dst 1000)).map
          (fun r => r.2.dirty) = .ok false := by decide
      rw [hs] at hh
      simp only [Except.map, Except.ok.injEq] at hh
      exact hh
    have hregr : d1.regressed = [] := by
      have hh : (Sync.sync cfgC1w (initSState cfgC1w fsC2dst 1000)).map
          (fun r => r.1.regressed) = .ok ([] : List String) := by decide
      rw [hs] at hh
      simp only [Except.map, Except.ok.injEq] at hh
      exact hh
    obtain ⟨d2, hdf2, hA, hD, hC, hM⟩ :=
      C1_convergence "/s" "/d" "/s" fsC2src fsC2dst false cfgC1w 1000 d1 st2
        rfl rfl rfl rfl rfl rfl (by unfold WfFs; decide) (by unfold WfFs; decide)
        (by decide) hs hdty (Or.inr hregr)
    exact ⟨d1, st2, d2, rfl, hdty, hregr, hdf2, hA, hD, hC, hM⟩

end Baycat
